import Mathlib

/-! Depth recovery from stereo disparity (`libfovis/stereo_disparity.cpp`).

A shallow embedding of `fovis::StereoDisparity`: the ingestion of a disparity
grid (`setDisparityData`), the per-pixel queries (`haveXyz`,
`getXyzValues`), the whole-frame depth assignment `getXyz`, the
sub-pixel bilinear interpolation `getXyzInterp` and the match sweep
`refineXyz`, followed by theorems about them.

Modelling conventions.

* A `float` or `double` value is either an exact rational or the single
  non-finite marker `FloatVal.nan`, which stands for `NAN` and for the result
  of a division by zero.  The marker is absorbing for `+`, `*`, `/` and every
  ordered comparison with it is false, as for an IEEE not-a-number.
* Stored disparities, keypoint positions and the entries of the calibration
  transform are finite, hence rationals; the source's driver delivers `0` for
  a pixel without a measurement and the code itself introduces `NAN`.
* Scalar conversions and scalar operations whose rounding decides which pixel
  is read are rounded as IEEE 754 does, to nearest with ties to even
  (`toFloat`, 24 bits, and `toDouble`, 53 bits, with gradual underflow; the
  exponent is not bounded above, pixel coordinates being far from overflow):
  the sum `x + 0.5` of `getXyz`, and in `getXyzInterpRounded` the narrowing of
  the position to `float` and the single-precision weights.  `float`
  expressions are evaluated in single precision.  The vector arithmetic of
  the projection and of the blend is exact.
* `getXyzInterp` and `refineXyz` are the same code with the position and the
  weights taken exactly, for the statements that are made over exact
  arithmetic or that do not depend on which neighbouring pixel the narrowed
  position selects; `getXyzInterpRounded` agrees with `getXyzInterp` wherever
  the position is a non-negative `float` and single precision computes the
  bilinear weights exactly (`getXyzInterpRounded_eq_of_single`).
* `int` values are integers.  The conversion `(int) x` truncates toward zero.
* A failed `assert` and a read outside the disparity buffer or the match
  buffer have no result: the embedded function returns `none`.
-/

namespace fovis

/-! ## Numeric values -/

/-- A `float`/`double` value: an exact rational or the non-finite marker. -/
inductive FloatVal where
  | num (q : ℚ)
  | nan
  deriving DecidableEq, Repr

namespace FloatVal

/-- The test `isnan(x)`. -/
def isnan : FloatVal → Bool
  | num _ => false
  | nan => true

/-- Sum of two values; the marker is absorbing. -/
def add : FloatVal → FloatVal → FloatVal
  | num a, num b => num (a + b)
  | _, _ => nan

/-- Product of two values; the marker is absorbing. -/
def mul : FloatVal → FloatVal → FloatVal
  | num a, num b => num (a * b)
  | _, _ => nan

/-- Quotient of two values; dividing by zero gives the non-finite marker. -/
def div : FloatVal → FloatVal → FloatVal
  | num a, num b => if b = 0 then nan else num (a / b)
  | _, _ => nan

instance : Add FloatVal := ⟨add⟩
instance : Mul FloatVal := ⟨mul⟩
instance : Div FloatVal := ⟨div⟩

end FloatVal

/-- The conversion `(int) x` of a floating value: truncation toward zero. -/
def toInt (x : ℚ) : ℤ :=
  if 0 ≤ x then ⌊x⌋ else -⌊-x⌋

/-- Rounding to the nearest integer, ties to the even one. -/
def roundHalfEven (t : ℚ) : ℤ :=
  if t - ⌊t⌋ < 1 / 2 then ⌊t⌋
  else if 1 / 2 < t - ⌊t⌋ then ⌊t⌋ + 1
  else if ⌊t⌋ % 2 = 0 then ⌊t⌋ else ⌊t⌋ + 1

/-- The exponent of the spacing of a binary format around `x`: `p` is the
precision in bits and `emin` the exponent of the smallest normal number. -/
def quantumExp (p : ℕ) (emin : ℤ) (x : ℚ) : ℤ :=
  max (Int.log 2 |x|) emin - (p - 1)

/-- Rounding to the nearest value of a binary format, ties to even. -/
@[irreducible] def roundBinary (p : ℕ) (emin : ℤ) (x : ℚ) : ℚ :=
  if x = 0 then 0
  else (roundHalfEven (x / (2 : ℚ) ^ quantumExp p emin x) : ℚ) * (2 : ℚ) ^ quantumExp p emin x

/-- A value of the binary format with precision `p` and smallest normal
exponent `emin`: an integer multiple `m * 2 ^ k` of a spacing of the format,
of magnitude below `2 ^ (k + p)`. -/
def Representable (p : ℕ) (emin : ℤ) (y : ℚ) : Prop :=
  ∃ m k : ℤ, y = (m : ℚ) * (2 : ℚ) ^ k ∧ |y| < (2 : ℚ) ^ (k + p) ∧ emin - (p - 1) ≤ k

/-- The value of a `float` holding `x`: IEEE 754 single precision. -/
def toFloat (x : ℚ) : ℚ := roundBinary 24 (-126) x

/-- The value of a `double` holding `x`: IEEE 754 double precision. -/
def toDouble (x : ℚ) : ℚ := roundBinary 53 (-1022) x

/-- An `Eigen::Vector3d`. -/
structure Vector3d where
  x : FloatVal
  y : FloatVal
  z : FloatVal
  deriving DecidableEq, Repr

/-- An `Eigen::Vector4d`. -/
structure Vector4d where
  x : FloatVal
  y : FloatVal
  z : FloatVal
  w : FloatVal
  deriving DecidableEq, Repr

namespace Vector3d

/-- Component-wise sum `a + b`. -/
def add (a b : Vector3d) : Vector3d := ⟨a.x + b.x, a.y + b.y, a.z + b.z⟩

/-- Product with a scalar, `a * s`. -/
def scale (a : Vector3d) (s : FloatVal) : Vector3d := ⟨a.x * s, a.y * s, a.z * s⟩

/-- The vector `Eigen::Vector3d(0., 0., 0.)`. -/
def zero : Vector3d := ⟨.num 0, .num 0, .num 0⟩

/-- The vector `Eigen::Vector3d(NAN, NAN, NAN)`. -/
def allNan : Vector3d := ⟨.nan, .nan, .nan⟩

end Vector3d

/-- The assignments `xyzw.head<3>() = xyz; xyzw.w() = 1`. -/
def Vector4d.ofXyz1 (p : Vector3d) : Vector4d := ⟨p.x, p.y, p.z, .num 1⟩

/-- An `Eigen::Matrix4d` with finite entries, stored by rows. -/
structure Matrix4d where
  m00 : ℚ
  m01 : ℚ
  m02 : ℚ
  m03 : ℚ
  m10 : ℚ
  m11 : ℚ
  m12 : ℚ
  m13 : ℚ
  m20 : ℚ
  m21 : ℚ
  m22 : ℚ
  m23 : ℚ
  m30 : ℚ
  m31 : ℚ
  m32 : ℚ
  m33 : ℚ

/-- One row of the matrix-vector product `M * uvd1`. -/
def rowDot (a b c d : ℚ) (v : Vector4d) : FloatVal :=
  .num a * v.x + .num b * v.y + .num c * v.z + .num d * v.w

/-- The product `M * v` of a 4x4 matrix and a homogeneous vector. -/
def Matrix4d.mulVec (M : Matrix4d) (v : Vector4d) : Vector4d :=
  ⟨rowDot M.m00 M.m01 M.m02 M.m03 v, rowDot M.m10 M.m11 M.m12 M.m13 v,
   rowDot M.m20 M.m21 M.m22 M.m23 v, rowDot M.m30 M.m31 M.m32 M.m33 v⟩

/-- The perspective division `xyzw.head<3>() / xyzw.w()`. -/
def Vector4d.hnormalized (p : Vector4d) : Vector3d := ⟨p.x / p.w, p.y / p.w, p.z / p.w⟩

/-! ## Data model -/

/-- Modelled from the spec: the keypoint record `KeypointData`, declared in a
header that is not part of the sources; the fields are the ones the spec
lists (rectified position, disparity, 3D point, homogeneous point, depth
flag). -/
structure KeypointData where
  rect_base_uv : ℚ × ℚ
  disparity : FloatVal
  xyz : Vector3d
  xyzw : Vector4d
  has_depth : Bool
  deriving DecidableEq

/-- Modelled from the spec: the status code of a feature match, declared in a
header that is not part of the sources. -/
inductive MatchStatusCode where
  | MATCH_NEEDS_DEPTH_REFINEMENT
  | MATCH_REFINEMENT_FAILED
  | MATCH_OK
  | MATCH_PENDING
  | MATCH_OTHER (code : ℕ)
  deriving DecidableEq

/-- Modelled from the spec: the feature match record `FeatureMatch`, declared
in a header that is not part of the sources; the fields are the ones
`refineXyz` reads or writes. -/
structure FeatureMatch where
  refined_target_keypoint : KeypointData
  inlier : Bool
  status : MatchStatusCode
  deriving DecidableEq

/-- The state of a `StereoDisparity` object that the depth queries use: the
calibration dimensions, the disparity buffer and the transform. -/
structure StereoDisparity where
  width : ℤ
  height : ℤ
  disparity_data : List ℚ
  uvd1_to_xyz : Matrix4d

/-- The read `_disparity_data[index]`; no result outside the buffer. -/
def StereoDisparity.readDisparity (sd : StereoDisparity) (index : ℤ) : Option ℚ :=
  if 0 ≤ index then sd.disparity_data[index.toNat]? else none

/-! ## Operations -/

/-- The projection of the homogeneous sample `(u, v, disparity, 1)`: the body
of `getXyzValues` after the casts of `u` and `v` to `double`. -/
def projectUvd (M : Matrix4d) (u v : ℚ) (disparity : FloatVal) : Vector3d :=
  let uvd1 : Vector4d := ⟨.num u, .num v, disparity, .num 1⟩
  let xyzw := M.mulVec uvd1
  xyzw.hnormalized

/-- `StereoDisparity::getXyzValues(int u, int v, float disparity)`. -/
def StereoDisparity.getXyzValues (sd : StereoDisparity) (u v : ℤ) (disparity : FloatVal) :
    Vector3d :=
  projectUvd sd.uvd1_to_xyz (u : ℚ) (v : ℚ) disparity

/-- `StereoDisparity::haveXyz(int u, int v)`. -/
def StereoDisparity.haveXyz (sd : StereoDisparity) (u v : ℤ) : Option Bool :=
  match sd.readDisparity (v * sd.width + u) with
  | none => none
  | some disp => if disp = 0 then some false else some true

/-- The array `w[4]` of `getXyzInterp` for the fractions `wright`, `wbottom`. -/
def bilinearWeights (wright wbottom : ℚ) : List ℚ :=
  [(1 - wright) * (1 - wbottom), wright * (1 - wbottom), (1 - wright) * wbottom,
   wright * wbottom]

/-- One corner of the 2x2 neighbourhood: entry `i` of the arrays `w`,
`u_vals`, `v_vals` and `disparities` of `getXyzInterp`. -/
structure Corner where
  w : ℚ
  u : ℤ
  v : ℤ
  disparity : FloatVal

/-- The loop that replaces a zero disparity by `NAN`. -/
def markMissing (d : ℚ) : FloatVal :=
  if d = 0 then .nan else .num d

/-- One iteration of the clamping loop of `getXyzInterp` (state: the
keypoint's `xyz` and `wmax`). -/
def clampStep (sd : StereoDisparity) (st : Vector3d × ℚ) (c : Corner) : Vector3d × ℚ :=
  if c.disparity.isnan = true ∧ c.w > st.2 then
    (sd.getXyzValues c.u c.v c.disparity, c.w)
  else st

/-- One iteration of the blending loop of `getXyzInterp`. -/
def blendStep (sd : StereoDisparity) (xyz_combined : Vector3d) (c : Corner) : Vector3d :=
  let xyz := sd.getXyzValues c.u c.v c.disparity
  xyz_combined.add (xyz.scale (.num c.w))

/-- Steps 2 and 3 of `getXyzInterp`, from the point where the four
disparities `d0 .. d3` around pixel `(u, v)` have been read: the marking of
missing data, the count, and the clamping or blending of the corners. -/
def StereoDisparity.interpolateCorners (sd : StereoDisparity) (kpdata : KeypointData)
    (u v : ℤ) (w : List ℚ) (d0 d1 d2 d3 : ℚ) : Bool × KeypointData :=
  let disparities := [d0, d1, d2, d3].map markMissing
  let u_vals := [u, u + 1, u, u + 1]
  let v_vals := [v, v, v + 1, v + 1]
  let corners : List Corner :=
    List.zipWith (fun (wu : ℚ × ℤ) (vd : ℤ × FloatVal) => ⟨wu.1, wu.2, vd.1, vd.2⟩)
      (w.zip u_vals) (v_vals.zip disparities)
  let num_missing_data := (disparities.filter FloatVal.isnan).length
  if num_missing_data = 4 then
    (false, kpdata)
  else
    let xyz :=
      if num_missing_data ≠ 0 then
        (corners.foldl (clampStep sd) (kpdata.xyz, -1)).1
      else
        corners.foldl (blendStep sd) Vector3d.zero
    (true, { kpdata with xyz := xyz, xyzw := Vector4d.ofXyz1 xyz })

/-- `StereoDisparity::getXyzInterp(KeypointData* kpdata)` in exact arithmetic:
the returned flag and the keypoint after the call, the position and the
weights being taken without the narrowing to `float` of lines 155-172
(`getXyzInterpRounded` below has the conversions). -/
def StereoDisparity.getXyzInterp (sd : StereoDisparity) (kpdata : KeypointData) :
    Option (Bool × KeypointData) :=
  let x_scale : ℚ := 1
  let y_scale : ℚ := 1
  let u_f := kpdata.rect_base_uv.1
  let v_f := kpdata.rect_base_uv.2
  let v_f_d := v_f * y_scale
  let u_f_d := u_f * x_scale
  let v := toInt v_f_d
  let u := toInt u_f_d
  let wright := u_f_d - u
  let wbottom := v_f_d - v
  if u ≥ 0 ∧ v ≥ 0 ∧ u < sd.width - 1 ∧ v < sd.height - 1 then
    let w := bilinearWeights wright wbottom
    let index := v * sd.width + u
    match sd.readDisparity index, sd.readDisparity (index + 1),
        sd.readDisparity (index + sd.width), sd.readDisparity (index + sd.width + 1) with
    | some d0, some d1, some d2, some d3 =>
      some (sd.interpolateCorners kpdata u v w d0 d1 d2 d3)
    | _, _, _, _ => none
  else none

/-- The body of the keypoint loop of `getXyz` for one keypoint.  The sum
`rect_base_uv + 0.5` is a `double` addition. -/
def StereoDisparity.getXyzKeypoint (sd : StereoDisparity) (kpdata : KeypointData) :
    Option KeypointData :=
  let u := toInt (toDouble (kpdata.rect_base_uv.1 + 1 / 2))
  let v := toInt (toDouble (kpdata.rect_base_uv.2 + 1 / 2))
  match sd.readDisparity (v * sd.width + u) with
  | none => none
  | some disparity =>
    if disparity = 0 then
      some { kpdata with
        disparity := .nan, has_depth := false, xyzw := ⟨.nan, .nan, .nan, .nan⟩,
        xyz := Vector3d.allNan }
    else
      let xyz := sd.getXyzValues u v (.num disparity)
      some { kpdata with
        disparity := .num disparity, has_depth := true, xyz := xyz,
        xyzw := Vector4d.ofXyz1 xyz }

/-- A sequential loop over a list whose body may have no result. -/
def forEach {α : Type} (body : α → Option α) : List α → Option (List α)
  | [] => some []
  | a :: rest =>
    match body a with
    | none => none
    | some a' =>
      match forEach body rest with
      | none => none
      | some rest' => some (a' :: rest')

/-- Modelled from the spec: one pyramid level of a frame, declared in a header
that is not part of the sources; it holds the keypoints of the level. -/
structure PyramidLevel where
  keypoints : List KeypointData
  deriving DecidableEq

/-- Modelled from the spec: a frame, declared in a header that is not part of
the sources; it holds the pyramid levels. -/
structure OdometryFrame where
  levels : List PyramidLevel
  deriving DecidableEq

/-- `StereoDisparity::getXyz(OdometryFrame* odom_frame)`: the frame after the
call. -/
def StereoDisparity.getXyz (sd : StereoDisparity) (odom_frame : OdometryFrame) :
    Option OdometryFrame :=
  match forEach (fun (level : PyramidLevel) =>
      match forEach sd.getXyzKeypoint level.keypoints with
      | none => none
      | some kps => some { level with keypoints := kps }) odom_frame.levels with
  | none => none
  | some levels => some { odom_frame with levels := levels }

/-- The body of the loop of `refineXyz` for the match `matches[m_ind]`. -/
def StereoDisparity.refineMatch (sd : StereoDisparity) (m : FeatureMatch) :
    Option FeatureMatch :=
  if m.status = .MATCH_NEEDS_DEPTH_REFINEMENT then
    match sd.getXyzInterp m.refined_target_keypoint with
    | none => none
    | some (true, kp) =>
      some { m with refined_target_keypoint := kp, status := .MATCH_OK }
    | some (false, kp) =>
      some { m with
        refined_target_keypoint := kp, status := .MATCH_REFINEMENT_FAILED, inlier := false }
  else some m

/-- The loop of `refineXyz` with `k` iterations left, at index `m_ind`. -/
def StereoDisparity.refineLoop (sd : StereoDisparity) :
    ℕ → ℕ → List FeatureMatch → Option (List FeatureMatch)
  | 0, _, ms => some ms
  | k + 1, m_ind, ms =>
    match ms[m_ind]? with
    | none => none
    | some m =>
      match sd.refineMatch m with
      | none => none
      | some m' => sd.refineLoop k (m_ind + 1) (ms.set m_ind m')

/-- `StereoDisparity::refineXyz(FeatureMatch* matches, int num_matches,
OdometryFrame* odom_frame)`: the match buffer after the call.  The frame
argument is not used by the body. -/
def StereoDisparity.refineXyz (sd : StereoDisparity) (ms : List FeatureMatch)
    (num_matches : ℤ) : Option (List FeatureMatch) :=
  sd.refineLoop num_matches.toNat 0 ms

/-- `StereoDisparity::setDisparityData(const float* disparity_data)`: the
`memcpy` of `_width * _height` values from the caller's array into the
buffer.  It has no result when the count is negative or exceeds either
array. -/
def StereoDisparity.setDisparityData (sd : StereoDisparity) (disparity_data : List ℚ) :
    Option StereoDisparity :=
  let num_disparity_pixels := sd.width * sd.height
  if 0 ≤ num_disparity_pixels ∧ num_disparity_pixels ≤ disparity_data.length ∧
      num_disparity_pixels ≤ sd.disparity_data.length then
    some { sd with
      disparity_data :=
        disparity_data.take num_disparity_pixels.toNat ++
          sd.disparity_data.drop num_disparity_pixels.toNat }
  else none

/-! ## Preconditions -/

/-- The stored disparity of pixel `(u, v)`: row `v`, column `u`. -/
def StereoDisparity.pixel (sd : StereoDisparity) (u v : ℤ) : Option ℚ :=
  sd.readDisparity (v * sd.width + u)

/-- The margin precondition of the interpolation: `0 ≤ u ≤ width - 2` and
`0 ≤ v ≤ height - 2`. -/
def StereoDisparity.InMargin (sd : StereoDisparity) (kpdata : KeypointData) : Prop :=
  0 ≤ kpdata.rect_base_uv.1 ∧ kpdata.rect_base_uv.1 ≤ sd.width - 2 ∧
  0 ≤ kpdata.rect_base_uv.2 ∧ kpdata.rect_base_uv.2 ≤ sd.height - 2

/-- The disparity buffer holds `width * height` values. -/
def StereoDisparity.WellSized (sd : StereoDisparity) : Prop :=
  (sd.disparity_data.length : ℤ) = sd.width * sd.height

/-- The call `refineXyz(matches, num_matches, _)` is defined: the first
`num_matches` matches are in the buffer and the interpolation returns on
each of them that needs refinement. -/
def StereoDisparity.RefineDefined (sd : StereoDisparity) (ms : List FeatureMatch)
    (num_matches : ℤ) : Prop :=
  num_matches ≤ ms.length ∧
  ∀ (i : ℕ) (m : FeatureMatch), (i : ℤ) < num_matches → ms[i]? = some m →
    m.status = .MATCH_NEEDS_DEPTH_REFINEMENT →
    (sd.getXyzInterp m.refined_target_keypoint).isSome = true

/-! ## Notions used in the statements -/

/-- The pixel column `u0` of the top-left corner. -/
def KeypointData.u0 (kpdata : KeypointData) : ℤ := toInt kpdata.rect_base_uv.1

/-- The pixel row `v0` of the top-left corner. -/
def KeypointData.v0 (kpdata : KeypointData) : ℤ := toInt kpdata.rect_base_uv.2

/-- The horizontal fraction `wright`. -/
def KeypointData.fu (kpdata : KeypointData) : ℚ := kpdata.rect_base_uv.1 - kpdata.u0

/-- The vertical fraction `wbottom`. -/
def KeypointData.fv (kpdata : KeypointData) : ℚ := kpdata.rect_base_uv.2 - kpdata.v0

/-- The 2x2 neighbourhood of a keypoint whose corners (u0,v0), (u0+1,v0),
(u0,v0+1), (u0+1,v0+1) hold `d00`, `d10`, `d01`, `d11`: entry `i` carries
`w[i]`, `u_vals[i]`, `v_vals[i]` and `disparities[i]` of `getXyzInterp`, the
disparity being the marker when the stored value is the sentinel. -/
def KeypointData.neighbourhood (kpdata : KeypointData) (d00 d10 d01 d11 : ℚ) : List Corner :=
  [⟨(1 - kpdata.fu) * (1 - kpdata.fv), kpdata.u0, kpdata.v0, markMissing d00⟩,
   ⟨kpdata.fu * (1 - kpdata.fv), kpdata.u0 + 1, kpdata.v0, markMissing d10⟩,
   ⟨(1 - kpdata.fu) * kpdata.fv, kpdata.u0, kpdata.v0 + 1, markMissing d01⟩,
   ⟨kpdata.fu * kpdata.fv, kpdata.u0 + 1, kpdata.v0 + 1, markMissing d11⟩]

/-- The pixel column `(int)(u + 0.5)` that `getXyz` reads for a keypoint. -/
def KeypointData.roundedU (kpdata : KeypointData) : ℤ :=
  toInt (toDouble (kpdata.rect_base_uv.1 + 1 / 2))

/-- The pixel row `(int)(v + 0.5)` that `getXyz` reads for a keypoint. -/
def KeypointData.roundedV (kpdata : KeypointData) : ℤ :=
  toInt (toDouble (kpdata.rect_base_uv.2 + 1 / 2))

/-- The record left by a successful interpolation that wrote `p`. -/
def KeypointData.withPoint (kpdata : KeypointData) (p : Vector3d) : KeypointData :=
  { kpdata with xyz := p, xyzw := Vector4d.ofXyz1 p }

/-! ## Concrete data -/

/-- A reprojection transform of the usual stereo shape: `w` is the disparity,
`(x, y, z) = (u, v, 1) / disparity`. -/
def exampleQ : Matrix4d := ⟨1, 0, 0, 0, 0, 1, 0, 0, 0, 0, 0, 1, 0, 0, 1, 0⟩

/-- A transform whose `w` depends on the pixel column: `w = u` and
`(x, y, z) = (1, 1, 1) / u`. -/
def perspectiveQ : Matrix4d := ⟨0, 0, 0, 1, 0, 0, 0, 1, 0, 0, 0, 1, 1, 0, 0, 0⟩

/-- A keypoint at position `(u, v)` with no depth assigned yet. -/
def freshKeypoint (u v : ℚ) : KeypointData :=
  ⟨(u, v), .num 0, Vector3d.zero, Vector4d.ofXyz1 Vector3d.zero, false⟩

/-- The sample position (0.1, 0.4) of example B. -/
def kpSample : KeypointData := freshKeypoint (1 / 10) (4 / 10)

/-- The centre position (1.5, 1.5) of example A. -/
def kpCentre : KeypointData := freshKeypoint (3 / 2) (3 / 2)

/-- Example A: a 4x4 grid whose pixels (1,1), (2,1), (1,2), (2,2) hold 10. -/
def gridA : List ℚ := [0, 0, 0, 0, 0, 10, 10, 0, 0, 10, 10, 0, 0, 0, 0, 0]

/-- Example B: a 3x3 grid with (0,0) missing, (1,0) = 5, (0,1) = 6, (1,1) = 7. -/
def gridB : List ℚ := [0, 5, 0, 6, 7, 0, 0, 0, 0]

/-- A 3x3 grid whose only measurement is 5 at pixel (0,0). -/
def gridSingle : List ℚ := [5, 0, 0, 0, 0, 0, 0, 0, 0]

/-- A 3x3 grid without any measurement. -/
def gridEmpty : List ℚ := [0, 0, 0, 0, 0, 0, 0, 0, 0]

/-- A 3x3 grid with four distinct measurements around the origin. -/
def gridFull : List ℚ := [1, 2, 0, 4, 5, 0, 0, 0, 0]

/-- Example A with the stereo-shaped transform. -/
def sdA : StereoDisparity := ⟨4, 4, gridA, exampleQ⟩

/-- Example A with the transform whose `w` depends on the pixel column. -/
def sdPerspective : StereoDisparity := ⟨4, 4, gridA, perspectiveQ⟩

/-- Example B. -/
def sdB : StereoDisparity := ⟨3, 3, gridB, exampleQ⟩

/-- A single measurement at the origin. -/
def sdSingle : StereoDisparity := ⟨3, 3, gridSingle, exampleQ⟩

/-- No measurement at all. -/
def sdEmpty : StereoDisparity := ⟨3, 3, gridEmpty, exampleQ⟩

/-- Four measurements around the origin. -/
def sdFull : StereoDisparity := ⟨3, 3, gridFull, exampleQ⟩

/-- A match on the sample keypoint with the given status. -/
def matchSample (status : MatchStatusCode) : FeatureMatch := ⟨kpSample, true, status⟩

/-- A buffer of three matches; the sweep below visits the first two. -/
def bufferSample : List FeatureMatch :=
  [matchSample .MATCH_NEEDS_DEPTH_REFINEMENT, matchSample .MATCH_OK,
   matchSample .MATCH_NEEDS_DEPTH_REFINEMENT]

/-- A frame with two levels: the sample and centre keypoints, then the centre
keypoint alone. -/
def frameSample : OdometryFrame := ⟨[⟨[kpSample, kpCentre]⟩, ⟨[kpCentre]⟩]⟩

/-- A second 3x3 grid, with different measurements. -/
def gridOther : List ℚ := [0, 3, 3, 0, 0, 8, 8, 8, 0]

/-- The sample buffer with its first two matches exchanged and the last one
removed. -/
def bufferSwapped : List FeatureMatch :=
  [matchSample .MATCH_OK, matchSample .MATCH_NEEDS_DEPTH_REFINEMENT]

/-- A keypoint at the largest `double` below one half, on the first row. -/
def kpHalf : KeypointData := freshKeypoint (1 / 2 - (1 / 2) ^ 54) 0

/-- A 3x3 grid whose only measurement is 4 at pixel (1,0). -/
def gridStep : List ℚ := [0, 4, 0, 0, 0, 0, 0, 0, 0]

/-- The object holding the grid with a measurement at pixel (1,0). -/
def sdStep : StereoDisparity := ⟨3, 3, gridStep, exampleQ⟩

/-! ## The interpolation with its conversions -/

/-- The array `w[4]` of `getXyzInterp` as single-precision arithmetic computes
it from the `float` fractions `wright`, `wbottom`: each difference and each
product is rounded to `float`. -/
def singleWeights (wright wbottom : ℚ) : List ℚ :=
  [toFloat (toFloat (1 - wright) * toFloat (1 - wbottom)),
   toFloat (wright * toFloat (1 - wbottom)),
   toFloat (toFloat (1 - wright) * wbottom),
   toFloat (wright * wbottom)]

/-- `StereoDisparity::getXyzInterp(KeypointData* kpdata)` with the conversions
of lines 155-172: the `double` position is narrowed to `float`, the scaled
position is a `double` product narrowed to `float`, the pixel column and row
are converted to `float` for the subtraction, and the weights are
single-precision.  The rest is the code of `getXyzInterp`. -/
def StereoDisparity.getXyzInterpRounded (sd : StereoDisparity) (kpdata : KeypointData) :
    Option (Bool × KeypointData) :=
  let x_scale : ℚ := 1
  let y_scale : ℚ := 1
  let u_f := toFloat kpdata.rect_base_uv.1
  let v_f := toFloat kpdata.rect_base_uv.2
  let v_f_d := toFloat (toDouble (v_f * y_scale))
  let u_f_d := toFloat (toDouble (u_f * x_scale))
  let v := toInt v_f_d
  let u := toInt u_f_d
  let wright := toFloat (u_f_d - toFloat u)
  let wbottom := toFloat (v_f_d - toFloat v)
  if u ≥ 0 ∧ v ≥ 0 ∧ u < sd.width - 1 ∧ v < sd.height - 1 then
    let w := singleWeights wright wbottom
    let index := v * sd.width + u
    match sd.readDisparity index, sd.readDisparity (index + 1),
        sd.readDisparity (index + sd.width), sd.readDisparity (index + sd.width + 1) with
    | some d0, some d1, some d2, some d3 =>
      some (sd.interpolateCorners kpdata u v w d0 d1 d2 d3)
    | _, _, _, _ => none
  else none

/-- The body of the loop of `refineXyz` over the interpolation with its
conversions. -/
def StereoDisparity.refineMatchRounded (sd : StereoDisparity) (m : FeatureMatch) :
    Option FeatureMatch :=
  if m.status = .MATCH_NEEDS_DEPTH_REFINEMENT then
    match sd.getXyzInterpRounded m.refined_target_keypoint with
    | none => none
    | some (true, kp) =>
      some { m with refined_target_keypoint := kp, status := .MATCH_OK }
    | some (false, kp) =>
      some { m with
        refined_target_keypoint := kp, status := .MATCH_REFINEMENT_FAILED, inlier := false }
  else some m

/-- The loop of `refineXyz` over the interpolation with its conversions, with
`k` iterations left, at index `m_ind`. -/
def StereoDisparity.refineLoopRounded (sd : StereoDisparity) :
    ℕ → ℕ → List FeatureMatch → Option (List FeatureMatch)
  | 0, _, ms => some ms
  | k + 1, m_ind, ms =>
    match ms[m_ind]? with
    | none => none
    | some m =>
      match sd.refineMatchRounded m with
      | none => none
      | some m' => sd.refineLoopRounded k (m_ind + 1) (ms.set m_ind m')

/-- `StereoDisparity::refineXyz` over the interpolation with its
conversions. -/
def StereoDisparity.refineXyzRounded (sd : StereoDisparity) (ms : List FeatureMatch)
    (num_matches : ℤ) : Option (List FeatureMatch) :=
  sd.refineLoopRounded num_matches.toNat 0 ms

/-- One iteration of the clamping loop with the call of `getXyzValues`
replaced by an arbitrary function `P` of the corner: `clampStep sd` is the
instance where `P` projects the corner. -/
def clampStepWith (P : Corner → Vector3d) (st : Vector3d × ℚ) (c : Corner) : Vector3d × ℚ :=
  if c.disparity.isnan = true ∧ c.w > st.2 then (P c, c.w) else st

/-- The position narrowed to `float`, column. -/
def KeypointData.narrowU (kpdata : KeypointData) : ℚ := toFloat kpdata.rect_base_uv.1

/-- The position narrowed to `float`, row. -/
def KeypointData.narrowV (kpdata : KeypointData) : ℚ := toFloat kpdata.rect_base_uv.2

/-- The pixel column of the top-left corner of the narrowed position. -/
def KeypointData.narrowU0 (kpdata : KeypointData) : ℤ := toInt kpdata.narrowU

/-- The pixel row of the top-left corner of the narrowed position. -/
def KeypointData.narrowV0 (kpdata : KeypointData) : ℤ := toInt kpdata.narrowV

/-- The horizontal fraction of the narrowed position. -/
def KeypointData.narrowFu (kpdata : KeypointData) : ℚ := kpdata.narrowU - kpdata.narrowU0

/-- The vertical fraction of the narrowed position. -/
def KeypointData.narrowFv (kpdata : KeypointData) : ℚ := kpdata.narrowV - kpdata.narrowV0

/-- The margin precondition for the narrowed position:
`0 ≤ float(u) ≤ width - 2` and `0 ≤ float(v) ≤ height - 2`. -/
def StereoDisparity.InMarginNarrowed (sd : StereoDisparity) (kpdata : KeypointData) : Prop :=
  0 ≤ kpdata.narrowU ∧ kpdata.narrowU ≤ sd.width - 2 ∧
  0 ≤ kpdata.narrowV ∧ kpdata.narrowV ≤ sd.height - 2

/-- The 2x2 neighbourhood of the narrowed position: entry `i` carries `w[i]`
as single precision computes it, `u_vals[i]`, `v_vals[i]` and
`disparities[i]`, the stored values of the four corners being `d00`, `d10`,
`d01`, `d11`. -/
def KeypointData.neighbourhoodNarrowed (kpdata : KeypointData) (d00 d10 d01 d11 : ℚ) :
    List Corner :=
  [⟨toFloat (toFloat (1 - kpdata.narrowFu) * toFloat (1 - kpdata.narrowFv)),
      kpdata.narrowU0, kpdata.narrowV0, markMissing d00⟩,
   ⟨toFloat (kpdata.narrowFu * toFloat (1 - kpdata.narrowFv)),
      kpdata.narrowU0 + 1, kpdata.narrowV0, markMissing d10⟩,
   ⟨toFloat (toFloat (1 - kpdata.narrowFu) * kpdata.narrowFv),
      kpdata.narrowU0, kpdata.narrowV0 + 1, markMissing d01⟩,
   ⟨toFloat (kpdata.narrowFu * kpdata.narrowFv),
      kpdata.narrowU0 + 1, kpdata.narrowV0 + 1, markMissing d11⟩]

/-- The call `refineXyz(matches, num_matches, _)` over the interpolation with
its conversions is defined. -/
def StereoDisparity.RefineDefinedRounded (sd : StereoDisparity) (ms : List FeatureMatch)
    (num_matches : ℤ) : Prop :=
  num_matches ≤ ms.length ∧
  ∀ (i : ℕ) (m : FeatureMatch), (i : ℤ) < num_matches → ms[i]? = some m →
    m.status = .MATCH_NEEDS_DEPTH_REFINEMENT →
    (sd.getXyzInterpRounded m.refined_target_keypoint).isSome = true

/-- A keypoint whose column `1 - 2 ^ (-29)` is a `double` that narrows to the
`float` 1. -/
def kpEdge : KeypointData := freshKeypoint (1 - (1 / 2) ^ 29) (1 / 2)

/-- A 3x3 grid with measurements in its last column only. -/
def gridColumns : List ℚ := [0, 0, 4, 0, 0, 8, 0, 0, 0]

/-- A 3x3 grid with measurements in its two last columns. -/
def gridRamp : List ℚ := [0, 1, 2, 0, 4, 8, 0, 0, 0]

/-- A 3x3 grid with measurements in its first column only. -/
def gridLeft : List ℚ := [7, 0, 0, 7, 0, 0, 0, 0, 0]

/-- The object holding the grid with measurements in the last column. -/
def sdColumns : StereoDisparity := ⟨3, 3, gridColumns, exampleQ⟩

/-- The object holding the grid with measurements in the two last columns. -/
def sdRamp : StereoDisparity := ⟨3, 3, gridRamp, exampleQ⟩

/-- The object holding the grid with measurements in the first column. -/
def sdLeft : StereoDisparity := ⟨3, 3, gridLeft, exampleQ⟩

/-- A buffer with one match, which needs refinement, on the edge keypoint. -/
def bufferEdge : List FeatureMatch := [⟨kpEdge, true, .MATCH_NEEDS_DEPTH_REFINEMENT⟩]

/-! ## Rounding to a binary format -/

theorem two_zpow_pos (j : ℤ) : (0 : ℚ) < (2 : ℚ) ^ j := zpow_pos (by norm_num) j

theorem roundHalfEven_ge (t : ℚ) (m : ℤ) (h : (m : ℚ) ≤ t) : m ≤ roundHalfEven t := by
  have hf : m ≤ ⌊t⌋ := Int.le_floor.mpr h
  unfold roundHalfEven
  split_ifs <;> omega

theorem roundHalfEven_le (t : ℚ) (m : ℤ) (h : t ≤ (m : ℚ)) : roundHalfEven t ≤ m := by
  unfold roundHalfEven
  by_cases hm : t = m
  · subst hm
    simp
  · have hlt : t < m := lt_of_le_of_ne h hm
    have hf : ⌊t⌋ < m := Int.floor_lt.mpr hlt
    split_ifs <;> omega

theorem roundHalfEven_intCast (m : ℤ) : roundHalfEven (m : ℚ) = m :=
  le_antisymm (roundHalfEven_le _ m le_rfl) (roundHalfEven_ge _ m le_rfl)

theorem roundHalfEven_sub_le (t : ℚ) : |(roundHalfEven t : ℚ) - t| ≤ 1 / 2 := by
  have h1 := Int.floor_le t
  have h2 := Int.lt_floor_add_one t
  unfold roundHalfEven
  rw [abs_le]
  split_ifs <;> push_cast <;> constructor <;> linarith

/-- The spacing around `x` is at most `2 ^ k` when `|x| < 2 ^ (k + p)` and `k`
is not below the smallest spacing of the format. -/
theorem quantumExp_le (p : ℕ) (emin : ℤ) (x : ℚ) (k : ℤ) (hx : x ≠ 0)
    (hb : |x| < (2 : ℚ) ^ (k + p)) (hk : emin - (p - 1) ≤ k) :
    quantumExp p emin x ≤ k := by
  have hpos : 0 < |x| := abs_pos.mpr hx
  have hlog : Int.log 2 |x| < k + p := by
    have := (Int.lt_zpow_iff_log_lt (R := ℚ) (b := 2) (by norm_num) hpos).mp
      (by exact_mod_cast hb)
    exact this
  unfold quantumExp
  omega

/-- A multiple of `2 ^ k` is an integer multiple of every smaller spacing. -/
theorem dyadic_eq_int_mul (m : ℤ) (k j : ℤ) (hjk : j ≤ k) :
    ∃ M : ℤ, (m : ℚ) * (2 : ℚ) ^ k = (M : ℚ) * (2 : ℚ) ^ j := by
  refine ⟨m * 2 ^ (k - j).toNat, ?_⟩
  have h2 : (2 : ℚ) ^ (k - j) = ((2 : ℚ) ^ (k - j).toNat) := by
    rw [← zpow_natCast, Int.toNat_of_nonneg (by omega)]
  rw [show (2 : ℚ) ^ k = (2 : ℚ) ^ (k - j) * (2 : ℚ) ^ j by
    rw [← zpow_add₀ (by norm_num : (2 : ℚ) ≠ 0), Int.sub_add_cancel], h2]
  push_cast
  ring

/-- Rounding never crosses a representable value from below. -/
theorem roundBinary_le_dyadic (p : ℕ) (emin : ℤ) (x : ℚ) (m k : ℤ)
    (hx : x ≤ (m : ℚ) * (2 : ℚ) ^ k) (hb : |x| < (2 : ℚ) ^ (k + p))
    (hk : emin - (p - 1) ≤ k) :
    roundBinary p emin x ≤ (m : ℚ) * (2 : ℚ) ^ k := by
  unfold roundBinary
  by_cases h0 : x = 0
  · rw [if_pos h0]; rw [h0] at hx; exact hx
  · rw [if_neg h0]
    obtain ⟨M, hM⟩ := dyadic_eq_int_mul m k (quantumExp p emin x)
      (quantumExp_le p emin x k h0 hb hk)
    have hq := two_zpow_pos (quantumExp p emin x)
    rw [hM] at hx ⊢
    have hle : x / (2 : ℚ) ^ quantumExp p emin x ≤ (M : ℚ) := by
      rw [div_le_iff₀ hq]; exact hx
    have := roundHalfEven_le _ M hle
    have hc : ((roundHalfEven (x / (2 : ℚ) ^ quantumExp p emin x) : ℤ) : ℚ) ≤ (M : ℚ) := by
      exact_mod_cast this
    exact mul_le_mul_of_nonneg_right hc (le_of_lt hq)

/-- Rounding never crosses a representable value from above. -/
theorem dyadic_le_roundBinary (p : ℕ) (emin : ℤ) (x : ℚ) (m k : ℤ)
    (hx : (m : ℚ) * (2 : ℚ) ^ k ≤ x) (hb : |x| < (2 : ℚ) ^ (k + p))
    (hk : emin - (p - 1) ≤ k) :
    (m : ℚ) * (2 : ℚ) ^ k ≤ roundBinary p emin x := by
  unfold roundBinary
  by_cases h0 : x = 0
  · rw [if_pos h0]; rw [h0] at hx; exact hx
  · rw [if_neg h0]
    obtain ⟨M, hM⟩ := dyadic_eq_int_mul m k (quantumExp p emin x)
      (quantumExp_le p emin x k h0 hb hk)
    have hq := two_zpow_pos (quantumExp p emin x)
    rw [hM] at hx ⊢
    have hle : (M : ℚ) ≤ x / (2 : ℚ) ^ quantumExp p emin x := by
      rw [le_div_iff₀ hq]; exact hx
    have := roundHalfEven_ge _ M hle
    have hc : (M : ℚ) ≤ ((roundHalfEven (x / (2 : ℚ) ^ quantumExp p emin x) : ℤ) : ℚ) := by
      exact_mod_cast this
    exact mul_le_mul_of_nonneg_right hc (le_of_lt hq)

/-- A value `m * 2 ^ k` within the precision of the format is its own
rounding. -/
theorem roundBinary_dyadic (p : ℕ) (emin : ℤ) (m k : ℤ)
    (hb : |(m : ℚ) * (2 : ℚ) ^ k| < (2 : ℚ) ^ (k + p)) (hk : emin - (p - 1) ≤ k) :
    roundBinary p emin ((m : ℚ) * (2 : ℚ) ^ k) = (m : ℚ) * (2 : ℚ) ^ k :=
  le_antisymm (roundBinary_le_dyadic p emin _ m k le_rfl hb hk)
    (dyadic_le_roundBinary p emin _ m k le_rfl hb hk)

/-- Rounding keeps the sign of a non-negative value. -/
theorem roundBinary_nonneg (p : ℕ) (emin : ℤ) (x : ℚ) (hx : 0 ≤ x) :
    0 ≤ roundBinary p emin x := by
  unfold roundBinary
  split_ifs with h0
  · exact le_rfl
  · have hq := two_zpow_pos (quantumExp p emin x)
    have h1 : ((0 : ℤ) : ℚ) ≤ x / (2 : ℚ) ^ quantumExp p emin x := by
      simpa using div_nonneg hx (le_of_lt hq)
    have := roundHalfEven_ge _ 0 h1
    have hc : (0 : ℚ) ≤ ((roundHalfEven (x / (2 : ℚ) ^ quantumExp p emin x) : ℤ) : ℚ) := by
      exact_mod_cast this
    exact mul_nonneg hc (le_of_lt hq)

/-- The binade of a value known between two consecutive powers of two. -/
theorem log_eq_of_bounds (x : ℚ) (e : ℤ) (h1 : (2 : ℚ) ^ e ≤ |x|)
    (h2 : |x| < (2 : ℚ) ^ (e + 1)) : Int.log 2 |x| = e := by
  have hpos : 0 < |x| := lt_of_lt_of_le (two_zpow_pos e) h1
  have a := (Int.zpow_le_iff_le_log (R := ℚ) (b := 2) (by norm_num) hpos).mp
    (by exact_mod_cast h1)
  have b := (Int.lt_zpow_iff_log_lt (R := ℚ) (b := 2) (by norm_num) hpos).mp
    (by exact_mod_cast h2)
  omega

/-- An integer below `2 ^ 24` in magnitude is a `float`. -/
theorem toFloat_intCast (n : ℤ) (h : |(n : ℚ)| < 2 ^ 24) : toFloat (n : ℚ) = n := by
  have hb : |(n : ℚ) * (2 : ℚ) ^ (0 : ℤ)| < (2 : ℚ) ^ ((0 : ℤ) + ((24 : ℕ) : ℤ)) := by
    rw [zpow_zero, mul_one, zero_add, zpow_natCast]; exact h
  have := roundBinary_dyadic 24 (-126) n 0 hb (by norm_num)
  rw [zpow_zero, mul_one] at this
  exact this

/-- An integer below `2 ^ 53` in magnitude is a `double`. -/
theorem toDouble_intCast (n : ℤ) (h : |(n : ℚ)| < 2 ^ 53) : toDouble (n : ℚ) = n := by
  have hb : |(n : ℚ) * (2 : ℚ) ^ (0 : ℤ)| < (2 : ℚ) ^ ((0 : ℤ) + ((53 : ℕ) : ℤ)) := by
    rw [zpow_zero, mul_one, zero_add, zpow_natCast]; exact h
  have := roundBinary_dyadic 53 (-1022) n 0 hb (by norm_num)
  rw [zpow_zero, mul_one] at this
  exact this

/-! ## Arithmetic of floating values -/

namespace FloatVal

@[simp] theorem num_add_num (a b : ℚ) : (num a + num b : FloatVal) = num (a + b) := rfl
@[simp] theorem nan_add (x : FloatVal) : (nan + x : FloatVal) = nan := rfl
@[simp] theorem add_nan (x : FloatVal) : (x + nan : FloatVal) = nan := by cases x <;> rfl
@[simp] theorem num_mul_num (a b : ℚ) : (num a * num b : FloatVal) = num (a * b) := rfl
@[simp] theorem nan_mul (x : FloatVal) : (nan * x : FloatVal) = nan := rfl
@[simp] theorem mul_nan (x : FloatVal) : (x * nan : FloatVal) = nan := by cases x <;> rfl
@[simp] theorem nan_div (x : FloatVal) : (nan / x : FloatVal) = nan := rfl
@[simp] theorem div_nan (x : FloatVal) : (x / nan : FloatVal) = nan := by cases x <;> rfl
theorem num_div_num (a b : ℚ) :
    (num a / num b : FloatVal) = if b = 0 then nan else num (a / b) := rfl
@[simp] theorem num_div_num_of_ne {a b : ℚ} (h : b ≠ 0) :
    (num a / num b : FloatVal) = num (a / b) := by simp [num_div_num, h]
@[simp] theorem isnan_num (q : ℚ) : (num q).isnan = false := rfl
@[simp] theorem isnan_nan : nan.isnan = true := rfl
@[simp] theorem zero_add_val (x : FloatVal) : (num 0 + x : FloatVal) = x := by
  cases x <;> simp

end FloatVal

@[simp] theorem Vector3d.zero_add (a : Vector3d) : Vector3d.zero.add a = a := by
  cases a; simp [Vector3d.zero, Vector3d.add]

theorem toInt_of_nonneg {x : ℚ} (h : 0 ≤ x) : toInt x = ⌊x⌋ := by simp [toInt, h]

/-- Projecting a sample whose disparity is the marker gives the marker in
every component. -/
theorem projectUvd_nan (M : Matrix4d) (u v : ℚ) :
    projectUvd M u v .nan = Vector3d.allNan := by
  simp [projectUvd, Matrix4d.mulVec, rowDot, Vector4d.hnormalized, Vector3d.allNan]

theorem getXyzValues_nan (sd : StereoDisparity) (u v : ℤ) :
    sd.getXyzValues u v .nan = Vector3d.allNan := projectUvd_nan _ _ _

/-! ## The interpolation -/

theorem assert_of_inMargin {sd : StereoDisparity} {kpdata : KeypointData}
    (h : sd.InMargin kpdata) :
    kpdata.u0 ≥ 0 ∧ kpdata.v0 ≥ 0 ∧ kpdata.u0 < sd.width - 1 ∧ kpdata.v0 < sd.height - 1 := by
  obtain ⟨hu0, hu1, hv0, hv1⟩ := h
  have e1 : kpdata.u0 = ⌊kpdata.rect_base_uv.1⌋ := toInt_of_nonneg hu0
  have e2 : kpdata.v0 = ⌊kpdata.rect_base_uv.2⌋ := toInt_of_nonneg hv0
  have a1 : (⌊kpdata.rect_base_uv.1⌋ : ℚ) ≤ sd.width - 2 := le_trans (Int.floor_le _) hu1
  have a2 : (⌊kpdata.rect_base_uv.2⌋ : ℚ) ≤ sd.height - 2 := le_trans (Int.floor_le _) hv1
  have b1 : ⌊kpdata.rect_base_uv.1⌋ ≤ sd.width - 2 := by exact_mod_cast a1
  have b2 : ⌊kpdata.rect_base_uv.2⌋ ≤ sd.height - 2 := by exact_mod_cast a2
  rw [e1, e2]
  refine ⟨Int.floor_nonneg.mpr hu0, Int.floor_nonneg.mpr hv0, by omega, by omega⟩

/-- Unfolding of `getXyzInterp` when the border assertion holds and the four
reads are inside the buffer. -/
theorem getXyzInterp_of_pixels (sd : StereoDisparity) (kpdata : KeypointData)
    (d00 d10 d01 d11 : ℚ)
    (ha : kpdata.u0 ≥ 0 ∧ kpdata.v0 ≥ 0 ∧ kpdata.u0 < sd.width - 1 ∧
      kpdata.v0 < sd.height - 1)
    (h00 : sd.pixel kpdata.u0 kpdata.v0 = some d00)
    (h10 : sd.pixel (kpdata.u0 + 1) kpdata.v0 = some d10)
    (h01 : sd.pixel kpdata.u0 (kpdata.v0 + 1) = some d01)
    (h11 : sd.pixel (kpdata.u0 + 1) (kpdata.v0 + 1) = some d11) :
    sd.getXyzInterp kpdata =
      some (sd.interpolateCorners kpdata kpdata.u0 kpdata.v0
        (bilinearWeights kpdata.fu kpdata.fv) d00 d10 d01 d11) := by
  simp only [StereoDisparity.pixel, KeypointData.u0, KeypointData.v0] at h00 h10 h01 h11 ha
  have h10' : sd.readDisparity
      (toInt kpdata.rect_base_uv.2 * sd.width + toInt kpdata.rect_base_uv.1 + 1) = some d10 := by
    rw [← h10]; congr 1; ring
  have h01' : sd.readDisparity
      (toInt kpdata.rect_base_uv.2 * sd.width + toInt kpdata.rect_base_uv.1 + sd.width) =
      some d01 := by
    rw [← h01]; congr 1; ring
  have h11' : sd.readDisparity
      (toInt kpdata.rect_base_uv.2 * sd.width + toInt kpdata.rect_base_uv.1 + sd.width + 1) =
      some d11 := by
    rw [← h11]; congr 1; ring
  simp only [StereoDisparity.getXyzInterp, mul_one, ha, and_self, if_true, h00, h10', h01',
    h11', KeypointData.u0, KeypointData.v0, KeypointData.fu, KeypointData.fv]

/-- Evaluation of a pixel read at a known buffer offset. -/
theorem pixel_eq_getElem (sd : StereoDisparity) (u v : ℤ) (n : ℕ)
    (h : v * sd.width + u = n) : sd.pixel u v = sd.disparity_data[n]? := by
  simp [StereoDisparity.pixel, StereoDisparity.readDisparity, h]

theorem u0_freshKeypoint (u v : ℚ) : (freshKeypoint u v).u0 = toInt u := rfl
theorem v0_freshKeypoint (u v : ℚ) : (freshKeypoint u v).v0 = toInt v := rfl

theorem toInt_eq_of_mem {x : ℚ} {n : ℤ} (h0 : 0 ≤ x) (h1 : (n : ℚ) ≤ x) (h2 : x < n + 1) :
    toInt x = n := by
  rw [toInt_of_nonneg h0, Int.floor_eq_iff]
  exact ⟨h1, h2⟩

theorem fu_freshKeypoint (u v : ℚ) : (freshKeypoint u v).fu = u - toInt u := rfl
theorem fv_freshKeypoint (u v : ℚ) : (freshKeypoint u v).fv = v - toInt v := rfl

/-- The blending branch of the interpolation in closed form. -/
theorem interpolateCorners_blend (sd : StereoDisparity) (kpdata : KeypointData) (u v : ℤ)
    (w0 w1 w2 w3 d0 d1 d2 d3 : ℚ) (n0 : d0 ≠ 0) (n1 : d1 ≠ 0) (n2 : d2 ≠ 0) (n3 : d3 ≠ 0) :
    sd.interpolateCorners kpdata u v [w0, w1, w2, w3] d0 d1 d2 d3 =
      (true, kpdata.withPoint
        (((((sd.getXyzValues u v (.num d0)).scale (.num w0)).add
          ((sd.getXyzValues (u + 1) v (.num d1)).scale (.num w1))).add
          ((sd.getXyzValues u (v + 1) (.num d2)).scale (.num w2))).add
          ((sd.getXyzValues (u + 1) (v + 1) (.num d3)).scale (.num w3)))) := by
  simp [StereoDisparity.interpolateCorners, markMissing, n0, n1, n2, n3, blendStep,
    KeypointData.withPoint]

/-! ## Evaluation at the sample position (0.1, 0.4) and at (1.5, 1.5) -/

theorem toInt_one_tenth : toInt (1 / 10 : ℚ) = 0 :=
  toInt_eq_of_mem (by norm_num) (by norm_num) (by norm_num)

theorem toInt_four_tenths : toInt (4 / 10 : ℚ) = 0 :=
  toInt_eq_of_mem (by norm_num) (by norm_num) (by norm_num)

theorem toInt_three_halves : toInt (3 / 2 : ℚ) = 1 :=
  toInt_eq_of_mem (by norm_num) (by norm_num) (by norm_num)

theorem kpSample_u0 : kpSample.u0 = 0 := toInt_one_tenth
theorem kpSample_v0 : kpSample.v0 = 0 := toInt_four_tenths
theorem kpSample_fu : kpSample.fu = 1 / 10 := by
  rw [kpSample, fu_freshKeypoint, toInt_one_tenth]; norm_num
theorem kpSample_fv : kpSample.fv = 4 / 10 := by
  rw [kpSample, fv_freshKeypoint, toInt_four_tenths]; norm_num
theorem kpCentre_u0 : kpCentre.u0 = 1 := toInt_three_halves
theorem kpCentre_v0 : kpCentre.v0 = 1 := toInt_three_halves
theorem kpCentre_fu : kpCentre.fu = 1 / 2 := by
  rw [kpCentre, fu_freshKeypoint, toInt_three_halves]; norm_num
theorem kpCentre_fv : kpCentre.fv = 1 / 2 := by
  rw [kpCentre, fv_freshKeypoint, toInt_three_halves]; norm_num

/-- The sample position is in the margin of every 3x3 grid. -/
theorem kpSample_inMargin (sd : StereoDisparity) (hw : sd.width = 3) (hh : sd.height = 3) :
    sd.InMargin kpSample := by
  norm_num [StereoDisparity.InMargin, kpSample, freshKeypoint, hw, hh]

/-- The centre position is in the margin of every 4x4 grid. -/
theorem kpCentre_inMargin (sd : StereoDisparity) (hw : sd.width = 4) (hh : sd.height = 4) :
    sd.InMargin kpCentre := by
  norm_num [StereoDisparity.InMargin, kpCentre, freshKeypoint, hw, hh]

/-- The four corner reads around the sample position of a 3x3 grid. -/
theorem kpSample_pixels (sd : StereoDisparity) (hw : sd.width = 3) :
    sd.pixel kpSample.u0 kpSample.v0 = sd.disparity_data[0]? ∧
    sd.pixel (kpSample.u0 + 1) kpSample.v0 = sd.disparity_data[1]? ∧
    sd.pixel kpSample.u0 (kpSample.v0 + 1) = sd.disparity_data[3]? ∧
    sd.pixel (kpSample.u0 + 1) (kpSample.v0 + 1) = sd.disparity_data[4]? := by
  rw [kpSample_u0, kpSample_v0]
  exact ⟨pixel_eq_getElem _ _ _ 0 (by rw [hw]; rfl), pixel_eq_getElem _ _ _ 1 (by rw [hw]; rfl),
    pixel_eq_getElem _ _ _ 3 (by rw [hw]; rfl), pixel_eq_getElem _ _ _ 4 (by rw [hw]; rfl)⟩

/-- The four corner reads around the centre position of a 4x4 grid. -/
theorem kpCentre_pixels (sd : StereoDisparity) (hw : sd.width = 4) :
    sd.pixel kpCentre.u0 kpCentre.v0 = sd.disparity_data[5]? ∧
    sd.pixel (kpCentre.u0 + 1) kpCentre.v0 = sd.disparity_data[6]? ∧
    sd.pixel kpCentre.u0 (kpCentre.v0 + 1) = sd.disparity_data[9]? ∧
    sd.pixel (kpCentre.u0 + 1) (kpCentre.v0 + 1) = sd.disparity_data[10]? := by
  rw [kpCentre_u0, kpCentre_v0]
  exact ⟨pixel_eq_getElem _ _ _ 5 (by rw [hw]; rfl), pixel_eq_getElem _ _ _ 6 (by rw [hw]; rfl),
    pixel_eq_getElem _ _ _ 9 (by rw [hw]; rfl), pixel_eq_getElem _ _ _ 10 (by rw [hw]; rfl)⟩

/-! ## Interpolation with missing corners -/

/-- C1 (the code at example B): with corner (0,0) missing and (1,0) = 5,
(0,1) = 6, (1,1) = 7, the weights at (0.1, 0.4) are .54, .06, .36, .04; the
interpolation returns `true` and writes the not-a-number point, the
projection of the missing corner (0,0), whereas the projection of corner
(0,1) with disparity 6 is (0, 1/6, 1/6). -/
theorem getXyzInterp_exampleB :
    sdB.InMargin kpSample ∧
    sdB.pixel kpSample.u0 kpSample.v0 = some 0 ∧
    sdB.pixel (kpSample.u0 + 1) kpSample.v0 = some 5 ∧
    sdB.pixel kpSample.u0 (kpSample.v0 + 1) = some 6 ∧
    sdB.pixel (kpSample.u0 + 1) (kpSample.v0 + 1) = some 7 ∧
    bilinearWeights kpSample.fu kpSample.fv = [54 / 100, 6 / 100, 36 / 100, 4 / 100] ∧
    sdB.getXyzInterp kpSample = some (true, kpSample.withPoint Vector3d.allNan) ∧
    sdB.getXyzValues kpSample.u0 (kpSample.v0 + 1) (.num 6) =
      ⟨.num 0, .num (1 / 6), .num (1 / 6)⟩ ∧
    Vector3d.allNan ≠ sdB.getXyzValues kpSample.u0 (kpSample.v0 + 1) (.num 6) := by
  obtain ⟨p00, p10, p01, p11⟩ := kpSample_pixels sdB rfl
  have hP : sdB.getXyzValues kpSample.u0 (kpSample.v0 + 1) (.num 6) =
      ⟨.num 0, .num (1 / 6), .num (1 / 6)⟩ := by
    rw [kpSample_u0, kpSample_v0]
    norm_num [StereoDisparity.getXyzValues, projectUvd, Matrix4d.mulVec, rowDot,
      Vector4d.hnormalized, sdB, exampleQ]
  have hm := kpSample_inMargin sdB rfl rfl
  refine ⟨hm, p00, p10, p01, p11, ?_, ?_, hP, ?_⟩
  · rw [kpSample_fu, kpSample_fv]; norm_num [bilinearWeights]
  · rw [getXyzInterp_of_pixels _ _ 0 5 6 7 (assert_of_inMargin hm) p00 p10 p01 p11,
      kpSample_fu, kpSample_fv]
    norm_num [StereoDisparity.interpolateCorners, markMissing, bilinearWeights, clampStep,
      getXyzValues_nan, KeypointData.withPoint]
  · rw [hP]; simp [Vector3d.allNan]

/-- C2 (the code with a single available corner): with 5 at corner (0,0) and
the three other corners missing, the interpolation at (0.1, 0.4) returns
`true` and writes the not-a-number point, whereas the projection of the
available corner (0,0) with disparity 5 is (0, 0, 1/5). -/
theorem getXyzInterp_single_corner :
    sdSingle.InMargin kpSample ∧
    sdSingle.pixel kpSample.u0 kpSample.v0 = some 5 ∧
    sdSingle.pixel (kpSample.u0 + 1) kpSample.v0 = some 0 ∧
    sdSingle.pixel kpSample.u0 (kpSample.v0 + 1) = some 0 ∧
    sdSingle.pixel (kpSample.u0 + 1) (kpSample.v0 + 1) = some 0 ∧
    sdSingle.getXyzInterp kpSample = some (true, kpSample.withPoint Vector3d.allNan) ∧
    sdSingle.getXyzValues kpSample.u0 kpSample.v0 (.num 5) =
      ⟨.num 0, .num 0, .num (1 / 5)⟩ ∧
    Vector3d.allNan ≠ sdSingle.getXyzValues kpSample.u0 kpSample.v0 (.num 5) := by
  obtain ⟨p00, p10, p01, p11⟩ := kpSample_pixels sdSingle rfl
  have hP : sdSingle.getXyzValues kpSample.u0 kpSample.v0 (.num 5) =
      ⟨.num 0, .num 0, .num (1 / 5)⟩ := by
    rw [kpSample_u0, kpSample_v0]
    norm_num [StereoDisparity.getXyzValues, projectUvd, Matrix4d.mulVec, rowDot,
      Vector4d.hnormalized, sdSingle, exampleQ]
  have hm := kpSample_inMargin sdSingle rfl rfl
  refine ⟨hm, p00, p10, p01, p11, ?_, hP, ?_⟩
  · rw [getXyzInterp_of_pixels _ _ 5 0 0 0 (assert_of_inMargin hm) p00 p10 p01 p11,
      kpSample_fu, kpSample_fv]
    norm_num [StereoDisparity.interpolateCorners, markMissing, bilinearWeights, clampStep,
      getXyzValues_nan, KeypointData.withPoint]
  · rw [hP]; simp [Vector3d.allNan]

/-! ## Interpolation with four available corners -/

/-- C6: for every sub-pixel position `(u, v)` the four bilinear weights that
`getXyzInterp` computes from `fu = u - trunc u` and `fv = v - trunc v` sum to
exactly one. -/
theorem bilinearWeights_sum_eq_one (u v : ℚ) :
    (bilinearWeights (u - toInt u) (v - toInt v)).sum = 1 := by
  simp only [bilinearWeights, List.sum_cons, List.sum_nil]
  ring

/-! ## The match sweep -/

/-- The loop of `refineXyz` returns when the matches it visits are in the
buffer and the body returns on each; it replaces each visited match by the
result of the body and leaves the others in place. -/
theorem refineLoop_spec (sd : StereoDisparity) :
    ∀ (k i : ℕ) (ms : List FeatureMatch), i + k ≤ ms.length →
      (∀ (j : ℕ) (m : FeatureMatch), i ≤ j → j < i + k → ms[j]? = some m →
        (sd.refineMatch m).isSome = true) →
      ∃ ms', sd.refineLoop k i ms = some ms' ∧ ms'.length = ms.length ∧
        ∀ j : ℕ, ms'[j]? =
          if i ≤ j ∧ j < i + k then (ms[j]?).bind sd.refineMatch else ms[j]? := by
  intro k
  induction k with
  | zero =>
    intro i ms _ _
    refine ⟨ms, rfl, rfl, fun j => ?_⟩
    have : ¬ (i ≤ j ∧ j < i + 0) := by omega
    rw [if_neg this]
  | succ k ih =>
    intro i ms hlen hbody
    have hi : i < ms.length := by omega
    have hget : ms[i]? = some ms[i] := List.getElem?_eq_getElem hi
    obtain ⟨m', hm'⟩ := Option.isSome_iff_exists.mp (hbody i ms[i] le_rfl (by omega) hget)
    have hlen' : (i + 1) + k ≤ (ms.set i m').length := by
      rw [List.length_set]; omega
    have hbody' : ∀ (j : ℕ) (m : FeatureMatch), i + 1 ≤ j → j < (i + 1) + k →
        (ms.set i m')[j]? = some m → (sd.refineMatch m).isSome = true := by
      intro j m h1 h2 h3
      rw [List.getElem?_set_ne (by omega)] at h3
      exact hbody j m (by omega) (by omega) h3
    obtain ⟨ms', hrun, hl, hall⟩ := ih (i + 1) (ms.set i m') hlen' hbody'
    refine ⟨ms', ?_, ?_, fun j => ?_⟩
    · simp only [StereoDisparity.refineLoop, hget, hm']
      exact hrun
    · rw [hl, List.length_set]
    · rw [hall j]
      by_cases hj : j = i
      · subst hj
        have c1 : ¬ (j + 1 ≤ j ∧ j < j + 1 + k) := by omega
        have c2 : j ≤ j ∧ j < j + (k + 1) := by omega
        rw [if_neg c1, if_pos c2, List.getElem?_set_self hi, hget]
        exact hm'.symm
      · rw [List.getElem?_set_ne (fun h => hj h.symm)]
        by_cases hc : i + 1 ≤ j ∧ j < i + 1 + k
        · have c2 : i ≤ j ∧ j < i + (k + 1) := by omega
          rw [if_pos hc, if_pos c2]
        · have c2 : ¬ (i ≤ j ∧ j < i + (k + 1)) := by omega
          rw [if_neg hc, if_neg c2]

/-- The body of the sweep returns on a match that needs no refinement, and on
one that does when the interpolation returns. -/
theorem refineMatch_isSome (sd : StereoDisparity) (m : FeatureMatch)
    (h : m.status = .MATCH_NEEDS_DEPTH_REFINEMENT →
      (sd.getXyzInterp m.refined_target_keypoint).isSome = true) :
    (sd.refineMatch m).isSome = true := by
  unfold StereoDisparity.refineMatch
  by_cases hs : m.status = .MATCH_NEEDS_DEPTH_REFINEMENT
  · obtain ⟨r, hr⟩ := Option.isSome_iff_exists.mp (h hs)
    obtain ⟨b, kp⟩ := r
    cases b <;> simp [hs, hr]
  · simp [hs]

/-- A defined call of `refineXyz` returns a buffer of the same length in which
each of the first `num_matches` matches is replaced by the result of the loop
body. -/
theorem refineXyz_spec (sd : StereoDisparity) (ms : List FeatureMatch) (num_matches : ℤ)
    (hdef : sd.RefineDefined ms num_matches) :
    ∃ ms', sd.refineXyz ms num_matches = some ms' ∧ ms'.length = ms.length ∧
      ∀ j : ℕ, ms'[j]? =
        if (j : ℤ) < num_matches then (ms[j]?).bind sd.refineMatch else ms[j]? := by
  obtain ⟨hlen, hinterp⟩ := hdef
  have h1 : 0 + num_matches.toNat ≤ ms.length := by omega
  obtain ⟨ms', hrun, hl, hall⟩ := refineLoop_spec sd num_matches.toNat 0 ms h1
    (fun j m _ hj hm => refineMatch_isSome sd m (hinterp j m (by omega) hm))
  refine ⟨ms', hrun, hl, fun j => ?_⟩
  rw [hall j]
  by_cases hc : (j : ℤ) < num_matches
  · rw [if_pos hc, if_pos (by omega)]
  · rw [if_neg hc, if_neg (by omega)]

theorem refineMatch_of_not_needs (sd : StereoDisparity) (m : FeatureMatch)
    (h : m.status ≠ .MATCH_NEEDS_DEPTH_REFINEMENT) : sd.refineMatch m = some m := by
  simp [StereoDisparity.refineMatch, h]

theorem refineMatch_of_success (sd : StereoDisparity) (m : FeatureMatch) (kp : KeypointData)
    (h : m.status = .MATCH_NEEDS_DEPTH_REFINEMENT)
    (hk : sd.getXyzInterp m.refined_target_keypoint = some (true, kp)) :
    sd.refineMatch m = some { m with refined_target_keypoint := kp, status := .MATCH_OK } := by
  simp [StereoDisparity.refineMatch, h, hk]

theorem refineMatch_of_failure (sd : StereoDisparity) (m : FeatureMatch) (kp : KeypointData)
    (h : m.status = .MATCH_NEEDS_DEPTH_REFINEMENT)
    (hk : sd.getXyzInterp m.refined_target_keypoint = some (false, kp)) :
    sd.refineMatch m = some { m with
      refined_target_keypoint := kp, status := .MATCH_REFINEMENT_FAILED, inlier := false } := by
  simp [StereoDisparity.refineMatch, h, hk]

/-- The body of the sweep never produces a match that needs refinement out of
one that needs it. -/
theorem refineMatch_status_ne (sd : StereoDisparity) (m m' : FeatureMatch)
    (h : m.status = .MATCH_NEEDS_DEPTH_REFINEMENT) (hr : sd.refineMatch m = some m') :
    m'.status ≠ .MATCH_NEEDS_DEPTH_REFINEMENT := by
  unfold StereoDisparity.refineMatch at hr
  rw [if_pos h] at hr
  rcases hx : sd.getXyzInterp m.refined_target_keypoint with _ | ⟨b, kp⟩
  · simp [hx] at hr
  · cases b <;> simp [hx] at hr <;> subst hr <;> simp

theorem readDisparity_isSome (sd : StereoDisparity) (index : ℤ) (h0 : 0 ≤ index)
    (h1 : index < sd.disparity_data.length) : ∃ d, sd.readDisparity index = some d := by
  have h2 : index.toNat < sd.disparity_data.length := by omega
  exact ⟨sd.disparity_data[index.toNat], by
    simp [StereoDisparity.readDisparity, h0, List.getElem?_eq_getElem h2]⟩

/-- On a buffer of `width * height` values the interpolation returns for every
in-margin keypoint: the assertion holds and the four reads are inside the
buffer. -/
theorem getXyzInterp_isSome_of_inMargin (sd : StereoDisparity) (kpdata : KeypointData)
    (hs : sd.WellSized) (hm : sd.InMargin kpdata) :
    (sd.getXyzInterp kpdata).isSome = true := by
  have ha := assert_of_inMargin hm
  obtain ⟨a1, a2, a3, a4⟩ := ha
  unfold StereoDisparity.WellSized at hs
  have hW : 0 ≤ sd.width := by omega
  have m1 : 0 ≤ kpdata.v0 * sd.width := mul_nonneg a2 hW
  have m2 : (kpdata.v0 + 1) * sd.width ≤ (sd.height - 1) * sd.width :=
    mul_le_mul_of_nonneg_right (by omega) hW
  have m3 : (kpdata.v0 + 1) * sd.width = kpdata.v0 * sd.width + sd.width := by ring
  have m4 : (sd.height - 1) * sd.width = sd.width * sd.height - sd.width := by ring
  obtain ⟨d00, h00⟩ := readDisparity_isSome sd (kpdata.v0 * sd.width + kpdata.u0)
    (by omega) (by omega)
  obtain ⟨d10, h10⟩ := readDisparity_isSome sd (kpdata.v0 * sd.width + (kpdata.u0 + 1))
    (by omega) (by omega)
  obtain ⟨d01, h01⟩ := readDisparity_isSome sd ((kpdata.v0 + 1) * sd.width + kpdata.u0)
    (by omega) (by omega)
  obtain ⟨d11, h11⟩ := readDisparity_isSome sd ((kpdata.v0 + 1) * sd.width + (kpdata.u0 + 1))
    (by omega) (by omega)
  rw [getXyzInterp_of_pixels sd kpdata d00 d10 d01 d11 ⟨a1, a2, a3, a4⟩ h00 h10 h01 h11]
  rfl

/-- The sample buffer is a defined input of the sweep on every 3x3 grid. -/
theorem bufferSample_refineDefined (sd : StereoDisparity) (hw : sd.width = 3)
    (hh : sd.height = 3) (hs : sd.WellSized) : sd.RefineDefined bufferSample 2 := by
  refine ⟨by simp [bufferSample], fun i m hi hm _ => ?_⟩
  have hk : m.refined_target_keypoint = kpSample := by
    have hi' : i = 0 ∨ i = 1 := by omega
    rcases hi' with rfl | rfl <;> simp [bufferSample] at hm <;> subst hm <;> rfl
  rw [hk]
  exact getXyzInterp_isSome_of_inMargin sd kpSample hs (kpSample_inMargin sd hw hh)

theorem sdFull_wellSized : sdFull.WellSized := by
  simp [StereoDisparity.WellSized, sdFull, gridFull]

theorem sdEmpty_wellSized : sdEmpty.WellSized := by
  simp [StereoDisparity.WellSized, sdEmpty, gridEmpty]

/-- C7: in a defined call of `refineXyz`, every match at an index below
`num_matches` whose status is `NEEDS_DEPTH_REFINEMENT` ends as follows: if
`getXyzInterp` succeeds on its refined target keypoint, the status is `OK`,
the inlier flag is unchanged and the keypoint is the one the interpolation
left (with the interpolated `xyz` and `xyzw`); if it fails, the status is
`REFINEMENT_FAILED` and the inlier flag is false. -/
theorem refineXyz_needs_refinement (sd : StereoDisparity) (ms : List FeatureMatch)
    (num_matches : ℤ) (hdef : sd.RefineDefined ms num_matches) :
    ∃ ms', sd.refineXyz ms num_matches = some ms' ∧
      ∀ (i : ℕ) (m : FeatureMatch), (i : ℤ) < num_matches → ms[i]? = some m →
        m.status = .MATCH_NEEDS_DEPTH_REFINEMENT →
        ∃ m', ms'[i]? = some m' ∧
          (∀ kp, sd.getXyzInterp m.refined_target_keypoint = some (true, kp) →
            m'.status = .MATCH_OK ∧ m'.inlier = m.inlier ∧
            m'.refined_target_keypoint = kp) ∧
          (∀ kp, sd.getXyzInterp m.refined_target_keypoint = some (false, kp) →
            m'.status = .MATCH_REFINEMENT_FAILED ∧ m'.inlier = false) := by
  obtain ⟨ms', hrun, -, hall⟩ := refineXyz_spec sd ms num_matches hdef
  refine ⟨ms', hrun, fun i m hi hm hs => ?_⟩
  obtain ⟨m', hm'⟩ := Option.isSome_iff_exists.mp
    (refineMatch_isSome sd m (fun h => hdef.2 i m hi hm h))
  refine ⟨m', ?_, fun kp hk => ?_, fun kp hk => ?_⟩
  · rw [hall i, if_pos hi, hm, Option.some_bind, hm']
  · rw [refineMatch_of_success sd m kp hs hk] at hm'
    cases hm'
    exact ⟨rfl, rfl, rfl⟩
  · rw [refineMatch_of_failure sd m kp hs hk] at hm'
    cases hm'
    exact ⟨rfl, rfl⟩

/-- C7 (witness): the sample buffer on the grid with four measurements. -/
theorem refineXyz_needs_refinement_witness :
    sdFull.RefineDefined bufferSample 2 ∧
    ∃ ms', sdFull.refineXyz bufferSample 2 = some ms' ∧
      ∀ (i : ℕ) (m : FeatureMatch), (i : ℤ) < 2 → bufferSample[i]? = some m →
        m.status = .MATCH_NEEDS_DEPTH_REFINEMENT →
        ∃ m', ms'[i]? = some m' ∧
          (∀ kp, sdFull.getXyzInterp m.refined_target_keypoint = some (true, kp) →
            m'.status = .MATCH_OK ∧ m'.inlier = m.inlier ∧
            m'.refined_target_keypoint = kp) ∧
          (∀ kp, sdFull.getXyzInterp m.refined_target_keypoint = some (false, kp) →
            m'.status = .MATCH_REFINEMENT_FAILED ∧ m'.inlier = false) :=
  ⟨bufferSample_refineDefined sdFull rfl rfl sdFull_wellSized,
    refineXyz_needs_refinement sdFull bufferSample 2
      (bufferSample_refineDefined sdFull rfl rfl sdFull_wellSized)⟩

/-- C8: a defined call of `refineXyz` keeps the length of the buffer, and
leaves in place and unchanged in every field each match whose status is not
`NEEDS_DEPTH_REFINEMENT` and each match at an index at or above
`num_matches`. -/
theorem refineXyz_frame (sd : StereoDisparity) (ms : List FeatureMatch)
    (num_matches : ℤ) (hdef : sd.RefineDefined ms num_matches) :
    ∃ ms', sd.refineXyz ms num_matches = some ms' ∧ ms'.length = ms.length ∧
      ∀ (i : ℕ) (m : FeatureMatch), ms[i]? = some m →
        (m.status ≠ .MATCH_NEEDS_DEPTH_REFINEMENT ∨ num_matches ≤ i) →
        ms'[i]? = some m := by
  obtain ⟨ms', hrun, hl, hall⟩ := refineXyz_spec sd ms num_matches hdef
  refine ⟨ms', hrun, hl, fun i m hm hc => ?_⟩
  rw [hall i]
  by_cases hi : (i : ℤ) < num_matches
  · rcases hc with hc | hc
    · rw [if_pos hi, hm, Option.some_bind, refineMatch_of_not_needs sd m hc]
    · omega
  · rw [if_neg hi, hm]

/-- C8 (witness): the sample buffer on the grid without measurements. -/
theorem refineXyz_frame_witness :
    sdEmpty.RefineDefined bufferSample 2 ∧
    ∃ ms', sdEmpty.refineXyz bufferSample 2 = some ms' ∧ ms'.length = bufferSample.length ∧
      ∀ (i : ℕ) (m : FeatureMatch), bufferSample[i]? = some m →
        (m.status ≠ .MATCH_NEEDS_DEPTH_REFINEMENT ∨ (2 : ℤ) ≤ i) →
        ms'[i]? = some m :=
  ⟨bufferSample_refineDefined sdEmpty rfl rfl sdEmpty_wellSized,
    refineXyz_frame sdEmpty bufferSample 2
      (bufferSample_refineDefined sdEmpty rfl rfl sdEmpty_wellSized)⟩

/-- C9: after a defined call of `refineXyz` no match at an index below
`num_matches` has status `NEEDS_DEPTH_REFINEMENT`, a match has that status
afterwards only if the match at the same index had it before, and every
match that was `OK` before is identical afterwards. -/
theorem refineXyz_never_needs (sd : StereoDisparity) (ms : List FeatureMatch)
    (num_matches : ℤ) (hdef : sd.RefineDefined ms num_matches) :
    ∃ ms', sd.refineXyz ms num_matches = some ms' ∧
      (∀ (i : ℕ) (m' : FeatureMatch), (i : ℤ) < num_matches → ms'[i]? = some m' →
        m'.status ≠ .MATCH_NEEDS_DEPTH_REFINEMENT) ∧
      (∀ (i : ℕ) (m' : FeatureMatch), ms'[i]? = some m' →
        m'.status = .MATCH_NEEDS_DEPTH_REFINEMENT →
        ∃ m, ms[i]? = some m ∧ m.status = .MATCH_NEEDS_DEPTH_REFINEMENT) ∧
      (∀ (i : ℕ) (m : FeatureMatch), ms[i]? = some m → m.status = .MATCH_OK →
        ms'[i]? = some m) := by
  obtain ⟨ms', hrun, -, hall⟩ := refineXyz_spec sd ms num_matches hdef
  have key : ∀ (i : ℕ) (m' : FeatureMatch), (i : ℤ) < num_matches → ms'[i]? = some m' →
      m'.status ≠ .MATCH_NEEDS_DEPTH_REFINEMENT := by
    intro i m' hi hm'
    rw [hall i, if_pos hi] at hm'
    obtain ⟨m, hm, hr⟩ := Option.bind_eq_some.mp hm'
    by_cases hs : m.status = .MATCH_NEEDS_DEPTH_REFINEMENT
    · exact refineMatch_status_ne sd m m' hs hr
    · rw [refineMatch_of_not_needs sd m hs] at hr
      cases hr
      exact hs
  refine ⟨ms', hrun, key, fun i m' hm' hs => ?_, fun i m hm hs => ?_⟩
  · by_cases hi : (i : ℤ) < num_matches
    · exact absurd hs (key i m' hi hm')
    · rw [hall i, if_neg hi] at hm'
      exact ⟨m', hm', hs⟩
  · rw [hall i]
    by_cases hi : (i : ℤ) < num_matches
    · rw [if_pos hi, hm, Option.some_bind, refineMatch_of_not_needs sd m (by rw [hs]; simp)]
    · rw [if_neg hi, hm]

/-- C9 (witness): the sample buffer on the grid of example B. -/
theorem refineXyz_never_needs_witness :
    sdB.RefineDefined bufferSample 2 ∧
    ∃ ms', sdB.refineXyz bufferSample 2 = some ms' ∧
      (∀ (i : ℕ) (m' : FeatureMatch), (i : ℤ) < 2 → ms'[i]? = some m' →
        m'.status ≠ .MATCH_NEEDS_DEPTH_REFINEMENT) ∧
      (∀ (i : ℕ) (m' : FeatureMatch), ms'[i]? = some m' →
        m'.status = .MATCH_NEEDS_DEPTH_REFINEMENT →
        ∃ m, bufferSample[i]? = some m ∧ m.status = .MATCH_NEEDS_DEPTH_REFINEMENT) ∧
      (∀ (i : ℕ) (m : FeatureMatch), bufferSample[i]? = some m → m.status = .MATCH_OK →
        ms'[i]? = some m) :=
  ⟨bufferSample_refineDefined sdB rfl rfl (by simp [StereoDisparity.WellSized, sdB, gridB]),
    refineXyz_never_needs sdB bufferSample 2
      (bufferSample_refineDefined sdB rfl rfl (by simp [StereoDisparity.WellSized, sdB, gridB]))⟩

/-! ## Depth assignment for a frame -/

/-- A sequential loop whose body returns on every element returns; element
`i` of the result is the result of the body on element `i`. -/
theorem forEach_spec {α : Type} (body : α → Option α) :
    ∀ l : List α, (∀ a ∈ l, (body a).isSome = true) →
      ∃ l', forEach body l = some l' ∧ l'.length = l.length ∧
        ∀ (i : ℕ) (a : α), l[i]? = some a → l'[i]? = body a := by
  intro l
  induction l with
  | nil =>
    intro _
    exact ⟨[], rfl, rfl, fun i a h => by simp at h⟩
  | cons a rest ih =>
    intro h
    obtain ⟨a', ha'⟩ := Option.isSome_iff_exists.mp (h a (List.mem_cons_self a rest))
    obtain ⟨rest', hr, hl, hall⟩ := ih (fun b hb => h b (List.mem_cons_of_mem a hb))
    refine ⟨a' :: rest', by simp [forEach, ha', hr], by simp [hl], fun i b hb => ?_⟩
    cases i with
    | zero =>
      simp only [List.getElem?_cons_zero, Option.some.injEq] at hb
      subst hb
      simp [ha']
    | succ i =>
      simp only [List.getElem?_cons_succ] at hb ⊢
      exact hall i b hb

/-- The body of the keypoint loop of `getXyz` on a keypoint whose rounded
pixel holds the disparity `d`. -/
theorem getXyzKeypoint_of_pixel (sd : StereoDisparity) (kpdata : KeypointData) (d : ℚ)
    (hd : sd.pixel kpdata.roundedU kpdata.roundedV = some d) :
    sd.getXyzKeypoint kpdata =
      if d = 0 then
        some { kpdata with
          disparity := .nan, has_depth := false, xyzw := ⟨.nan, .nan, .nan, .nan⟩,
          xyz := Vector3d.allNan }
      else
        some { kpdata with
          disparity := .num d, has_depth := true,
          xyz := sd.getXyzValues kpdata.roundedU kpdata.roundedV (.num d),
          xyzw := Vector4d.ofXyz1 (sd.getXyzValues kpdata.roundedU kpdata.roundedV (.num d)) } := by
  unfold StereoDisparity.pixel at hd
  unfold StereoDisparity.getXyzKeypoint
  simp only []
  have hd' : sd.readDisparity (toInt (toDouble (kpdata.rect_base_uv.2 + 1 / 2)) * sd.width +
      toInt (toDouble (kpdata.rect_base_uv.1 + 1 / 2))) = some d := hd
  rw [hd']
  rfl

/-- C10: when the rounded pixel of every keypoint of a frame is stored in the
disparity buffer, `getXyz` returns a frame with the same levels and keypoint
counts, and for every level and keypoint, with `d` the stored disparity at the
rounded pixel `(u, v)`: `has_depth` is true exactly when `d` is not the
sentinel `0`; when `d` is the sentinel, the disparity, `xyz` and the four
components of `xyzw` are the not-a-number marker; otherwise the disparity is
`d`, `xyz = getXyzValues(u, v, d)` and `xyzw = (xyz, 1)`. -/
theorem getXyz_assigns_depth (sd : StereoDisparity) (odom_frame : OdometryFrame)
    (hstored : ∀ level ∈ odom_frame.levels, ∀ kp ∈ level.keypoints,
      (sd.pixel kp.roundedU kp.roundedV).isSome = true) :
    ∃ frame', sd.getXyz odom_frame = some frame' ∧
      frame'.levels.length = odom_frame.levels.length ∧
      ∀ (l : ℕ) (level : PyramidLevel), odom_frame.levels[l]? = some level →
        ∃ level', frame'.levels[l]? = some level' ∧
          level'.keypoints.length = level.keypoints.length ∧
          ∀ (k : ℕ) (kp : KeypointData), level.keypoints[k]? = some kp →
            ∃ kp' d, level'.keypoints[k]? = some kp' ∧
              sd.pixel kp.roundedU kp.roundedV = some d ∧
              (kp'.has_depth = true ↔ d ≠ 0) ∧
              (d = 0 → kp'.disparity = .nan ∧ kp'.xyz = ⟨.nan, .nan, .nan⟩ ∧
                kp'.xyzw = ⟨.nan, .nan, .nan, .nan⟩) ∧
              (d ≠ 0 → kp'.disparity = .num d ∧
                kp'.xyz = sd.getXyzValues kp.roundedU kp.roundedV (.num d) ∧
                kp'.xyzw = ⟨kp'.xyz.x, kp'.xyz.y, kp'.xyz.z, .num 1⟩) := by
  have hkp : ∀ level ∈ odom_frame.levels, ∀ kp ∈ level.keypoints,
      (sd.getXyzKeypoint kp).isSome = true := by
    intro level hl kp hk
    obtain ⟨d, hd⟩ := Option.isSome_iff_exists.mp (hstored level hl kp hk)
    rw [getXyzKeypoint_of_pixel sd kp d hd]
    split <;> rfl
  have hlevel : ∀ level ∈ odom_frame.levels,
      ((fun (level : PyramidLevel) =>
        match forEach sd.getXyzKeypoint level.keypoints with
        | none => none
        | some kps => some { level with keypoints := kps }) level).isSome = true := by
    intro level hl
    obtain ⟨kps, hk, -⟩ := forEach_spec sd.getXyzKeypoint level.keypoints (hkp level hl)
    simp [hk]
  obtain ⟨levels', hrun, hlen, hall⟩ := forEach_spec _ odom_frame.levels hlevel
  refine ⟨{ odom_frame with levels := levels' }, ?_, hlen, fun l level hl => ?_⟩
  · simp only [StereoDisparity.getXyz, hrun]
  · have hmem : level ∈ odom_frame.levels := List.getElem?_mem hl
    obtain ⟨kps, hk, hklen, hkall⟩ :=
      forEach_spec sd.getXyzKeypoint level.keypoints (hkp level hmem)
    refine ⟨{ level with keypoints := kps }, ?_, hklen, fun k kp hkget => ?_⟩
    · show levels'[l]? = _
      rw [hall l level hl]
      simp [hk]
    · have hkmem : kp ∈ level.keypoints := List.getElem?_mem hkget
      obtain ⟨d, hd⟩ := Option.isSome_iff_exists.mp (hstored level hmem kp hkmem)
      have hres := hkall k kp hkget
      rw [getXyzKeypoint_of_pixel sd kp d hd] at hres
      by_cases h0 : d = 0
      · rw [if_pos h0] at hres
        exact ⟨_, d, hres, hd, by simp [h0], fun _ => ⟨rfl, rfl, rfl⟩, fun h => absurd h0 h⟩
      · rw [if_neg h0] at hres
        exact ⟨_, d, hres, hd, by simp [h0], fun h => absurd h h0, fun _ => ⟨rfl, rfl, rfl⟩⟩

theorem kpSample_rounded : kpSample.roundedU = 0 ∧ kpSample.roundedV = 0 := by
  have hu : toDouble (1 / 10 + 1 / 2) ≤ 3 / 4 := by
    have h := roundBinary_le_dyadic 53 (-1022) (1 / 10 + 1 / 2) 3 (-2) (by norm_num)
      (by rw [abs_of_pos (by norm_num)]; norm_num) (by norm_num)
    have e : ((3 : ℤ) : ℚ) * (2 : ℚ) ^ (-2 : ℤ) = 3 / 4 := by norm_num
    rw [e] at h
    exact h
  have hv : toDouble (4 / 10 + 1 / 2) ≤ 15 / 16 := by
    have h := roundBinary_le_dyadic 53 (-1022) (4 / 10 + 1 / 2) 15 (-4) (by norm_num)
      (by rw [abs_of_pos (by norm_num)]; norm_num) (by norm_num)
    have e : ((15 : ℤ) : ℚ) * (2 : ℚ) ^ (-4 : ℤ) = 15 / 16 := by norm_num
    rw [e] at h
    exact h
  have hu0 : 0 ≤ toDouble (1 / 10 + 1 / 2) := roundBinary_nonneg _ _ _ (by norm_num)
  have hv0 : 0 ≤ toDouble (4 / 10 + 1 / 2) := roundBinary_nonneg _ _ _ (by norm_num)
  constructor
  · show toInt (toDouble (1 / 10 + 1 / 2)) = 0
    exact toInt_eq_of_mem hu0 (by simpa using hu0) (by norm_num; linarith)
  · show toInt (toDouble (4 / 10 + 1 / 2)) = 0
    exact toInt_eq_of_mem hv0 (by simpa using hv0) (by norm_num; linarith)

theorem kpCentre_rounded : kpCentre.roundedU = 2 ∧ kpCentre.roundedV = 2 := by
  have e : toDouble (3 / 2 + 1 / 2) = 2 := by
    rw [show (3 / 2 + 1 / 2 : ℚ) = ((2 : ℤ) : ℚ) by norm_num]
    rw [toDouble_intCast 2 (by norm_num)]
    norm_num
  have h : toInt (toDouble (3 / 2 + 1 / 2)) = 2 := by
    rw [e]; exact toInt_eq_of_mem (by norm_num) (by norm_num) (by norm_num)
  exact ⟨h, h⟩

/-- The rounded pixels of the sample frame on the grid with four
measurements: (0,0) holds 1 and (2,2) holds the sentinel. -/
theorem frameSample_stored :
    sdFull.pixel kpSample.roundedU kpSample.roundedV = some 1 ∧
    sdFull.pixel kpCentre.roundedU kpCentre.roundedV = some 0 := by
  rw [kpSample_rounded.1, kpSample_rounded.2, kpCentre_rounded.1, kpCentre_rounded.2]
  exact ⟨pixel_eq_getElem _ _ _ 0 (by rfl), pixel_eq_getElem _ _ _ 8 (by rfl)⟩

/-- C10 (witness): the sample frame on the grid with four measurements. -/
theorem getXyz_assigns_depth_witness :
    (∀ level ∈ frameSample.levels, ∀ kp ∈ level.keypoints,
      (sdFull.pixel kp.roundedU kp.roundedV).isSome = true) ∧
    ∃ frame', sdFull.getXyz frameSample = some frame' ∧
      frame'.levels.length = frameSample.levels.length ∧
      ∀ (l : ℕ) (level : PyramidLevel), frameSample.levels[l]? = some level →
        ∃ level', frame'.levels[l]? = some level' ∧
          level'.keypoints.length = level.keypoints.length ∧
          ∀ (k : ℕ) (kp : KeypointData), level.keypoints[k]? = some kp →
            ∃ kp' d, level'.keypoints[k]? = some kp' ∧
              sdFull.pixel kp.roundedU kp.roundedV = some d ∧
              (kp'.has_depth = true ↔ d ≠ 0) ∧
              (d = 0 → kp'.disparity = .nan ∧ kp'.xyz = ⟨.nan, .nan, .nan⟩ ∧
                kp'.xyzw = ⟨.nan, .nan, .nan, .nan⟩) ∧
              (d ≠ 0 → kp'.disparity = .num d ∧
                kp'.xyz = sdFull.getXyzValues kp.roundedU kp.roundedV (.num d) ∧
                kp'.xyzw = ⟨kp'.xyz.x, kp'.xyz.y, kp'.xyz.z, .num 1⟩) := by
  have hstored : ∀ level ∈ frameSample.levels, ∀ kp ∈ level.keypoints,
      (sdFull.pixel kp.roundedU kp.roundedV).isSome = true := by
    intro level hl kp hk
    simp only [frameSample, List.mem_cons, List.mem_singleton, List.not_mem_nil, or_false] at hl
    rcases hl with rfl | rfl
    · simp only [List.mem_cons, List.mem_singleton, List.not_mem_nil, or_false] at hk
      rcases hk with rfl | rfl
      · rw [frameSample_stored.1]; rfl
      · rw [frameSample_stored.2]; rfl
    · simp only [List.mem_singleton] at hk
      subst hk
      rw [frameSample_stored.2]; rfl
  exact ⟨hstored, getXyz_assigns_depth sdFull frameSample hstored⟩

/-! ## Validity query and ingestion -/

/-- An in-range pixel of a buffer of `width * height` values is stored. -/
theorem pixel_of_inRange (sd : StereoDisparity) (u v : ℤ) (hs : sd.WellSized)
    (hu0 : 0 ≤ u) (hu1 : u < sd.width) (hv0 : 0 ≤ v) (hv1 : v < sd.height) :
    0 ≤ v * sd.width + u ∧ v * sd.width + u < sd.width * sd.height ∧
    ∃ d, sd.disparity_data[(v * sd.width + u).toNat]? = some d ∧ sd.pixel u v = some d := by
  unfold StereoDisparity.WellSized at hs
  have hW : 0 ≤ sd.width := by omega
  have m1 : 0 ≤ v * sd.width := mul_nonneg hv0 hW
  have m2 : (v + 1) * sd.width ≤ sd.height * sd.width :=
    mul_le_mul_of_nonneg_right (by omega) hW
  have m3 : (v + 1) * sd.width = v * sd.width + sd.width := by ring
  have m4 : sd.height * sd.width = sd.width * sd.height := by ring
  have h0 : 0 ≤ v * sd.width + u := by omega
  have h1 : v * sd.width + u < sd.width * sd.height := by omega
  have h2 : (v * sd.width + u).toNat < sd.disparity_data.length := by omega
  refine ⟨h0, h1, sd.disparity_data[(v * sd.width + u).toNat], List.getElem?_eq_getElem h2, ?_⟩
  simp [StereoDisparity.pixel, StereoDisparity.readDisparity, h0, List.getElem?_eq_getElem h2]

theorem haveXyz_of_pixel (sd : StereoDisparity) (u v : ℤ) (d : ℚ)
    (h : sd.pixel u v = some d) :
    sd.haveXyz u v = if d = 0 then some false else some true := by
  unfold StereoDisparity.pixel at h
  simp only [StereoDisparity.haveXyz, h]

/-- C11: for an in-range pixel `(u, v)` of a `width * height` buffer,
`haveXyz(u, v)` returns `false` exactly when the value stored at index
`v * width + u` is the sentinel `0` (and `true` otherwise); any other buffer
of the same width holding the same value at that index gives the same
answer, whatever it holds elsewhere. -/
theorem haveXyz_iff_sentinel (sd : StereoDisparity) (u v : ℤ) (hs : sd.WellSized)
    (hu0 : 0 ≤ u) (hu1 : u < sd.width) (hv0 : 0 ≤ v) (hv1 : v < sd.height) :
    ∃ d, sd.disparity_data[(v * sd.width + u).toNat]? = some d ∧
      (sd.haveXyz u v = some false ↔ d = 0) ∧
      (sd.haveXyz u v = some true ↔ d ≠ 0) ∧
      ∀ sd' : StereoDisparity, sd'.width = sd.width →
        sd'.disparity_data[(v * sd.width + u).toNat]? = some d →
        sd'.haveXyz u v = sd.haveXyz u v := by
  obtain ⟨h0, -, d, hd, hp⟩ := pixel_of_inRange sd u v hs hu0 hu1 hv0 hv1
  have hh := haveXyz_of_pixel sd u v d hp
  refine ⟨d, hd, ?_, ?_, fun sd' hw hd' => ?_⟩
  · rw [hh]; by_cases hz : d = 0 <;> simp [hz]
  · rw [hh]; by_cases hz : d = 0 <;> simp [hz]
  · have hp' : sd'.pixel u v = some d := by
      simp [StereoDisparity.pixel, StereoDisparity.readDisparity, hw, h0, hd']
    rw [hh, haveXyz_of_pixel sd' u v d hp']

/-- C11 (witness): pixel (1, 1) of the grid of example B holds 7. -/
theorem haveXyz_iff_sentinel_witness :
    sdB.WellSized ∧
    ∃ d, sdB.disparity_data[((1 : ℤ) * sdB.width + 1).toNat]? = some d ∧
      (sdB.haveXyz 1 1 = some false ↔ d = 0) ∧
      (sdB.haveXyz 1 1 = some true ↔ d ≠ 0) ∧
      ∀ sd' : StereoDisparity, sd'.width = sdB.width →
        sd'.disparity_data[((1 : ℤ) * sdB.width + 1).toNat]? = some d →
        sd'.haveXyz 1 1 = sdB.haveXyz 1 1 :=
  ⟨by simp [StereoDisparity.WellSized, sdB, gridB],
    haveXyz_iff_sentinel sdB 1 1 (by simp [StereoDisparity.WellSized, sdB, gridB])
      (by decide) (by decide) (by decide) (by decide)⟩

/-- Ingestion of a `width * height` grid into a `width * height` buffer
replaces the whole buffer. -/
theorem setDisparityData_eq (sd : StereoDisparity) (g : List ℚ) (hs : sd.WellSized)
    (hg : (g.length : ℤ) = sd.width * sd.height) :
    sd.setDisparityData g = some { sd with disparity_data := g } := by
  unfold StereoDisparity.WellSized at hs
  have c : 0 ≤ sd.width * sd.height ∧ sd.width * sd.height ≤ g.length ∧
      sd.width * sd.height ≤ sd.disparity_data.length := by omega
  have e1 : (sd.width * sd.height).toNat = g.length := by omega
  have e2 : sd.disparity_data.length ≤ g.length := by omega
  simp only [StereoDisparity.setDisparityData, c, and_self, if_true, e1, List.take_length,
    List.drop_of_length_le e2, List.append_nil]

/-- C12: after `setDisparityData(g)` with a `width * height` grid `g` the
stored grid is `g`, whatever was stored before: two objects with the same
calibration and different buffers are equal after ingesting `g`, so that
`haveXyz` at every pixel and the depth assigned by `getXyz` to every frame
agree and every in-range pixel reads the value of `g`; a second ingestion
leaves exactly the second grid. -/
theorem setDisparityData_overwrites (sd other : StereoDisparity) (g g2 : List ℚ)
    (hs : sd.WellSized) (ho : other.WellSized)
    (hw : other.width = sd.width) (hh : other.height = sd.height)
    (hM : other.uvd1_to_xyz = sd.uvd1_to_xyz)
    (hg : (g.length : ℤ) = sd.width * sd.height)
    (hg2 : (g2.length : ℤ) = sd.width * sd.height) :
    ∃ sd' other', sd.setDisparityData g = some sd' ∧ other.setDisparityData g = some other' ∧
      sd'.disparity_data = g ∧ sd'.width = sd.width ∧ sd'.height = sd.height ∧
      sd'.uvd1_to_xyz = sd.uvd1_to_xyz ∧ other' = sd' ∧
      (∀ u v : ℤ, other'.haveXyz u v = sd'.haveXyz u v) ∧
      (∀ frame : OdometryFrame, other'.getXyz frame = sd'.getXyz frame) ∧
      (∀ u v : ℤ, 0 ≤ u → u < sd.width → 0 ≤ v → v < sd.height →
        ∃ d, g[(v * sd.width + u).toNat]? = some d ∧ sd'.pixel u v = some d) ∧
      ∃ sd'', sd'.setDisparityData g2 = some sd'' ∧ sd''.disparity_data = g2 ∧
        sd'' = { sd with disparity_data := g2 } := by
  have hs' : ({ sd with disparity_data := g } : StereoDisparity).WellSized := hg
  have e : ({ other with disparity_data := g } : StereoDisparity) =
      { sd with disparity_data := g } := by
    cases other; cases sd; simp_all
  refine ⟨{ sd with disparity_data := g }, { other with disparity_data := g },
    setDisparityData_eq sd g hs hg, setDisparityData_eq other g ho (by rw [hw, hh]; exact hg),
    rfl, rfl, rfl, rfl, e, fun u v => by rw [e], fun frame => by rw [e],
    fun u v hu0 hu1 hv0 hv1 => ?_, { sd with disparity_data := g2 }, ?_, rfl, rfl⟩
  · obtain ⟨-, -, d, hd, hp⟩ :=
      pixel_of_inRange { sd with disparity_data := g } u v hs' hu0 hu1 hv0 hv1
    exact ⟨d, hd, hp⟩
  · exact setDisparityData_eq { sd with disparity_data := g } g2 hs' hg2

theorem sdB_wellSized : sdB.WellSized := by
  simp [StereoDisparity.WellSized, sdB, gridB]

/-- C12 (witness): the objects holding example B and the grid with four
measurements both ingest a third grid, then the empty grid. -/
theorem setDisparityData_overwrites_witness :
    sdB.WellSized ∧ sdFull.WellSized ∧ (gridOther.length : ℤ) = sdB.width * sdB.height ∧
    ∃ sd' other', sdB.setDisparityData gridOther = some sd' ∧
      sdFull.setDisparityData gridOther = some other' ∧
      sd'.disparity_data = gridOther ∧ sd'.width = sdB.width ∧ sd'.height = sdB.height ∧
      sd'.uvd1_to_xyz = sdB.uvd1_to_xyz ∧ other' = sd' ∧
      (∀ u v : ℤ, other'.haveXyz u v = sd'.haveXyz u v) ∧
      (∀ frame : OdometryFrame, other'.getXyz frame = sd'.getXyz frame) ∧
      (∀ u v : ℤ, 0 ≤ u → u < sdB.width → 0 ≤ v → v < sdB.height →
        ∃ d, gridOther[(v * sdB.width + u).toNat]? = some d ∧ sd'.pixel u v = some d) ∧
      ∃ sd'', sd'.setDisparityData gridEmpty = some sd'' ∧ sd''.disparity_data = gridEmpty ∧
        sd'' = { sdB with disparity_data := gridEmpty } :=
  ⟨sdB_wellSized, sdFull_wellSized, by simp [gridOther, sdB],
    setDisparityData_overwrites sdB sdFull gridOther gridEmpty sdB_wellSized sdFull_wellSized
      rfl rfl rfl (by simp [gridOther, sdB]) (by simp [gridEmpty, sdB])⟩

/-! ## The clamping loop -/

/-- The clamping loop over any list of corners: either no missing corner
exceeds the initial `wmax` and the state is unchanged, or the final state is
the projection and weight of the first missing corner of largest weight,
whatever the initial `xyz`. -/
theorem clampFold_spec (sd : StereoDisparity) :
    ∀ (cs : List Corner) (m0 : ℚ),
      ((∀ x0 : Vector3d, cs.foldl (clampStep sd) (x0, m0) = (x0, m0)) ∧
        ∀ c ∈ cs, c.disparity.isnan = true → c.w ≤ m0) ∨
      ∃ (i : ℕ) (c : Corner), cs[i]? = some c ∧ c.disparity.isnan = true ∧ m0 < c.w ∧
        (∀ x0 : Vector3d, cs.foldl (clampStep sd) (x0, m0) =
          (sd.getXyzValues c.u c.v c.disparity, c.w)) ∧
        (∀ (j : ℕ) (c' : Corner), cs[j]? = some c' → c'.disparity.isnan = true →
          c'.w ≤ c.w) ∧
        (∀ (j : ℕ) (c' : Corner), j < i → cs[j]? = some c' → c'.disparity.isnan = true →
          c'.w < c.w) := by
  intro cs
  induction cs with
  | nil =>
    intro m0
    exact Or.inl ⟨fun _ => rfl, fun c hc => by simp at hc⟩
  | cons c rest ih =>
    intro m0
    by_cases hc : c.disparity.isnan = true ∧ c.w > m0
    · have hstep : ∀ x0, clampStep sd (x0, m0) c =
          (sd.getXyzValues c.u c.v c.disparity, c.w) := by
        intro x0; simp only [clampStep]; rw [if_pos hc]
      rcases ih c.w with ⟨hf, hle⟩ | ⟨i, c2, hi, hn, hlt, hf, hmax, hfirst⟩
      · refine Or.inr ⟨0, c, by simp, hc.1, hc.2,
          fun x0 => by rw [List.foldl_cons, hstep x0]; exact hf _,
          fun j c' hj hn' => ?_, fun j c' hj => by omega⟩
        cases j with
        | zero =>
          simp only [List.getElem?_cons_zero, Option.some.injEq] at hj
          subst hj; exact le_rfl
        | succ j =>
          simp only [List.getElem?_cons_succ] at hj
          exact hle c' (List.getElem?_mem hj) hn'
      · refine Or.inr ⟨i + 1, c2, by simpa using hi, hn, lt_trans hc.2 hlt,
          fun x0 => by rw [List.foldl_cons, hstep x0]; exact hf _,
          fun j c' hj hn' => ?_, fun j c' hji hj hn' => ?_⟩
        · cases j with
          | zero =>
            simp only [List.getElem?_cons_zero, Option.some.injEq] at hj
            subst hj; exact le_of_lt hlt
          | succ j =>
            simp only [List.getElem?_cons_succ] at hj
            exact hmax j c' hj hn'
        · cases j with
          | zero =>
            simp only [List.getElem?_cons_zero, Option.some.injEq] at hj
            subst hj; exact hlt
          | succ j =>
            simp only [List.getElem?_cons_succ] at hj
            exact hfirst j c' (by omega) hj hn'
    · have hstep : ∀ x0, clampStep sd (x0, m0) c = (x0, m0) := by
        intro x0; simp only [clampStep]; rw [if_neg hc]
      have hc' : c.disparity.isnan = true → c.w ≤ m0 := fun hn =>
        not_lt.mp (fun hgt => hc ⟨hn, hgt⟩)
      rcases ih m0 with ⟨hf, hle⟩ | ⟨i, c2, hi, hn, hlt, hf, hmax, hfirst⟩
      · refine Or.inl ⟨fun x0 => by rw [List.foldl_cons, hstep x0]; exact hf _,
          fun c' hmem hn' => ?_⟩
        rcases List.mem_cons.mp hmem with rfl | hmem
        · exact hc' hn'
        · exact hle c' hmem hn'
      · refine Or.inr ⟨i + 1, c2, by simpa using hi, hn, hlt,
          fun x0 => by rw [List.foldl_cons, hstep x0]; exact hf _,
          fun j c' hj hn' => ?_, fun j c' hji hj hn' => ?_⟩
        · cases j with
          | zero =>
            simp only [List.getElem?_cons_zero, Option.some.injEq] at hj
            subst hj; exact le_of_lt (lt_of_le_of_lt (hc' hn') hlt)
          | succ j =>
            simp only [List.getElem?_cons_succ] at hj
            exact hmax j c' hj hn'
        · cases j with
          | zero =>
            simp only [List.getElem?_cons_zero, Option.some.injEq] at hj
            subst hj; exact lt_of_le_of_lt (hc' hn') hlt
          | succ j =>
            simp only [List.getElem?_cons_succ] at hj
            exact hfirst j c' (by omega) hj hn'

@[simp] theorem isnan_markMissing (d : ℚ) : (markMissing d).isnan = true ↔ d = 0 := by
  unfold markMissing
  by_cases h : d = 0 <;> simp [h]

theorem markMissing_eq_nan_iff (d : ℚ) : markMissing d = .nan ↔ d = 0 := by
  unfold markMissing
  by_cases h : d = 0 <;> simp [h]

/-- The clamping branch of the interpolation: with at least one and at most
three missing corners the result is `true` and `xyz` is the first component of
the final state of the clamping loop over the neighbourhood. -/
theorem interpolateCorners_partial (sd : StereoDisparity) (kpdata : KeypointData)
    (d00 d10 d01 d11 : ℚ) (hsome : d00 = 0 ∨ d10 = 0 ∨ d01 = 0 ∨ d11 = 0)
    (hnotall : d00 ≠ 0 ∨ d10 ≠ 0 ∨ d01 ≠ 0 ∨ d11 ≠ 0) :
    sd.interpolateCorners kpdata kpdata.u0 kpdata.v0 (bilinearWeights kpdata.fu kpdata.fv)
        d00 d10 d01 d11 =
      (true, kpdata.withPoint
        ((kpdata.neighbourhood d00 d10 d01 d11).foldl (clampStep sd) (kpdata.xyz, -1)).1) := by
  have hcount :
      ([markMissing d00, markMissing d10, markMissing d01, markMissing d11].filter
        FloatVal.isnan).length ≠ 4 ∧
      ([markMissing d00, markMissing d10, markMissing d01, markMissing d11].filter
        FloatVal.isnan).length ≠ 0 := by
    by_cases h0 : d00 = 0 <;> by_cases h1 : d10 = 0 <;> by_cases h2 : d01 = 0 <;>
      by_cases h3 : d11 = 0 <;> simp_all [markMissing, List.filter]
  simp only [StereoDisparity.interpolateCorners, bilinearWeights, KeypointData.neighbourhood,
    KeypointData.withPoint, List.map, List.zip, List.zipWith, ne_eq]
  rw [if_neg hcount.1, if_pos hcount.2]

theorem isnan_iff_eq_nan (x : FloatVal) : x.isnan = true ↔ x = .nan := by
  cases x <;> simp [FloatVal.isnan]

/-- For an in-margin keypoint the fractions lie in `[0, 1)`. -/
theorem fractions_of_inMargin {sd : StereoDisparity} {kpdata : KeypointData}
    (hm : sd.InMargin kpdata) :
    0 ≤ kpdata.fu ∧ kpdata.fu < 1 ∧ 0 ≤ kpdata.fv ∧ kpdata.fv < 1 := by
  obtain ⟨hu0, -, hv0, -⟩ := hm
  have e1 : kpdata.u0 = ⌊kpdata.rect_base_uv.1⌋ := toInt_of_nonneg hu0
  have e2 : kpdata.v0 = ⌊kpdata.rect_base_uv.2⌋ := toInt_of_nonneg hv0
  have a1 := Int.floor_le kpdata.rect_base_uv.1
  have a2 := Int.lt_floor_add_one kpdata.rect_base_uv.1
  have b1 := Int.floor_le kpdata.rect_base_uv.2
  have b2 := Int.lt_floor_add_one kpdata.rect_base_uv.2
  simp only [KeypointData.fu, KeypointData.fv, e1, e2]
  refine ⟨by linarith, by linarith, by linarith, by linarith⟩

/-- For fractions in `[0, 1)` each bilinear weight lies in `[0, 1]`. -/
theorem bilinearWeights_bounds (fu fv : ℚ) (h1 : 0 ≤ fu) (h2 : fu < 1) (h3 : 0 ≤ fv)
    (h4 : fv < 1) : ∀ w ∈ bilinearWeights fu fv, 0 ≤ w ∧ w ≤ 1 := by
  intro w hw
  simp only [bilinearWeights, List.mem_cons, List.mem_singleton, List.not_mem_nil,
    or_false] at hw
  rcases hw with rfl | rfl | rfl | rfl
  · exact ⟨mul_nonneg (by linarith) (by linarith), by nlinarith⟩
  · exact ⟨mul_nonneg (by linarith) (by linarith), by nlinarith⟩
  · exact ⟨mul_nonneg (by linarith) (by linarith), by nlinarith⟩
  · exact ⟨mul_nonneg (by linarith) (by linarith), by nlinarith⟩

/-- The weights carried by the neighbourhood are the bilinear weights. -/
theorem neighbourhood_weight_mem (kpdata : KeypointData) (d00 d10 d01 d11 : ℚ) (c : Corner)
    (hc : c ∈ kpdata.neighbourhood d00 d10 d01 d11) :
    c.w ∈ bilinearWeights kpdata.fu kpdata.fv := by
  simp only [KeypointData.neighbourhood, List.mem_cons, List.mem_singleton, List.not_mem_nil,
    or_false] at hc
  rcases hc with rfl | rfl | rfl | rfl <;> simp [bilinearWeights]

/-- With a sentinel among the four stored values the neighbourhood has a
missing corner. -/
theorem neighbourhood_has_missing (kpdata : KeypointData) (d00 d10 d01 d11 : ℚ)
    (hsome : d00 = 0 ∨ d10 = 0 ∨ d01 = 0 ∨ d11 = 0) :
    ∃ c ∈ kpdata.neighbourhood d00 d10 d01 d11, c.disparity.isnan = true := by
  rcases hsome with h | h | h | h
  · exact ⟨⟨(1 - kpdata.fu) * (1 - kpdata.fv), kpdata.u0, kpdata.v0, markMissing d00⟩,
      by simp [KeypointData.neighbourhood], by simp [h]⟩
  · exact ⟨⟨kpdata.fu * (1 - kpdata.fv), kpdata.u0 + 1, kpdata.v0, markMissing d10⟩,
      by simp [KeypointData.neighbourhood], by simp [h]⟩
  · exact ⟨⟨(1 - kpdata.fu) * kpdata.fv, kpdata.u0, kpdata.v0 + 1, markMissing d01⟩,
      by simp [KeypointData.neighbourhood], by simp [h]⟩
  · exact ⟨⟨kpdata.fu * kpdata.fv, kpdata.u0 + 1, kpdata.v0 + 1, markMissing d11⟩,
      by simp [KeypointData.neighbourhood], by simp [h]⟩

/-- The interpolation with one to three missing corners, in closed form: it
returns `true` and writes the projection of the first missing corner of
largest weight; the initial `xyz` of the keypoint plays no part. -/
theorem getXyzInterp_partial_spec (sd : StereoDisparity) (kpdata : KeypointData)
    (d00 d10 d01 d11 : ℚ) (hm : sd.InMargin kpdata)
    (h00 : sd.pixel kpdata.u0 kpdata.v0 = some d00)
    (h10 : sd.pixel (kpdata.u0 + 1) kpdata.v0 = some d10)
    (h01 : sd.pixel kpdata.u0 (kpdata.v0 + 1) = some d01)
    (h11 : sd.pixel (kpdata.u0 + 1) (kpdata.v0 + 1) = some d11)
    (hsome : d00 = 0 ∨ d10 = 0 ∨ d01 = 0 ∨ d11 = 0)
    (hnotall : d00 ≠ 0 ∨ d10 ≠ 0 ∨ d01 ≠ 0 ∨ d11 ≠ 0) :
    ∃ (i : ℕ) (c : Corner), (kpdata.neighbourhood d00 d10 d01 d11)[i]? = some c ∧
      c.disparity.isnan = true ∧ -1 < c.w ∧
      (∀ (j : ℕ) (c' : Corner), (kpdata.neighbourhood d00 d10 d01 d11)[j]? = some c' →
        c'.disparity.isnan = true → c'.w ≤ c.w) ∧
      (∀ (j : ℕ) (c' : Corner), j < i →
        (kpdata.neighbourhood d00 d10 d01 d11)[j]? = some c' →
        c'.disparity.isnan = true → c'.w < c.w) ∧
      ∀ stale : Vector3d, sd.getXyzInterp { kpdata with xyz := stale } =
        some (true, ({ kpdata with xyz := stale } : KeypointData).withPoint
          (sd.getXyzValues c.u c.v c.disparity)) := by
  obtain ⟨f1, f2, f3, f4⟩ := fractions_of_inMargin hm
  rcases clampFold_spec sd (kpdata.neighbourhood d00 d10 d01 d11) (-1) with
    ⟨-, hle⟩ | ⟨i, c, hi, hn, hlt, hf, hmax, hfirst⟩
  · exfalso
    obtain ⟨c, hc, hn⟩ := neighbourhood_has_missing kpdata d00 d10 d01 d11 hsome
    have hb := (bilinearWeights_bounds kpdata.fu kpdata.fv f1 f2 f3 f4 c.w
      (neighbourhood_weight_mem kpdata d00 d10 d01 d11 c hc)).1
    have := hle c hc hn
    linarith
  · refine ⟨i, c, hi, hn, hlt, hmax, hfirst, fun stale => ?_⟩
    have hm' : sd.InMargin { kpdata with xyz := stale } := hm
    rw [getXyzInterp_of_pixels sd { kpdata with xyz := stale } d00 d10 d01 d11
      (assert_of_inMargin hm') h00 h10 h01 h11,
      interpolateCorners_partial sd { kpdata with xyz := stale } d00 d10 d01 d11 hsome hnotall]
    have hnb : ({ kpdata with xyz := stale } : KeypointData).neighbourhood d00 d10 d01 d11 =
        kpdata.neighbourhood d00 d10 d01 d11 := rfl
    rw [hnb, hf]

/-! ## Behaviour of the inspected clamping branch -/

/-- On a buffer of `width * height` values the four corners of an in-margin
keypoint are stored. -/
theorem pixels_of_inMargin (sd : StereoDisparity) (kpdata : KeypointData)
    (hs : sd.WellSized) (hm : sd.InMargin kpdata) :
    ∃ d00 d10 d01 d11 : ℚ,
      sd.pixel kpdata.u0 kpdata.v0 = some d00 ∧
      sd.pixel (kpdata.u0 + 1) kpdata.v0 = some d10 ∧
      sd.pixel kpdata.u0 (kpdata.v0 + 1) = some d01 ∧
      sd.pixel (kpdata.u0 + 1) (kpdata.v0 + 1) = some d11 := by
  obtain ⟨a1, a2, a3, a4⟩ := assert_of_inMargin hm
  obtain ⟨-, -, d00, -, h00⟩ := pixel_of_inRange sd kpdata.u0 kpdata.v0 hs
    (by omega) (by omega) (by omega) (by omega)
  obtain ⟨-, -, d10, -, h10⟩ := pixel_of_inRange sd (kpdata.u0 + 1) kpdata.v0 hs
    (by omega) (by omega) (by omega) (by omega)
  obtain ⟨-, -, d01, -, h01⟩ := pixel_of_inRange sd kpdata.u0 (kpdata.v0 + 1) hs
    (by omega) (by omega) (by omega) (by omega)
  obtain ⟨-, -, d11, -, h11⟩ := pixel_of_inRange sd (kpdata.u0 + 1) (kpdata.v0 + 1) hs
    (by omega) (by omega) (by omega) (by omega)
  exact ⟨d00, d10, d01, d11, h00, h10, h01, h11⟩

/-- The flag returned after the four reads is `true` exactly when some corner
is not the sentinel. -/
theorem interpolateCorners_flag (sd : StereoDisparity) (kpdata : KeypointData) (u v : ℤ)
    (w : List ℚ) (d0 d1 d2 d3 : ℚ) :
    (sd.interpolateCorners kpdata u v w d0 d1 d2 d3).1 = true ↔
      (d0 ≠ 0 ∨ d1 ≠ 0 ∨ d2 ≠ 0 ∨ d3 ≠ 0) := by
  by_cases h0 : d0 = 0 <;> by_cases h1 : d1 = 0 <;> by_cases h2 : d2 = 0 <;>
    by_cases h3 : d3 = 0 <;>
    simp [StereoDisparity.interpolateCorners, markMissing, h0, h1, h2, h3, List.filter]

/-- The fields written after the four reads: only `xyz` and `xyzw`, with
`xyzw = (xyz, 1)` on success and nothing at all on failure. -/
theorem interpolateCorners_fields (sd : StereoDisparity) (kpdata : KeypointData) (u v : ℤ)
    (w : List ℚ) (d0 d1 d2 d3 : ℚ) (b : Bool) (kp' : KeypointData)
    (h : sd.interpolateCorners kpdata u v w d0 d1 d2 d3 = (b, kp')) :
    kp'.rect_base_uv = kpdata.rect_base_uv ∧ kp'.disparity = kpdata.disparity ∧
    kp'.has_depth = kpdata.has_depth ∧
    (b = true → kp'.xyzw = Vector4d.ofXyz1 kp'.xyz) ∧ (b = false → kp' = kpdata) := by
  simp only [StereoDisparity.interpolateCorners] at h
  split at h
  · simp only [Prod.mk.injEq] at h
    obtain ⟨rfl, rfl⟩ := h
    simp
  · simp only [Prod.mk.injEq] at h
    obtain ⟨rfl, rfl⟩ := h
    simp

/-- Whenever `getXyzInterp` returns, it has left the position, the disparity
and the depth flag of the keypoint alone; on success `xyzw = (xyz, 1)`, on
failure the keypoint is unchanged. -/
theorem getXyzInterp_fields (sd : StereoDisparity) (kpdata : KeypointData) (b : Bool)
    (kp' : KeypointData) (h : sd.getXyzInterp kpdata = some (b, kp')) :
    kp'.rect_base_uv = kpdata.rect_base_uv ∧ kp'.disparity = kpdata.disparity ∧
    kp'.has_depth = kpdata.has_depth ∧
    (b = true → kp'.xyzw = Vector4d.ofXyz1 kp'.xyz) ∧ (b = false → kp' = kpdata) := by
  simp only [StereoDisparity.getXyzInterp] at h
  split at h
  · split at h
    · simp only [Option.some.injEq] at h
      exact interpolateCorners_fields sd kpdata _ _ _ _ _ _ _ b kp' h
    · exact absurd h (by simp)
  · exact absurd h (by simp)

/-- C19: on a `width * height` buffer `getXyzInterp` returns for every
in-margin keypoint, and whenever it returns, with success or failure, the
position, the disparity and the depth flag of the keypoint are the ones it
had (a false depth flag stays false); on success `xyzw = (xyz, 1)`, on failure
the whole keypoint is unchanged. -/
theorem getXyzInterp_frame (sd : StereoDisparity) (kpdata : KeypointData)
    (hs : sd.WellSized) (hm : sd.InMargin kpdata) :
    (sd.getXyzInterp kpdata).isSome = true ∧
    ∀ (b : Bool) (kp' : KeypointData), sd.getXyzInterp kpdata = some (b, kp') →
      kp'.rect_base_uv = kpdata.rect_base_uv ∧ kp'.disparity = kpdata.disparity ∧
      kp'.has_depth = kpdata.has_depth ∧
      (kpdata.has_depth = false → kp'.has_depth = false) ∧
      (b = true → kp'.xyzw = ⟨kp'.xyz.x, kp'.xyz.y, kp'.xyz.z, .num 1⟩) ∧
      (b = false → kp' = kpdata) := by
  refine ⟨getXyzInterp_isSome_of_inMargin sd kpdata hs hm, fun b kp' h => ?_⟩
  obtain ⟨h1, h2, h3, h4, h5⟩ := getXyzInterp_fields sd kpdata b kp' h
  exact ⟨h1, h2, h3, fun hf => by rw [h3, hf], h4, h5⟩

/-- C19 (witness): the sample keypoint, whose depth flag is false, on the
grid with four measurements. -/
theorem getXyzInterp_frame_witness :
    sdFull.WellSized ∧ sdFull.InMargin kpSample ∧ kpSample.has_depth = false ∧
    (sdFull.getXyzInterp kpSample).isSome = true ∧
    ∀ (b : Bool) (kp' : KeypointData), sdFull.getXyzInterp kpSample = some (b, kp') →
      kp'.rect_base_uv = kpSample.rect_base_uv ∧ kp'.disparity = kpSample.disparity ∧
      kp'.has_depth = kpSample.has_depth ∧
      (kpSample.has_depth = false → kp'.has_depth = false) ∧
      (b = true → kp'.xyzw = ⟨kp'.xyz.x, kp'.xyz.y, kp'.xyz.z, .num 1⟩) ∧
      (b = false → kp' = kpSample) :=
  ⟨sdFull_wellSized, kpSample_inMargin sdFull rfl rfl, rfl,
    getXyzInterp_frame sdFull kpSample sdFull_wellSized (kpSample_inMargin sdFull rfl rfl)⟩

/-! ## The match sweep as an element-wise map -/

/-- The body of the sweep never yields a match that needs refinement. -/
theorem refineMatch_result_ne (sd : StereoDisparity) (m m' : FeatureMatch)
    (hr : sd.refineMatch m = some m') : m'.status ≠ .MATCH_NEEDS_DEPTH_REFINEMENT := by
  by_cases hs : m.status = .MATCH_NEEDS_DEPTH_REFINEMENT
  · exact refineMatch_status_ne sd m m' hs hr
  · rw [refineMatch_of_not_needs sd m hs] at hr
    cases hr
    exact hs

/-- A buffer whose matches all carry the sample keypoint is a defined input
of the sweep on every 3x3 grid. -/
theorem refineDefined_of_sample (sd : StereoDisparity) (ms : List FeatureMatch)
    (num_matches : ℤ) (hw : sd.width = 3) (hh : sd.height = 3) (hs : sd.WellSized)
    (hn : num_matches ≤ ms.length)
    (hall : ∀ m ∈ ms, m.refined_target_keypoint = kpSample) :
    sd.RefineDefined ms num_matches := by
  refine ⟨hn, fun i m _ hm _ => ?_⟩
  rw [hall m (List.getElem?_mem hm)]
  exact getXyzInterp_isSome_of_inMargin sd kpSample hs (kpSample_inMargin sd hw hh)

/-- C16: `refineXyz` acts on the buffer element-wise: in a defined call the
match at an index below `num_matches` is afterwards the result of the loop
body on the match that was there, which depends on that match, the grid and
the transform only; so a match that occurs in two buffers, at whatever
indices and among whatever other matches, has the same result in both. -/
theorem refineXyz_elementwise (sd : StereoDisparity) (ms other : List FeatureMatch)
    (num_matches num_other : ℤ) (i j : ℕ) (m : FeatureMatch)
    (hdef : sd.RefineDefined ms num_matches) (hother : sd.RefineDefined other num_other)
    (hi : (i : ℤ) < num_matches) (hj : (j : ℤ) < num_other)
    (hm : ms[i]? = some m) (hm' : other[j]? = some m) :
    ∃ ms' other' m', sd.refineXyz ms num_matches = some ms' ∧
      sd.refineXyz other num_other = some other' ∧
      sd.refineMatch m = some m' ∧ ms'[i]? = some m' ∧ other'[j]? = some m' := by
  obtain ⟨ms', hrun, -, hall⟩ := refineXyz_spec sd ms num_matches hdef
  obtain ⟨other', hrun', -, hall'⟩ := refineXyz_spec sd other num_other hother
  obtain ⟨m', hr⟩ := Option.isSome_iff_exists.mp
    (refineMatch_isSome sd m (fun h => hdef.2 i m hi hm h))
  refine ⟨ms', other', m', hrun, hrun', hr, ?_, ?_⟩
  · rw [hall i, if_pos hi, hm, Option.some_bind, hr]
  · rw [hall' j, if_pos hj, hm', Option.some_bind, hr]

/-- C16 (witness): the match that needs refinement is first in the sample
buffer and second in the exchanged, shortened buffer. -/
theorem refineXyz_elementwise_witness :
    sdFull.RefineDefined bufferSample 2 ∧ sdFull.RefineDefined bufferSwapped 2 ∧
    bufferSample[0]? = some (matchSample .MATCH_NEEDS_DEPTH_REFINEMENT) ∧
    bufferSwapped[1]? = some (matchSample .MATCH_NEEDS_DEPTH_REFINEMENT) ∧
    ∃ ms' other' m', sdFull.refineXyz bufferSample 2 = some ms' ∧
      sdFull.refineXyz bufferSwapped 2 = some other' ∧
      sdFull.refineMatch (matchSample .MATCH_NEEDS_DEPTH_REFINEMENT) = some m' ∧
      ms'[0]? = some m' ∧ other'[1]? = some m' := by
  have h1 := bufferSample_refineDefined sdFull rfl rfl sdFull_wellSized
  have h2 : sdFull.RefineDefined bufferSwapped 2 :=
    refineDefined_of_sample sdFull bufferSwapped 2 rfl rfl sdFull_wellSized
      (by simp [bufferSwapped]) (fun m hm => by
        simp only [bufferSwapped, List.mem_cons, List.mem_singleton, List.not_mem_nil,
          or_false] at hm
        rcases hm with rfl | rfl <;> rfl)
  exact ⟨h1, h2, rfl, rfl,
    refineXyz_elementwise sdFull bufferSample bufferSwapped 2 2 0 1
      (matchSample .MATCH_NEEDS_DEPTH_REFINEMENT) h1 h2 (by norm_num) (by norm_num) rfl rfl⟩

/-- C17: `refineXyz` is idempotent: after a defined call, a second call with
the same grid and count returns the very buffer the first call returned. -/
theorem refineXyz_idempotent (sd : StereoDisparity) (ms : List FeatureMatch)
    (num_matches : ℤ) (hdef : sd.RefineDefined ms num_matches) :
    ∃ ms', sd.refineXyz ms num_matches = some ms' ∧
      sd.refineXyz ms' num_matches = some ms' := by
  obtain ⟨ms', hrun, hlen, hall⟩ := refineXyz_spec sd ms num_matches hdef
  have hclean : ∀ (i : ℕ) (m' : FeatureMatch), (i : ℤ) < num_matches → ms'[i]? = some m' →
      m'.status ≠ .MATCH_NEEDS_DEPTH_REFINEMENT := by
    intro i m' hi hm'
    rw [hall i, if_pos hi] at hm'
    obtain ⟨m, -, hr⟩ := Option.bind_eq_some.mp hm'
    exact refineMatch_result_ne sd m m' hr
  have hdef' : sd.RefineDefined ms' num_matches :=
    ⟨by rw [hlen]; exact hdef.1, fun i m' hi hm' hs => absurd hs (hclean i m' hi hm')⟩
  obtain ⟨ms'', hrun', -, hall'⟩ := refineXyz_spec sd ms' num_matches hdef'
  have heq : ms'' = ms' := by
    apply List.ext_getElem?
    intro j
    rw [hall' j]
    by_cases hj : (j : ℤ) < num_matches
    · rw [if_pos hj]
      rcases hget : ms'[j]? with _ | m'
      · rfl
      · rw [Option.some_bind, refineMatch_of_not_needs sd m' (hclean j m' hj hget)]
    · rw [if_neg hj]
  refine ⟨ms', hrun, ?_⟩
  rw [hrun', heq]

/-- C17 (witness): the sample buffer on the grid of example B. -/
theorem refineXyz_idempotent_witness :
    sdB.RefineDefined bufferSample 2 ∧
    ∃ ms', sdB.refineXyz bufferSample 2 = some ms' ∧ sdB.refineXyz ms' 2 = some ms' :=
  ⟨bufferSample_refineDefined sdB rfl rfl sdB_wellSized,
    refineXyz_idempotent sdB bufferSample 2
      (bufferSample_refineDefined sdB rfl rfl sdB_wellSized)⟩

/-! ## Evaluation of roundings -/

/-- Rounding of a value in a known binade. -/
theorem roundBinary_of_binade (p : ℕ) (emin : ℤ) (x : ℚ) (e : ℤ)
    (h1 : (2 : ℚ) ^ e ≤ |x|) (h2 : |x| < (2 : ℚ) ^ (e + 1)) (he : emin ≤ e) :
    roundBinary p emin x =
      (roundHalfEven (x / (2 : ℚ) ^ (e - (p - 1))) : ℚ) * (2 : ℚ) ^ (e - (p - 1)) := by
  have hx0 : x ≠ 0 := abs_pos.mp (lt_of_lt_of_le (two_zpow_pos e) h1)
  have hq : quantumExp p emin x = e - (p - 1) := by
    unfold quantumExp
    rw [log_eq_of_bounds x e h1 h2, max_eq_left he]
  unfold roundBinary
  rw [if_neg hx0, hq]

/-- A value more than half way above an integer `f` rounds to `f + 1`. -/
theorem roundHalfEven_up (t : ℚ) (f : ℤ) (h1 : (f : ℚ) + 1 / 2 < t) (h2 : t < (f : ℚ) + 1) :
    roundHalfEven t = f + 1 := by
  have hf : ⌊t⌋ = f := by rw [Int.floor_eq_iff]; constructor <;> linarith
  unfold roundHalfEven
  rw [hf, if_neg (by linarith), if_pos (by linarith)]

/-- A value half way above an odd integer `f` rounds to `f + 1`. -/
theorem roundHalfEven_tie_odd (t : ℚ) (f : ℤ) (h1 : t = (f : ℚ) + 1 / 2) (h2 : f % 2 = 1) :
    roundHalfEven t = f + 1 := by
  have hf : ⌊t⌋ = f := by rw [Int.floor_eq_iff]; constructor <;> linarith
  unfold roundHalfEven
  rw [hf, if_neg (by linarith), if_neg (by linarith), if_neg (by omega)]

/-- The `float` nearest to `1 - 2 ^ (-29)` is `1`. -/
theorem toFloat_below_one : toFloat (1 - (1 / 2) ^ 29) = 1 := by
  unfold toFloat
  rw [roundBinary_of_binade 24 (-126) _ (-1) (by rw [abs_of_pos (by norm_num)]; norm_num)
    (by rw [abs_of_pos (by norm_num)]; norm_num) (by norm_num),
    roundHalfEven_up _ (2 ^ 24 - 1) (by norm_num) (by norm_num)]
  norm_num

/-- The `double` nearest to `1 - 2 ^ (-54)` is `1`: a tie, resolved to the
even significand. -/
theorem toDouble_below_one : toDouble (1 / 2 - (1 / 2) ^ 54 + 1 / 2) = 1 := by
  unfold toDouble
  rw [roundBinary_of_binade 53 (-1022) _ (-1) (by rw [abs_of_pos (by norm_num)]; norm_num)
    (by rw [abs_of_pos (by norm_num)]; norm_num) (by norm_num),
    roundHalfEven_tie_odd _ (2 ^ 53 - 1) (by norm_num) (by norm_num)]
  norm_num

/-- One half is a `float` and a `double`. -/
theorem round_half : toFloat (1 / 2) = 1 / 2 ∧ toDouble (1 / 2) = 1 / 2 := by
  have e : ((1 : ℤ) : ℚ) * (2 : ℚ) ^ (-1 : ℤ) = 1 / 2 := by norm_num
  have h1 := roundBinary_dyadic 24 (-126) 1 (-1)
    (by rw [e, abs_of_pos (by norm_num)]; norm_num) (by norm_num)
  have h2 := roundBinary_dyadic 53 (-1022) 1 (-1)
    (by rw [e, abs_of_pos (by norm_num)]; norm_num) (by norm_num)
  rw [e] at h1 h2
  exact ⟨h1, h2⟩

/-! ## Rounding of keypoint positions in `getXyz` -/

/-- The rounding error of a value of normal magnitude is at most half the
spacing: `|round x - x| ≤ |x| / 2 ^ p`. -/
theorem roundBinary_sub_le (p : ℕ) (emin : ℤ) (x : ℚ) (hx : (2 : ℚ) ^ emin ≤ |x|) :
    |roundBinary p emin x - x| ≤ |x| / 2 ^ p := by
  have hpos : 0 < |x| := lt_of_lt_of_le (two_zpow_pos emin) hx
  have hx0 : x ≠ 0 := abs_pos.mp hpos
  have hlog : emin ≤ Int.log 2 |x| :=
    (Int.zpow_le_iff_le_log (R := ℚ) (b := 2) (by norm_num) hpos).mp (by exact_mod_cast hx)
  have hqe : quantumExp p emin x = Int.log 2 |x| - (p - 1) := by
    unfold quantumExp; rw [max_eq_left hlog]
  have hq := two_zpow_pos (quantumExp p emin x)
  have hlow : (2 : ℚ) ^ Int.log 2 |x| ≤ |x| := by
    have := Int.zpow_log_le_self (R := ℚ) (b := 2) (by norm_num) hpos
    exact_mod_cast this
  have hqv : (2 : ℚ) ^ quantumExp p emin x = (2 : ℚ) ^ Int.log 2 |x| * 2 / 2 ^ p := by
    rw [hqe, zpow_sub₀ (by norm_num : (2 : ℚ) ≠ 0), zpow_sub₀ (by norm_num : (2 : ℚ) ≠ 0),
      zpow_natCast, zpow_one]
    field_simp
  have herr := roundHalfEven_sub_le (x / (2 : ℚ) ^ quantumExp p emin x)
  have hr : roundBinary p emin x - x =
      ((roundHalfEven (x / (2 : ℚ) ^ quantumExp p emin x) : ℚ) -
        x / (2 : ℚ) ^ quantumExp p emin x) * (2 : ℚ) ^ quantumExp p emin x := by
    unfold roundBinary
    rw [if_neg hx0]
    field_simp
  rw [hr, abs_mul, abs_of_pos hq]
  have h2p : (0 : ℚ) < 2 ^ p := by positivity
  calc |((roundHalfEven (x / (2 : ℚ) ^ quantumExp p emin x) : ℚ) -
          x / (2 : ℚ) ^ quantumExp p emin x)| * (2 : ℚ) ^ quantumExp p emin x
      ≤ 1 / 2 * (2 : ℚ) ^ quantumExp p emin x := mul_le_mul_of_nonneg_right herr (le_of_lt hq)
    _ = (2 : ℚ) ^ Int.log 2 |x| / 2 ^ p := by rw [hqv]; ring
    _ ≤ |x| / 2 ^ p := div_le_div_of_nonneg_right hlow (le_of_lt h2p)

/-- The index `(int)(x + 0.5)` of a non-negative coordinate, the sum being a
`double` addition. -/
theorem toInt_add_half (x : ℚ) (hx : 0 ≤ x) :
    toInt (toDouble (x + 1 / 2)) = ⌊toDouble (x + 1 / 2)⌋ ∧
    0 ≤ toInt (toDouble (x + 1 / 2)) ∧
    (toInt (toDouble (x + 1 / 2)) : ℚ) ≤ toDouble (x + 1 / 2) ∧
    toDouble (x + 1 / 2) < (toInt (toDouble (x + 1 / 2)) : ℚ) + 1 ∧
    |toDouble (x + 1 / 2) - (x + 1 / 2)| ≤ (x + 1 / 2) / 2 ^ 53 := by
  have h0 : 0 ≤ toDouble (x + 1 / 2) := roundBinary_nonneg _ _ _ (by linarith)
  have e : toInt (toDouble (x + 1 / 2)) = ⌊toDouble (x + 1 / 2)⌋ := toInt_of_nonneg h0
  have herr := roundBinary_sub_le 53 (-1022) (x + 1 / 2) (by
    rw [abs_of_pos (by linarith)]
    have : (2 : ℚ) ^ (-1022 : ℤ) ≤ (2 : ℚ) ^ (-1 : ℤ) :=
      zpow_le_zpow_right₀ (by norm_num) (by norm_num)
    have h2 : (2 : ℚ) ^ (-1 : ℤ) = 1 / 2 := by norm_num
    linarith)
  rw [abs_of_pos (by linarith : (0 : ℚ) < x + 1 / 2)] at herr
  rw [e]
  exact ⟨rfl, Int.floor_nonneg.mpr h0, Int.floor_le _, Int.lt_floor_add_one _, herr⟩

/-- A half-integer bound above a non-negative `x` below `2 ^ 31` is above
the `double` of `x`. -/
theorem toDouble_le_half_int (x : ℚ) (n : ℤ) (h0 : 0 ≤ x) (hx : x ≤ (n : ℚ) - 1 / 2)
    (hn : n ≤ 2 ^ 31) : toDouble x ≤ (n : ℚ) - 1 / 2 := by
  have hn' : (n : ℚ) ≤ 2 ^ 31 := by exact_mod_cast hn
  have e : ((2 * n - 1 : ℤ) : ℚ) * (2 : ℚ) ^ (-1 : ℤ) = (n : ℚ) - 1 / 2 := by
    push_cast; norm_num; ring
  have h := roundBinary_le_dyadic 53 (-1022) x (2 * n - 1) (-1) (by rw [e]; exact hx)
    (by rw [abs_of_nonneg h0]; norm_num; linarith) (by norm_num)
  rw [e] at h
  exact h

theorem kpHalf_rounded : kpHalf.roundedU = 1 ∧ kpHalf.roundedV = 0 := by
  constructor
  · show toInt (toDouble (1 / 2 - (1 / 2) ^ 54 + 1 / 2)) = 1
    rw [toDouble_below_one]
    exact toInt_eq_of_mem (by norm_num) (by norm_num) (by norm_num)
  · show toInt (toDouble (0 + 1 / 2)) = 0
    rw [zero_add, round_half.2]
    exact toInt_eq_of_mem (by norm_num) (by norm_num) (by norm_num)

theorem sdStep_wellSized : sdStep.WellSized := by
  simp [StereoDisparity.WellSized, sdStep, gridStep]

/-- A value of the format is its own rounding. -/
theorem roundBinary_of_representable (p : ℕ) (emin : ℤ) (y : ℚ)
    (h : Representable p emin y) : roundBinary p emin y = y := by
  obtain ⟨m, k, hy, hb, hk⟩ := h
  rw [hy] at hb ⊢
  exact roundBinary_dyadic p emin m k hb hk

/-- A value of a format is a value of every format that is at least as
precise and reaches at least as far down. -/
theorem Representable.mono {p p' : ℕ} {emin emin' : ℤ} {y : ℚ}
    (h : Representable p emin y) (hp : p ≤ p') (he : emin' - (p' - 1) ≤ emin - (p - 1)) :
    Representable p' emin' y := by
  obtain ⟨m, k, hy, hb, hk⟩ := h
  refine ⟨m, k, hy, lt_of_lt_of_le hb ?_, by omega⟩
  exact zpow_le_zpow_right₀ (by norm_num) (by omega)

/-- The magnitude of the scaled value that is rounded to an integer is below
`2 ^ p`. -/
theorem abs_div_quantum_lt (p : ℕ) (emin : ℤ) (x : ℚ) :
    |x / (2 : ℚ) ^ quantumExp p emin x| < (2 : ℚ) ^ p := by
  have hq := two_zpow_pos (quantumExp p emin x)
  have hup : |x| < (2 : ℚ) ^ (Int.log 2 |x| + 1) := by
    have := Int.lt_zpow_succ_log_self (R := ℚ) (b := 2) (by norm_num) |x|
    exact_mod_cast this
  have hle : (2 : ℚ) ^ (Int.log 2 |x| + 1) ≤ (2 : ℚ) ^ (quantumExp p emin x + p) := by
    apply zpow_le_zpow_right₀ (by norm_num)
    unfold quantumExp
    have := le_max_left (Int.log 2 |x|) emin
    omega
  rw [abs_div, abs_of_pos hq, div_lt_iff₀ hq, ← zpow_natCast, ← zpow_add₀ (by norm_num),
    add_comm]
  exact lt_of_lt_of_le hup hle

/-- Every rounding is a value of the format. -/
theorem representable_roundBinary (p : ℕ) (emin : ℤ) (x : ℚ) (hp : 1 ≤ p) :
    Representable p emin (roundBinary p emin x) := by
  by_cases hx : x = 0
  · refine ⟨0, emin - (p - 1), ?_, ?_, le_rfl⟩
    · rw [hx]; unfold roundBinary; simp
    · rw [hx]; unfold roundBinary; simp only [if_true, abs_zero]; exact two_zpow_pos _
  · have hq := two_zpow_pos (quantumExp p emin x)
    have hval : roundBinary p emin x =
        (roundHalfEven (x / (2 : ℚ) ^ quantumExp p emin x) : ℚ) *
          (2 : ℚ) ^ quantumExp p emin x := by
      unfold roundBinary; rw [if_neg hx]
    have hlt := abs_div_quantum_lt p emin x
    rw [abs_lt] at hlt
    have hup : roundHalfEven (x / (2 : ℚ) ^ quantumExp p emin x) ≤ 2 ^ p :=
      roundHalfEven_le _ (2 ^ p) (by push_cast; linarith)
    have hlo : -(2 ^ p) ≤ roundHalfEven (x / (2 : ℚ) ^ quantumExp p emin x) :=
      roundHalfEven_ge _ (-(2 ^ p)) (by push_cast; linarith)
    have hjmin : emin - (p - 1) ≤ quantumExp p emin x := by
      unfold quantumExp
      have := le_max_right (Int.log 2 |x|) emin
      omega
    generalize roundHalfEven (x / (2 : ℚ) ^ quantumExp p emin x) = M at hval hup hlo
    rw [hval]
    have h2p : (2 : ℚ) ^ (quantumExp p emin x + p) =
        (2 : ℚ) ^ p * (2 : ℚ) ^ quantumExp p emin x := by
      rw [zpow_add₀ (by norm_num), zpow_natCast, mul_comm]
    rcases lt_or_eq_of_le hup with hlt1 | heq1
    · rcases lt_or_eq_of_le hlo with hlt2 | heq2
      · refine ⟨M, quantumExp p emin x, rfl, ?_, hjmin⟩
        rw [h2p, abs_mul, abs_of_pos hq]
        apply mul_lt_mul_of_pos_right _ hq
        rw [abs_lt]
        constructor
        · have : ((-(2 ^ p) : ℤ) : ℚ) < (M : ℚ) := by exact_mod_cast hlt2
          push_cast at this; exact this
        · have : (M : ℚ) < ((2 ^ p : ℤ) : ℚ) := by exact_mod_cast hlt1
          push_cast at this; exact this
      · refine ⟨-1, quantumExp p emin x + p, ?_, ?_, by omega⟩
        · rw [← heq2, h2p]; push_cast; ring
        · rw [← heq2]
          push_cast
          rw [abs_mul, abs_neg, abs_of_pos (by positivity : (0 : ℚ) < 2 ^ p), abs_of_pos hq,
            ← h2p]
          exact zpow_lt_zpow_right₀ (by norm_num) (by omega)
    · refine ⟨1, quantumExp p emin x + p, ?_, ?_, by omega⟩
      · rw [heq1, h2p]; push_cast; ring
      · rw [heq1]
        push_cast
        rw [abs_mul, abs_of_pos (by positivity : (0 : ℚ) < 2 ^ p), abs_of_pos hq, ← h2p]
        exact zpow_lt_zpow_right₀ (by norm_num) (by omega)

/-- Narrowing is idempotent, and a `float` widened to `double`, multiplied
by one and narrowed again is unchanged. -/
theorem toFloat_toDouble_toFloat (x : ℚ) :
    toFloat (toDouble (toFloat x * 1)) = toFloat x := by
  have hr : Representable 24 (-126) (toFloat x) := representable_roundBinary 24 (-126) x
    (by norm_num)
  have hd : toDouble (toFloat x) = toFloat x :=
    roundBinary_of_representable 53 (-1022) _ (hr.mono (by norm_num) (by norm_num))
  rw [mul_one, hd]
  exact roundBinary_of_representable 24 (-126) _ hr

/-- The integer part of a non-negative `float` is a `float`, and so is its
fractional part: the conversion of the pixel column and the subtraction that
gives the fraction are exact. -/
theorem toFloat_fraction (y : ℚ) (hr : Representable 24 (-126) y) (hy : 0 ≤ y) :
    toFloat ((toInt y : ℤ) : ℚ) = toInt y ∧
    toFloat (y - toFloat ((toInt y : ℤ) : ℚ)) = y - toInt y := by
  have hn : toInt y = ⌊y⌋ := toInt_of_nonneg hy
  have hfl := Int.floor_le y
  have hfl0 : (0 : ℚ) ≤ (⌊y⌋ : ℚ) := by exact_mod_cast Int.floor_nonneg.mpr hy
  obtain ⟨m, k, hyk, hb, hk⟩ := hr
  rw [hn]
  by_cases hk0 : 0 ≤ k
  · have hint : y = ((m * 2 ^ k.toNat : ℤ) : ℚ) := by
      rw [hyk]; push_cast
      rw [← zpow_natCast, Int.toNat_of_nonneg hk0]
    have hfloor : (⌊y⌋ : ℚ) = y := by
      rw [hint, Int.floor_intCast]
    have hrep : toFloat y = y :=
      roundBinary_of_representable 24 (-126) y ⟨m, k, hyk, hb, hk⟩
    rw [hfloor, hrep, sub_self]
    exact ⟨rfl, by unfold toFloat roundBinary; simp⟩
  · have hk1 : k < 0 := not_le.mp hk0
    have hylt : y < 2 ^ 23 := by
      rw [abs_of_nonneg hy] at hb
      refine lt_of_lt_of_le hb ?_
      have : (2 : ℚ) ^ (k + ((24 : ℕ) : ℤ)) ≤ (2 : ℚ) ^ ((23 : ℕ) : ℤ) :=
        zpow_le_zpow_right₀ (by norm_num) (by push_cast; omega)
      rw [zpow_natCast] at this
      exact this
    have hnrep : toFloat ((⌊y⌋ : ℤ) : ℚ) = ⌊y⌋ :=
      toFloat_intCast ⌊y⌋ (by rw [abs_of_nonneg hfl0]; norm_num at hylt ⊢; linarith)
    refine ⟨hnrep, ?_⟩
    rw [hnrep]
    apply roundBinary_of_representable
    refine ⟨m - ⌊y⌋ * 2 ^ (-k).toNat, k, ?_, ?_, hk⟩
    · push_cast
      rw [sub_mul, ← hyk, mul_assoc, ← zpow_natCast, Int.toNat_of_nonneg (by omega),
        ← zpow_add₀ (by norm_num), neg_add_cancel, zpow_zero, mul_one]
    · rw [abs_of_nonneg (by linarith)]
      rw [abs_of_nonneg hy] at hb
      linarith

/-! ## The interpolation with its conversions -/

theorem toFloat_zero : toFloat 0 = 0 := by unfold toFloat roundBinary; simp

theorem toFloat_one : toFloat 1 = 1 := by
  have := toFloat_intCast 1 (by norm_num)
  simpa using this

theorem narrowU_representable (kpdata : KeypointData) :
    Representable 24 (-126) kpdata.narrowU :=
  representable_roundBinary 24 (-126) _ (by norm_num)

theorem narrowV_representable (kpdata : KeypointData) :
    Representable 24 (-126) kpdata.narrowV :=
  representable_roundBinary 24 (-126) _ (by norm_num)

/-- A non-negative value at most `W - 2` truncates to a pixel that satisfies
the border assertion. -/
theorem toInt_assert (x : ℚ) (W : ℤ) (h0 : 0 ≤ x) (h1 : x ≤ (W : ℚ) - 2) :
    toInt x ≥ 0 ∧ toInt x < W - 1 := by
  rw [toInt_of_nonneg h0]
  have a1 : (⌊x⌋ : ℚ) ≤ (W : ℚ) - 2 := le_trans (Int.floor_le _) h1
  have b1 : ⌊x⌋ ≤ W - 2 := by exact_mod_cast a1
  exact ⟨Int.floor_nonneg.mpr h0, by omega⟩

/-- The fraction of a non-negative value lies in `[0, 1)`. -/
theorem toInt_fraction (x : ℚ) (h0 : 0 ≤ x) : 0 ≤ x - toInt x ∧ x - toInt x < 1 := by
  rw [toInt_of_nonneg h0]
  have a1 := Int.floor_le x
  have a2 := Int.lt_floor_add_one x
  constructor <;> linarith

theorem assert_of_inMarginNarrowed {sd : StereoDisparity} {kpdata : KeypointData}
    (h : sd.InMarginNarrowed kpdata) :
    kpdata.narrowU0 ≥ 0 ∧ kpdata.narrowV0 ≥ 0 ∧ kpdata.narrowU0 < sd.width - 1 ∧
      kpdata.narrowV0 < sd.height - 1 := by
  obtain ⟨hu0, hu1, hv0, hv1⟩ := h
  have a := toInt_assert kpdata.narrowU sd.width hu0 hu1
  have b := toInt_assert kpdata.narrowV sd.height hv0 hv1
  exact ⟨a.1, b.1, a.2, b.2⟩

/-- For a narrowed position in the margin the fractions lie in `[0, 1)`. -/
theorem fractions_of_inMarginNarrowed {sd : StereoDisparity} {kpdata : KeypointData}
    (h : sd.InMarginNarrowed kpdata) :
    0 ≤ kpdata.narrowFu ∧ kpdata.narrowFu < 1 ∧ 0 ≤ kpdata.narrowFv ∧ kpdata.narrowFv < 1 := by
  obtain ⟨hu0, -, hv0, -⟩ := h
  have a := toInt_fraction kpdata.narrowU hu0
  have b := toInt_fraction kpdata.narrowV hv0
  exact ⟨a.1, a.2, b.1, b.2⟩

/-- Unfolding of the interpolation with its conversions when the narrowed
position is non-negative, the border assertion holds and the four reads are
inside the buffer: the scaled position is the narrowed position, the
fractions are exact, and the weights are the single-precision weights. -/
theorem getXyzInterpRounded_of_pixels (sd : StereoDisparity) (kpdata : KeypointData)
    (d00 d10 d01 d11 : ℚ) (hu : 0 ≤ kpdata.narrowU) (hv : 0 ≤ kpdata.narrowV)
    (ha : kpdata.narrowU0 ≥ 0 ∧ kpdata.narrowV0 ≥ 0 ∧ kpdata.narrowU0 < sd.width - 1 ∧
      kpdata.narrowV0 < sd.height - 1)
    (h00 : sd.pixel kpdata.narrowU0 kpdata.narrowV0 = some d00)
    (h10 : sd.pixel (kpdata.narrowU0 + 1) kpdata.narrowV0 = some d10)
    (h01 : sd.pixel kpdata.narrowU0 (kpdata.narrowV0 + 1) = some d01)
    (h11 : sd.pixel (kpdata.narrowU0 + 1) (kpdata.narrowV0 + 1) = some d11) :
    sd.getXyzInterpRounded kpdata =
      some (sd.interpolateCorners kpdata kpdata.narrowU0 kpdata.narrowV0
        (singleWeights kpdata.narrowFu kpdata.narrowFv) d00 d10 d01 d11) := by
  have eu : toFloat (toDouble (toFloat kpdata.rect_base_uv.1 * 1)) = kpdata.narrowU :=
    toFloat_toDouble_toFloat _
  have ev : toFloat (toDouble (toFloat kpdata.rect_base_uv.2 * 1)) = kpdata.narrowV :=
    toFloat_toDouble_toFloat _
  have fu : toFloat (kpdata.narrowU - toFloat ((toInt kpdata.narrowU : ℤ) : ℚ)) =
      kpdata.narrowFu := (toFloat_fraction _ (narrowU_representable kpdata) hu).2
  have fv : toFloat (kpdata.narrowV - toFloat ((toInt kpdata.narrowV : ℤ) : ℚ)) =
      kpdata.narrowFv := (toFloat_fraction _ (narrowV_representable kpdata) hv).2
  simp only [StereoDisparity.pixel] at h00 h10 h01 h11
  have h10' : sd.readDisparity (kpdata.narrowV0 * sd.width + kpdata.narrowU0 + 1) =
      some d10 := by
    rw [← h10]; congr 1; ring
  have h01' : sd.readDisparity (kpdata.narrowV0 * sd.width + kpdata.narrowU0 + sd.width) =
      some d01 := by
    rw [← h01]; congr 1; ring
  have h11' : sd.readDisparity (kpdata.narrowV0 * sd.width + kpdata.narrowU0 + sd.width + 1) =
      some d11 := by
    rw [← h11]; congr 1; ring
  unfold StereoDisparity.getXyzInterpRounded
  simp only [eu, ev, fu, fv]
  have eu0 : toInt kpdata.narrowU = kpdata.narrowU0 := rfl
  have ev0 : toInt kpdata.narrowV = kpdata.narrowV0 := rfl
  rw [eu0, ev0, if_pos ha, h00, h10', h01', h11']

/-- The single-precision weights of fractions in `[0, 1]` are non-negative. -/
theorem singleWeights_nonneg (a b : ℚ) (ha0 : 0 ≤ a) (ha1 : a ≤ 1) (hb0 : 0 ≤ b) (hb1 : b ≤ 1) :
    ∀ w ∈ singleWeights a b, 0 ≤ w := by
  have h1 : 0 ≤ toFloat (1 - a) := roundBinary_nonneg _ _ _ (by linarith)
  have h2 : 0 ≤ toFloat (1 - b) := roundBinary_nonneg _ _ _ (by linarith)
  intro w hw
  simp only [singleWeights, List.mem_cons, List.mem_singleton, List.not_mem_nil,
    or_false] at hw
  rcases hw with rfl | rfl | rfl | rfl
  · exact roundBinary_nonneg _ _ _ (mul_nonneg h1 h2)
  · exact roundBinary_nonneg _ _ _ (mul_nonneg ha0 h2)
  · exact roundBinary_nonneg _ _ _ (mul_nonneg h1 hb0)
  · exact roundBinary_nonneg _ _ _ (mul_nonneg ha0 hb0)

/-! ## The clamping loop of the interpolation with its conversions -/

theorem clampStep_eq_with (sd : StereoDisparity) :
    clampStep sd = clampStepWith (fun c => sd.getXyzValues c.u c.v c.disparity) := rfl

/-- The clamping loop over any list of corners, whatever is written for a
selected corner: either no missing corner exceeds the initial `wmax` and the
state is unchanged, or the corner written last is the first missing corner of
largest weight. -/
theorem clampFoldWith_spec :
    ∀ (cs : List Corner) (m0 : ℚ),
      ((∀ (P : Corner → Vector3d) (x0 : Vector3d),
          cs.foldl (clampStepWith P) (x0, m0) = (x0, m0)) ∧
        ∀ c ∈ cs, c.disparity.isnan = true → c.w ≤ m0) ∨
      ∃ (i : ℕ) (c : Corner), cs[i]? = some c ∧ c.disparity.isnan = true ∧ m0 < c.w ∧
        (∀ (P : Corner → Vector3d) (x0 : Vector3d),
          cs.foldl (clampStepWith P) (x0, m0) = (P c, c.w)) ∧
        (∀ (j : ℕ) (c' : Corner), cs[j]? = some c' → c'.disparity.isnan = true →
          c'.w ≤ c.w) ∧
        (∀ (j : ℕ) (c' : Corner), j < i → cs[j]? = some c' → c'.disparity.isnan = true →
          c'.w < c.w) := by
  intro cs
  induction cs with
  | nil =>
    intro m0
    exact Or.inl ⟨fun _ _ => rfl, fun c hc => by simp at hc⟩
  | cons c rest ih =>
    intro m0
    by_cases hc : c.disparity.isnan = true ∧ c.w > m0
    · have hstep : ∀ (P : Corner → Vector3d) (x0 : Vector3d),
          clampStepWith P (x0, m0) c = (P c, c.w) := by
        intro P x0; simp only [clampStepWith]; rw [if_pos hc]
      rcases ih c.w with ⟨hf, hle⟩ | ⟨i, c2, hi, hn, hlt, hf, hmax, hfirst⟩
      · refine Or.inr ⟨0, c, by simp, hc.1, hc.2,
          fun P x0 => by rw [List.foldl_cons, hstep P x0]; exact hf P _,
          fun j c' hj hn' => ?_, fun j c' hj => by omega⟩
        cases j with
        | zero =>
          simp only [List.getElem?_cons_zero, Option.some.injEq] at hj
          subst hj; exact le_rfl
        | succ j =>
          simp only [List.getElem?_cons_succ] at hj
          exact hle c' (List.getElem?_mem hj) hn'
      · refine Or.inr ⟨i + 1, c2, by simpa using hi, hn, lt_trans hc.2 hlt,
          fun P x0 => by rw [List.foldl_cons, hstep P x0]; exact hf P _,
          fun j c' hj hn' => ?_, fun j c' hji hj hn' => ?_⟩
        · cases j with
          | zero =>
            simp only [List.getElem?_cons_zero, Option.some.injEq] at hj
            subst hj; exact le_of_lt hlt
          | succ j =>
            simp only [List.getElem?_cons_succ] at hj
            exact hmax j c' hj hn'
        · cases j with
          | zero =>
            simp only [List.getElem?_cons_zero, Option.some.injEq] at hj
            subst hj; exact hlt
          | succ j =>
            simp only [List.getElem?_cons_succ] at hj
            exact hfirst j c' (by omega) hj hn'
    · have hstep : ∀ (P : Corner → Vector3d) (x0 : Vector3d),
          clampStepWith P (x0, m0) c = (x0, m0) := by
        intro P x0; simp only [clampStepWith]; rw [if_neg hc]
      have hc' : c.disparity.isnan = true → c.w ≤ m0 := fun hn =>
        not_lt.mp (fun hgt => hc ⟨hn, hgt⟩)
      rcases ih m0 with ⟨hf, hle⟩ | ⟨i, c2, hi, hn, hlt, hf, hmax, hfirst⟩
      · refine Or.inl ⟨fun P x0 => by rw [List.foldl_cons, hstep P x0]; exact hf P _,
          fun c' hmem hn' => ?_⟩
        rcases List.mem_cons.mp hmem with rfl | hmem
        · exact hc' hn'
        · exact hle c' hmem hn'
      · refine Or.inr ⟨i + 1, c2, by simpa using hi, hn, hlt,
          fun P x0 => by rw [List.foldl_cons, hstep P x0]; exact hf P _,
          fun j c' hj hn' => ?_, fun j c' hji hj hn' => ?_⟩
        · cases j with
          | zero =>
            simp only [List.getElem?_cons_zero, Option.some.injEq] at hj
            subst hj; exact le_of_lt (lt_of_le_of_lt (hc' hn') hlt)
          | succ j =>
            simp only [List.getElem?_cons_succ] at hj
            exact hmax j c' hj hn'
        · cases j with
          | zero =>
            simp only [List.getElem?_cons_zero, Option.some.injEq] at hj
            subst hj; exact lt_of_le_of_lt (hc' hn') hlt
          | succ j =>
            simp only [List.getElem?_cons_succ] at hj
            exact hfirst j c' (by omega) hj hn'

/-- The clamping branch after the four reads, for any weights: with at least
one and at most three missing corners the result is `true` and `xyz` is the
first component of the final state of the clamping loop over the corners. -/
theorem interpolateCorners_clamp (sd : StereoDisparity) (kpdata : KeypointData) (u v : ℤ)
    (w0 w1 w2 w3 d00 d10 d01 d11 : ℚ) (hsome : d00 = 0 ∨ d10 = 0 ∨ d01 = 0 ∨ d11 = 0)
    (hnotall : d00 ≠ 0 ∨ d10 ≠ 0 ∨ d01 ≠ 0 ∨ d11 ≠ 0) :
    sd.interpolateCorners kpdata u v [w0, w1, w2, w3] d00 d10 d01 d11 =
      (true, kpdata.withPoint
        (([⟨w0, u, v, markMissing d00⟩, ⟨w1, u + 1, v, markMissing d10⟩,
          ⟨w2, u, v + 1, markMissing d01⟩, ⟨w3, u + 1, v + 1, markMissing d11⟩] :
            List Corner).foldl (clampStep sd) (kpdata.xyz, -1)).1) := by
  have hcount :
      ([markMissing d00, markMissing d10, markMissing d01, markMissing d11].filter
        FloatVal.isnan).length ≠ 4 ∧
      ([markMissing d00, markMissing d10, markMissing d01, markMissing d11].filter
        FloatVal.isnan).length ≠ 0 := by
    by_cases h0 : d00 = 0 <;> by_cases h1 : d10 = 0 <;> by_cases h2 : d01 = 0 <;>
      by_cases h3 : d11 = 0 <;> simp_all [markMissing, List.filter]
  simp only [StereoDisparity.interpolateCorners, KeypointData.withPoint, List.map, List.zip,
    List.zipWith, ne_eq]
  rw [if_neg hcount.1, if_pos hcount.2]

/-- With a sentinel among the four stored values the neighbourhood of the
narrowed position has a missing corner. -/
theorem neighbourhoodNarrowed_has_missing (kpdata : KeypointData) (d00 d10 d01 d11 : ℚ)
    (hsome : d00 = 0 ∨ d10 = 0 ∨ d01 = 0 ∨ d11 = 0) :
    ∃ c ∈ kpdata.neighbourhoodNarrowed d00 d10 d01 d11, c.disparity.isnan = true := by
  rcases hsome with h | h | h | h
  · exact ⟨⟨toFloat (toFloat (1 - kpdata.narrowFu) * toFloat (1 - kpdata.narrowFv)),
      kpdata.narrowU0, kpdata.narrowV0, markMissing d00⟩,
      by simp [KeypointData.neighbourhoodNarrowed], by simp [h]⟩
  · exact ⟨⟨toFloat (kpdata.narrowFu * toFloat (1 - kpdata.narrowFv)),
      kpdata.narrowU0 + 1, kpdata.narrowV0, markMissing d10⟩,
      by simp [KeypointData.neighbourhoodNarrowed], by simp [h]⟩
  · exact ⟨⟨toFloat (toFloat (1 - kpdata.narrowFu) * kpdata.narrowFv),
      kpdata.narrowU0, kpdata.narrowV0 + 1, markMissing d01⟩,
      by simp [KeypointData.neighbourhoodNarrowed], by simp [h]⟩
  · exact ⟨⟨toFloat (kpdata.narrowFu * kpdata.narrowFv),
      kpdata.narrowU0 + 1, kpdata.narrowV0 + 1, markMissing d11⟩,
      by simp [KeypointData.neighbourhoodNarrowed], by simp [h]⟩

/-- The weights carried by the neighbourhood of the narrowed position are the
single-precision weights. -/
theorem neighbourhoodNarrowed_weight_mem (kpdata : KeypointData) (d00 d10 d01 d11 : ℚ)
    (c : Corner) (hc : c ∈ kpdata.neighbourhoodNarrowed d00 d10 d01 d11) :
    c.w ∈ singleWeights kpdata.narrowFu kpdata.narrowFv := by
  simp only [KeypointData.neighbourhoodNarrowed, List.mem_cons, List.mem_singleton,
    List.not_mem_nil, or_false] at hc
  rcases hc with rfl | rfl | rfl | rfl <;> simp [singleWeights]

/-- The interpolation with its conversions, with one to three missing corners
around the narrowed position, in closed form: it returns `true`; the corner
the loop writes last is the first missing corner of largest single-precision
weight, and `xyz` is its projection. -/
theorem getXyzInterpRounded_partial_spec (sd : StereoDisparity) (kpdata : KeypointData)
    (d00 d10 d01 d11 : ℚ) (hm : sd.InMarginNarrowed kpdata)
    (h00 : sd.pixel kpdata.narrowU0 kpdata.narrowV0 = some d00)
    (h10 : sd.pixel (kpdata.narrowU0 + 1) kpdata.narrowV0 = some d10)
    (h01 : sd.pixel kpdata.narrowU0 (kpdata.narrowV0 + 1) = some d01)
    (h11 : sd.pixel (kpdata.narrowU0 + 1) (kpdata.narrowV0 + 1) = some d11)
    (hsome : d00 = 0 ∨ d10 = 0 ∨ d01 = 0 ∨ d11 = 0)
    (hnotall : d00 ≠ 0 ∨ d10 ≠ 0 ∨ d01 ≠ 0 ∨ d11 ≠ 0) :
    ∃ (i : ℕ) (c : Corner), (kpdata.neighbourhoodNarrowed d00 d10 d01 d11)[i]? = some c ∧
      c.disparity.isnan = true ∧ -1 < c.w ∧
      (∀ (j : ℕ) (c' : Corner),
        (kpdata.neighbourhoodNarrowed d00 d10 d01 d11)[j]? = some c' →
        c'.disparity.isnan = true → c'.w ≤ c.w) ∧
      (∀ (j : ℕ) (c' : Corner), j < i →
        (kpdata.neighbourhoodNarrowed d00 d10 d01 d11)[j]? = some c' →
        c'.disparity.isnan = true → c'.w < c.w) ∧
      (∀ (P : Corner → Vector3d) (x0 : Vector3d),
        (kpdata.neighbourhoodNarrowed d00 d10 d01 d11).foldl (clampStepWith P) (x0, -1) =
          (P c, c.w)) ∧
      sd.getXyzInterpRounded kpdata =
        some (true, kpdata.withPoint (sd.getXyzValues c.u c.v c.disparity)) := by
  obtain ⟨f1, f2, f3, f4⟩ := fractions_of_inMarginNarrowed hm
  rcases clampFoldWith_spec (kpdata.neighbourhoodNarrowed d00 d10 d01 d11) (-1) with
    ⟨-, hle⟩ | ⟨i, c, hi, hn, hlt, hf, hmax, hfirst⟩
  · exfalso
    obtain ⟨c, hc, hn⟩ := neighbourhoodNarrowed_has_missing kpdata d00 d10 d01 d11 hsome
    have hb := singleWeights_nonneg kpdata.narrowFu kpdata.narrowFv f1 (le_of_lt f2) f3
      (le_of_lt f4) c.w (neighbourhoodNarrowed_weight_mem kpdata d00 d10 d01 d11 c hc)
    have := hle c hc hn
    linarith
  · refine ⟨i, c, hi, hn, hlt, hmax, hfirst, hf, ?_⟩
    rw [getXyzInterpRounded_of_pixels sd kpdata d00 d10 d01 d11 hm.1 hm.2.2.1
      (assert_of_inMarginNarrowed hm) h00 h10 h01 h11, singleWeights,
      interpolateCorners_clamp sd kpdata _ _ _ _ _ _ d00 d10 d01 d11 hsome hnotall,
      clampStep_eq_with]
    have hnb : ([⟨toFloat (toFloat (1 - kpdata.narrowFu) * toFloat (1 - kpdata.narrowFv)),
          kpdata.narrowU0, kpdata.narrowV0, markMissing d00⟩,
        ⟨toFloat (kpdata.narrowFu * toFloat (1 - kpdata.narrowFv)),
          kpdata.narrowU0 + 1, kpdata.narrowV0, markMissing d10⟩,
        ⟨toFloat (toFloat (1 - kpdata.narrowFu) * kpdata.narrowFv),
          kpdata.narrowU0, kpdata.narrowV0 + 1, markMissing d01⟩,
        ⟨toFloat (kpdata.narrowFu * kpdata.narrowFv),
          kpdata.narrowU0 + 1, kpdata.narrowV0 + 1, markMissing d11⟩] : List Corner) =
        kpdata.neighbourhoodNarrowed d00 d10 d01 d11 := rfl
    rw [hnb, hf]

/-! ## Evaluation at the edge keypoint (1 - 2 ^ (-29), 0.5) -/

theorem kpEdge_narrow : kpEdge.narrowU = 1 ∧ kpEdge.narrowV = 1 / 2 :=
  ⟨toFloat_below_one, round_half.1⟩

theorem kpEdge_narrow0 : kpEdge.narrowU0 = 1 ∧ kpEdge.narrowV0 = 0 := by
  constructor
  · show toInt kpEdge.narrowU = 1
    rw [kpEdge_narrow.1]
    exact toInt_eq_of_mem (by norm_num) (by norm_num) (by norm_num)
  · show toInt kpEdge.narrowV = 0
    rw [kpEdge_narrow.2]
    exact toInt_eq_of_mem (by norm_num) (by norm_num) (by norm_num)

theorem kpEdge_narrowF : kpEdge.narrowFu = 0 ∧ kpEdge.narrowFv = 1 / 2 := by
  constructor
  · rw [KeypointData.narrowFu, kpEdge_narrow.1, kpEdge_narrow0.1]; norm_num
  · rw [KeypointData.narrowFv, kpEdge_narrow.2, kpEdge_narrow0.2]; norm_num

/-- The single-precision weights at the edge keypoint. -/
theorem kpEdge_weights :
    singleWeights kpEdge.narrowFu kpEdge.narrowFv = [1 / 2, 0, 1 / 2, 0] := by
  rw [kpEdge_narrowF.1, kpEdge_narrowF.2]
  simp only [singleWeights]
  have h1 : (1 : ℚ) - 0 = 1 := by norm_num
  have h2 : (1 : ℚ) - 1 / 2 = 1 / 2 := by norm_num
  rw [h1, h2, toFloat_one, round_half.1, one_mul, zero_mul, round_half.1, toFloat_zero]

theorem kpEdge_exact0 : kpEdge.u0 = 0 ∧ kpEdge.v0 = 0 := by
  constructor
  · show toInt (1 - (1 / 2) ^ 29) = 0
    exact toInt_eq_of_mem (by norm_num) (by norm_num) (by norm_num)
  · show toInt (1 / 2) = 0
    exact toInt_eq_of_mem (by norm_num) (by norm_num) (by norm_num)

theorem kpEdge_exactF : kpEdge.fu = 1 - (1 / 2) ^ 29 ∧ kpEdge.fv = 1 / 2 := by
  constructor
  · rw [KeypointData.fu, kpEdge_exact0.1]; norm_num [kpEdge, freshKeypoint]
  · rw [KeypointData.fv, kpEdge_exact0.2]; norm_num [kpEdge, freshKeypoint]

/-- The edge keypoint satisfies the margin precondition of every 3x3 grid,
as given and narrowed. -/
theorem kpEdge_inMargin (sd : StereoDisparity) (hw : sd.width = 3) (hh : sd.height = 3) :
    sd.InMargin kpEdge ∧ sd.InMarginNarrowed kpEdge := by
  constructor
  · norm_num [StereoDisparity.InMargin, kpEdge, freshKeypoint, hw, hh]
  · unfold StereoDisparity.InMarginNarrowed
    rw [kpEdge_narrow.1, kpEdge_narrow.2, hw, hh]
    norm_num

/-- The corners of a 3x3 grid around the edge keypoint as given: columns 0
and 1. -/
theorem kpEdge_pixels (sd : StereoDisparity) (hw : sd.width = 3) :
    sd.pixel kpEdge.u0 kpEdge.v0 = sd.disparity_data[0]? ∧
    sd.pixel (kpEdge.u0 + 1) kpEdge.v0 = sd.disparity_data[1]? ∧
    sd.pixel kpEdge.u0 (kpEdge.v0 + 1) = sd.disparity_data[3]? ∧
    sd.pixel (kpEdge.u0 + 1) (kpEdge.v0 + 1) = sd.disparity_data[4]? := by
  rw [kpEdge_exact0.1, kpEdge_exact0.2]
  exact ⟨pixel_eq_getElem _ _ _ 0 (by rw [hw]; rfl), pixel_eq_getElem _ _ _ 1 (by rw [hw]; rfl),
    pixel_eq_getElem _ _ _ 3 (by rw [hw]; rfl), pixel_eq_getElem _ _ _ 4 (by rw [hw]; rfl)⟩

/-- The corners of a 3x3 grid around the narrowed edge keypoint: columns 1
and 2. -/
theorem kpEdge_pixelsNarrowed (sd : StereoDisparity) (hw : sd.width = 3) :
    sd.pixel kpEdge.narrowU0 kpEdge.narrowV0 = sd.disparity_data[1]? ∧
    sd.pixel (kpEdge.narrowU0 + 1) kpEdge.narrowV0 = sd.disparity_data[2]? ∧
    sd.pixel kpEdge.narrowU0 (kpEdge.narrowV0 + 1) = sd.disparity_data[4]? ∧
    sd.pixel (kpEdge.narrowU0 + 1) (kpEdge.narrowV0 + 1) = sd.disparity_data[5]? := by
  rw [kpEdge_narrow0.1, kpEdge_narrow0.2]
  exact ⟨pixel_eq_getElem _ _ _ 1 (by rw [hw]; rfl), pixel_eq_getElem _ _ _ 2 (by rw [hw]; rfl),
    pixel_eq_getElem _ _ _ 4 (by rw [hw]; rfl), pixel_eq_getElem _ _ _ 5 (by rw [hw]; rfl)⟩

/-- The interpolation at the edge keypoint on a 3x3 grid whose corners around
the narrowed position are `d00`, `d10`, `d01`, `d11`. -/
theorem getXyzInterpRounded_kpEdge (sd : StereoDisparity) (hw : sd.width = 3)
    (hh : sd.height = 3) (d00 d10 d01 d11 : ℚ)
    (h00 : sd.disparity_data[1]? = some d00) (h10 : sd.disparity_data[2]? = some d10)
    (h01 : sd.disparity_data[4]? = some d01) (h11 : sd.disparity_data[5]? = some d11) :
    sd.getXyzInterpRounded kpEdge =
      some (sd.interpolateCorners kpEdge 1 0 [1 / 2, 0, 1 / 2, 0] d00 d10 d01 d11) := by
  obtain ⟨p00, p10, p01, p11⟩ := kpEdge_pixelsNarrowed sd hw
  have hm := (kpEdge_inMargin sd hw hh).2
  rw [getXyzInterpRounded_of_pixels sd kpEdge d00 d10 d01 d11 hm.1 hm.2.2.1
    (assert_of_inMarginNarrowed hm) (p00.trans h00) (p10.trans h10) (p01.trans h01)
    (p11.trans h11), kpEdge_weights, kpEdge_narrow0.1, kpEdge_narrow0.2]

/-! ## Interpolation with four available corners, with the conversions -/

/-- C4 (counterexample): at the position (1 - 2 ^ (-29), 0.5), in the margin
of the 3x3 grid with measurements 1, 2, 4, 5 in columns 0 and 1, the four
corners around the position are non-sentinel and their blend with the
bilinear weights of the position is finite; but the code narrows the column
to the `float` 1, reads columns 1 and 2, finds two missing corners and
returns `true` with the not-a-number point. -/
theorem getXyzInterpRounded_edge_blend :
    sdFull.InMargin kpEdge ∧
    sdFull.pixel kpEdge.u0 kpEdge.v0 = some 1 ∧
    sdFull.pixel (kpEdge.u0 + 1) kpEdge.v0 = some 2 ∧
    sdFull.pixel kpEdge.u0 (kpEdge.v0 + 1) = some 4 ∧
    sdFull.pixel (kpEdge.u0 + 1) (kpEdge.v0 + 1) = some 5 ∧
    sdFull.getXyzInterpRounded kpEdge = some (true, kpEdge.withPoint Vector3d.allNan) ∧
    ((((sdFull.getXyzValues kpEdge.u0 kpEdge.v0 (.num 1)).scale
          (.num ((1 - kpEdge.fu) * (1 - kpEdge.fv)))).add
      ((sdFull.getXyzValues (kpEdge.u0 + 1) kpEdge.v0 (.num 2)).scale
          (.num (kpEdge.fu * (1 - kpEdge.fv))))).add
      ((sdFull.getXyzValues kpEdge.u0 (kpEdge.v0 + 1) (.num 4)).scale
          (.num ((1 - kpEdge.fu) * kpEdge.fv)))).add
      ((sdFull.getXyzValues (kpEdge.u0 + 1) (kpEdge.v0 + 1) (.num 5)).scale
          (.num (kpEdge.fu * kpEdge.fv))) =
      ⟨.num (3758096377 / 10737418240), .num (2147483649 / 21474836480),
        .num (7516192779 / 21474836480)⟩ := by
  obtain ⟨p00, p10, p01, p11⟩ := kpEdge_pixels sdFull rfl
  refine ⟨(kpEdge_inMargin sdFull rfl rfl).1, p00, p10, p01, p11, ?_, ?_⟩
  · rw [getXyzInterpRounded_kpEdge sdFull rfl rfl 2 0 5 0 rfl rfl rfl rfl]
    norm_num [StereoDisparity.interpolateCorners, markMissing, clampStep, getXyzValues_nan,
      KeypointData.withPoint]
  · rw [kpEdge_exactF.1, kpEdge_exactF.2, kpEdge_exact0.1, kpEdge_exact0.2]
    norm_num [StereoDisparity.getXyzValues, projectUvd, Matrix4d.mulVec, rowDot,
      Vector4d.hnormalized, Vector3d.add, Vector3d.scale, sdFull, exampleQ]

/-- C4 (amended): when the position narrowed to single precision satisfies
the margin precondition and the four corners around the narrowed position
are all non-sentinel, `getXyzInterp` returns `true`, writes into `xyz` the
blend `w00 * P(u0, v0, d00) + w10 * P(u0+1, v0, d10) + w01 * P(u0, v0+1, d01) +
w11 * P(u0+1, v0+1, d11)` of the four individually projected corners, with
`P = getXyzValues` and the single-precision bilinear weights of the narrowed
position (the vector arithmetic being exact), and writes `xyzw = (xyz, 1)`. -/
theorem getXyzInterpRounded_full_blend (sd : StereoDisparity) (kpdata : KeypointData)
    (d00 d10 d01 d11 : ℚ) (hm : sd.InMarginNarrowed kpdata)
    (h00 : sd.pixel kpdata.narrowU0 kpdata.narrowV0 = some d00)
    (h10 : sd.pixel (kpdata.narrowU0 + 1) kpdata.narrowV0 = some d10)
    (h01 : sd.pixel kpdata.narrowU0 (kpdata.narrowV0 + 1) = some d01)
    (h11 : sd.pixel (kpdata.narrowU0 + 1) (kpdata.narrowV0 + 1) = some d11)
    (n00 : d00 ≠ 0) (n10 : d10 ≠ 0) (n01 : d01 ≠ 0) (n11 : d11 ≠ 0) :
    ∃ kp', sd.getXyzInterpRounded kpdata = some (true, kp') ∧
      kp'.xyz =
        ((((sd.getXyzValues kpdata.narrowU0 kpdata.narrowV0 (.num d00)).scale
              (.num (toFloat (toFloat (1 - kpdata.narrowFu) *
                toFloat (1 - kpdata.narrowFv))))).add
          ((sd.getXyzValues (kpdata.narrowU0 + 1) kpdata.narrowV0 (.num d10)).scale
              (.num (toFloat (kpdata.narrowFu * toFloat (1 - kpdata.narrowFv)))))).add
          ((sd.getXyzValues kpdata.narrowU0 (kpdata.narrowV0 + 1) (.num d01)).scale
              (.num (toFloat (toFloat (1 - kpdata.narrowFu) * kpdata.narrowFv))))).add
          ((sd.getXyzValues (kpdata.narrowU0 + 1) (kpdata.narrowV0 + 1) (.num d11)).scale
              (.num (toFloat (kpdata.narrowFu * kpdata.narrowFv)))) ∧
      kp'.xyzw = ⟨kp'.xyz.x, kp'.xyz.y, kp'.xyz.z, .num 1⟩ ∧
      kp'.rect_base_uv = kpdata.rect_base_uv ∧ kp'.disparity = kpdata.disparity ∧
      kp'.has_depth = kpdata.has_depth := by
  rw [getXyzInterpRounded_of_pixels sd kpdata d00 d10 d01 d11 hm.1 hm.2.2.1
    (assert_of_inMarginNarrowed hm) h00 h10 h01 h11, singleWeights,
    interpolateCorners_blend sd kpdata _ _ _ _ _ _ d00 d10 d01 d11 n00 n10 n01 n11]
  exact ⟨_, rfl, rfl, rfl, rfl, rfl, rfl⟩

/-- C4 (witness): the edge keypoint on the grid with measurements in columns 1
and 2: the corners 1, 2, 4, 8 around the narrowed position blend to
(5/8, 1/8, 5/8). -/
theorem getXyzInterpRounded_full_blend_witness :
    sdRamp.InMarginNarrowed kpEdge ∧
    sdRamp.pixel kpEdge.narrowU0 kpEdge.narrowV0 = some 1 ∧
    sdRamp.pixel (kpEdge.narrowU0 + 1) kpEdge.narrowV0 = some 2 ∧
    sdRamp.pixel kpEdge.narrowU0 (kpEdge.narrowV0 + 1) = some 4 ∧
    sdRamp.pixel (kpEdge.narrowU0 + 1) (kpEdge.narrowV0 + 1) = some 8 ∧
    ∃ kp', sdRamp.getXyzInterpRounded kpEdge = some (true, kp') ∧
      kp'.xyz = ⟨.num (5 / 8), .num (1 / 8), .num (5 / 8)⟩ ∧
      kp'.xyzw = ⟨.num (5 / 8), .num (1 / 8), .num (5 / 8), .num 1⟩ := by
  obtain ⟨p00, p10, p01, p11⟩ := kpEdge_pixelsNarrowed sdRamp rfl
  have hm := (kpEdge_inMargin sdRamp rfl rfl).2
  obtain ⟨kp', h, hxyz, hxyzw, -⟩ := getXyzInterpRounded_full_blend sdRamp kpEdge 1 2 4 8 hm
    p00 p10 p01 p11 (by norm_num) (by norm_num) (by norm_num) (by norm_num)
  have hw := kpEdge_weights
  simp only [singleWeights, List.cons.injEq, and_true] at hw
  have e : kp'.xyz = ⟨.num (5 / 8), .num (1 / 8), .num (5 / 8)⟩ := by
    rw [hxyz, hw.1, hw.2.1, hw.2.2.1, hw.2.2.2, kpEdge_narrow0.1, kpEdge_narrow0.2]
    norm_num [StereoDisparity.getXyzValues, projectUvd, Matrix4d.mulVec, rowDot,
      Vector4d.hnormalized, Vector3d.add, Vector3d.scale, sdRamp, exampleQ]
  refine ⟨hm, p00, p10, p01, p11, kp', h, e, ?_⟩
  rw [hxyzw, e]

/-! ## Interpolation without any available corner, with the conversions -/

/-- C5 (counterexample): at the position (1 - 2 ^ (-29), 0.5), in the margin
of the 3x3 grid with measurements in the last column only, the four corners
around the position hold the sentinel; but the code narrows the column to the
`float` 1, reads columns 1 and 2 and returns `true` with `xyz` and `xyzw`
overwritten. -/
theorem getXyzInterpRounded_edge_all_missing :
    sdColumns.InMargin kpEdge ∧
    sdColumns.pixel kpEdge.u0 kpEdge.v0 = some 0 ∧
    sdColumns.pixel (kpEdge.u0 + 1) kpEdge.v0 = some 0 ∧
    sdColumns.pixel kpEdge.u0 (kpEdge.v0 + 1) = some 0 ∧
    sdColumns.pixel (kpEdge.u0 + 1) (kpEdge.v0 + 1) = some 0 ∧
    sdColumns.getXyzInterpRounded kpEdge = some (true, kpEdge.withPoint Vector3d.allNan) ∧
    kpEdge.withPoint Vector3d.allNan ≠ kpEdge := by
  obtain ⟨p00, p10, p01, p11⟩ := kpEdge_pixels sdColumns rfl
  refine ⟨(kpEdge_inMargin sdColumns rfl rfl).1, p00, p10, p01, p11, ?_, ?_⟩
  · rw [getXyzInterpRounded_kpEdge sdColumns rfl rfl 0 4 0 8 rfl rfl rfl rfl]
    norm_num [StereoDisparity.interpolateCorners, markMissing, clampStep, getXyzValues_nan,
      KeypointData.withPoint]
  · simp [KeypointData.withPoint, kpEdge, freshKeypoint, Vector3d.allNan, Vector3d.zero]

/-- C5 (amended): when the position narrowed to single precision satisfies
the margin precondition and the four corners around the narrowed position all
hold the sentinel `0`, `getXyzInterp` returns `false` and the keypoint is left
exactly as it was. -/
theorem getXyzInterpRounded_all_missing (sd : StereoDisparity) (kpdata : KeypointData)
    (hm : sd.InMarginNarrowed kpdata)
    (h00 : sd.pixel kpdata.narrowU0 kpdata.narrowV0 = some 0)
    (h10 : sd.pixel (kpdata.narrowU0 + 1) kpdata.narrowV0 = some 0)
    (h01 : sd.pixel kpdata.narrowU0 (kpdata.narrowV0 + 1) = some 0)
    (h11 : sd.pixel (kpdata.narrowU0 + 1) (kpdata.narrowV0 + 1) = some 0) :
    sd.getXyzInterpRounded kpdata = some (false, kpdata) := by
  rw [getXyzInterpRounded_of_pixels sd kpdata 0 0 0 0 hm.1 hm.2.2.1
    (assert_of_inMarginNarrowed hm) h00 h10 h01 h11]
  simp [StereoDisparity.interpolateCorners, markMissing]

/-- C5 (witness): the edge keypoint on the grid with measurements in the first
column only: the corners around the narrowed position, in columns 1 and 2,
are all sentinel. -/
theorem getXyzInterpRounded_all_missing_witness :
    sdLeft.InMarginNarrowed kpEdge ∧
    sdLeft.pixel kpEdge.narrowU0 kpEdge.narrowV0 = some 0 ∧
    sdLeft.pixel (kpEdge.narrowU0 + 1) kpEdge.narrowV0 = some 0 ∧
    sdLeft.pixel kpEdge.narrowU0 (kpEdge.narrowV0 + 1) = some 0 ∧
    sdLeft.pixel (kpEdge.narrowU0 + 1) (kpEdge.narrowV0 + 1) = some 0 ∧
    sdLeft.getXyzInterpRounded kpEdge = some (false, kpEdge) :=
  ⟨(kpEdge_inMargin sdLeft rfl rfl).2, (kpEdge_pixelsNarrowed sdLeft rfl).1,
    (kpEdge_pixelsNarrowed sdLeft rfl).2.1, (kpEdge_pixelsNarrowed sdLeft rfl).2.2.1,
    (kpEdge_pixelsNarrowed sdLeft rfl).2.2.2,
    getXyzInterpRounded_all_missing sdLeft kpEdge (kpEdge_inMargin sdLeft rfl rfl).2
      (kpEdge_pixelsNarrowed sdLeft rfl).1 (kpEdge_pixelsNarrowed sdLeft rfl).2.1
      (kpEdge_pixelsNarrowed sdLeft rfl).2.2.1 (kpEdge_pixelsNarrowed sdLeft rfl).2.2.2⟩

/-! ## The interpolation with and without its conversions -/

/-- On a grid of at most `2 ^ 24` columns and rows the margin precondition
carries over to the narrowed position: narrowing to `float` is monotone and
the bounds `0` and `width - 2`, `height - 2` are `float` values. -/
theorem inMarginNarrowed_of_inMargin (sd : StereoDisparity) (kpdata : KeypointData)
    (hw : sd.width ≤ 2 ^ 24) (hh : sd.height ≤ 2 ^ 24) (hm : sd.InMargin kpdata) :
    sd.InMarginNarrowed kpdata := by
  obtain ⟨hu0, hu1, hv0, hv1⟩ := hm
  have hwq : (sd.width : ℚ) ≤ 2 ^ 24 := by exact_mod_cast hw
  have hhq : (sd.height : ℚ) ≤ 2 ^ 24 := by exact_mod_cast hh
  refine ⟨roundBinary_nonneg _ _ _ hu0, ?_, roundBinary_nonneg _ _ _ hv0, ?_⟩
  · have h := roundBinary_le_dyadic 24 (-126) kpdata.rect_base_uv.1 (sd.width - 2) 0
      (by push_cast; rw [zpow_zero, mul_one]; exact hu1)
      (by
        rw [abs_of_nonneg hu0]
        have : ((2 : ℚ) ^ (0 + (24 : ℕ) : ℤ)) = 2 ^ 24 := by norm_num
        rw [this]; linarith)
      (by norm_num)
    have e : ((sd.width - 2 : ℤ) : ℚ) * (2 : ℚ) ^ (0 : ℤ) = (sd.width : ℚ) - 2 := by
      push_cast; rw [zpow_zero, mul_one]
    rw [e] at h
    exact h
  · have h := roundBinary_le_dyadic 24 (-126) kpdata.rect_base_uv.2 (sd.height - 2) 0
      (by push_cast; rw [zpow_zero, mul_one]; exact hv1)
      (by
        rw [abs_of_nonneg hv0]
        have : ((2 : ℚ) ^ (0 + (24 : ℕ) : ℤ)) = 2 ^ 24 := by norm_num
        rw [this]; linarith)
      (by norm_num)
    have e : ((sd.height - 2 : ℤ) : ℚ) * (2 : ℚ) ^ (0 : ℤ) = (sd.height : ℚ) - 2 := by
      push_cast; rw [zpow_zero, mul_one]
    rw [e] at h
    exact h

/-- Where the position is non-negative and a `float`, and the
single-precision weights of its fractions are the bilinear weights, the
interpolation with its conversions is the interpolation in exact
arithmetic. -/
theorem getXyzInterpRounded_eq_of_single (sd : StereoDisparity) (kpdata : KeypointData)
    (hu : 0 ≤ kpdata.rect_base_uv.1) (hv : 0 ≤ kpdata.rect_base_uv.2)
    (eu : toFloat kpdata.rect_base_uv.1 = kpdata.rect_base_uv.1)
    (ev : toFloat kpdata.rect_base_uv.2 = kpdata.rect_base_uv.2)
    (hw : singleWeights kpdata.fu kpdata.fv = bilinearWeights kpdata.fu kpdata.fv) :
    sd.getXyzInterpRounded kpdata = sd.getXyzInterp kpdata := by
  have ru : Representable 24 (-126) kpdata.rect_base_uv.1 := by
    rw [← eu]; exact representable_roundBinary 24 (-126) _ (by norm_num)
  have rv : Representable 24 (-126) kpdata.rect_base_uv.2 := by
    rw [← ev]; exact representable_roundBinary 24 (-126) _ (by norm_num)
  have e1 : toFloat (toDouble (toFloat kpdata.rect_base_uv.1)) = kpdata.rect_base_uv.1 := by
    have h := toFloat_toDouble_toFloat kpdata.rect_base_uv.1
    rw [mul_one] at h
    rw [h, eu]
  have e2 : toFloat (toDouble (toFloat kpdata.rect_base_uv.2)) = kpdata.rect_base_uv.2 := by
    have h := toFloat_toDouble_toFloat kpdata.rect_base_uv.2
    rw [mul_one] at h
    rw [h, ev]
  have f1 := (toFloat_fraction _ ru hu).2
  have f2 := (toFloat_fraction _ rv hv).2
  have hw' : singleWeights (kpdata.rect_base_uv.1 - (toInt kpdata.rect_base_uv.1 : ℤ))
      (kpdata.rect_base_uv.2 - (toInt kpdata.rect_base_uv.2 : ℤ)) =
      bilinearWeights (kpdata.rect_base_uv.1 - (toInt kpdata.rect_base_uv.1 : ℤ))
        (kpdata.rect_base_uv.2 - (toInt kpdata.rect_base_uv.2 : ℤ)) := hw
  unfold StereoDisparity.getXyzInterpRounded StereoDisparity.getXyzInterp
  simp only [mul_one, e1, e2, f1, f2, hw']

/-! ## Behaviour of the inspected clamping branch, with the conversions -/

theorem kpEdge_neighbourhoodNarrowed (d00 d10 d01 d11 : ℚ) :
    kpEdge.neighbourhoodNarrowed d00 d10 d01 d11 =
      [⟨1 / 2, 1, 0, markMissing d00⟩, ⟨0, 2, 0, markMissing d10⟩,
        ⟨1 / 2, 1, 1, markMissing d01⟩, ⟨0, 2, 1, markMissing d11⟩] := by
  have hw := kpEdge_weights
  simp only [singleWeights, List.cons.injEq, and_true] at hw
  simp only [KeypointData.neighbourhoodNarrowed]
  rw [hw.1, hw.2.1, hw.2.2.1, hw.2.2.2, kpEdge_narrow0.1, kpEdge_narrow0.2]
  norm_num

/-- C13 (counterexample): at the position (1 - 2 ^ (-29), 0.5), in the margin
of the 3x3 grid with rows (0, 1, 2), (0, 4, 8), (0, 0, 0), two of the four
corners around the position hold the sentinel; but the code narrows the
column to the `float` 1, reads the corners 1, 2, 4, 8 in columns 1 and 2,
takes the blending branch and writes the finite point (5/8, 1/8, 5/8), not
the projection of a missing corner. -/
theorem getXyzInterpRounded_edge_partial :
    sdRamp.InMargin kpEdge ∧
    sdRamp.pixel kpEdge.u0 kpEdge.v0 = some 0 ∧
    sdRamp.pixel (kpEdge.u0 + 1) kpEdge.v0 = some 1 ∧
    sdRamp.pixel kpEdge.u0 (kpEdge.v0 + 1) = some 0 ∧
    sdRamp.pixel (kpEdge.u0 + 1) (kpEdge.v0 + 1) = some 4 ∧
    sdRamp.getXyzInterpRounded kpEdge =
      some (true, kpEdge.withPoint ⟨.num (5 / 8), .num (1 / 8), .num (5 / 8)⟩) := by
  obtain ⟨p00, p10, p01, p11⟩ := kpEdge_pixels sdRamp rfl
  refine ⟨(kpEdge_inMargin sdRamp rfl rfl).1, p00, p10, p01, p11, ?_⟩
  rw [getXyzInterpRounded_kpEdge sdRamp rfl rfl 1 2 4 8 rfl rfl rfl rfl,
    interpolateCorners_blend sdRamp kpEdge 1 0 _ _ _ _ 1 2 4 8 (by norm_num) (by norm_num)
      (by norm_num) (by norm_num)]
  norm_num [StereoDisparity.getXyzValues, projectUvd, Matrix4d.mulVec, rowDot,
    Vector4d.hnormalized, Vector3d.add, Vector3d.scale, sdRamp, exampleQ]

/-- C13 (amended): in the code, when the position narrowed to single
precision satisfies the margin precondition and between one and three of the
four corners around the narrowed position hold the sentinel, `getXyzInterp`
returns `true` and `xyz` is what the clamping loop leaves.  The loop selects
corner `i` of the neighbourhood of the narrowed position, in the order
(u0,v0), (u0+1,v0), (u0,v0+1), (u0+1,v0+1): a missing corner, of largest
single-precision bilinear weight among the missing corners, and the
lowest-indexed one on ties; whatever function `P` of the corner the loop
writes, it leaves `P` of that corner.  The code writes the projection of the
corner with its not-a-number disparity, so the written point is not-a-number
in every component. -/
theorem getXyzInterpRounded_selects_missing (sd : StereoDisparity) (kpdata : KeypointData)
    (d00 d10 d01 d11 : ℚ) (hm : sd.InMarginNarrowed kpdata)
    (h00 : sd.pixel kpdata.narrowU0 kpdata.narrowV0 = some d00)
    (h10 : sd.pixel (kpdata.narrowU0 + 1) kpdata.narrowV0 = some d10)
    (h01 : sd.pixel kpdata.narrowU0 (kpdata.narrowV0 + 1) = some d01)
    (h11 : sd.pixel (kpdata.narrowU0 + 1) (kpdata.narrowV0 + 1) = some d11)
    (hsome : d00 = 0 ∨ d10 = 0 ∨ d01 = 0 ∨ d11 = 0)
    (hnotall : d00 ≠ 0 ∨ d10 ≠ 0 ∨ d01 ≠ 0 ∨ d11 ≠ 0) :
    ∃ (i : ℕ) (c : Corner),
      (kpdata.neighbourhoodNarrowed d00 d10 d01 d11)[i]? = some c ∧
      c.disparity = .nan ∧
      (∀ (j : ℕ) (c' : Corner),
        (kpdata.neighbourhoodNarrowed d00 d10 d01 d11)[j]? = some c' →
        c'.disparity = .nan → c'.w ≤ c.w) ∧
      (∀ (j : ℕ) (c' : Corner), j < i →
        (kpdata.neighbourhoodNarrowed d00 d10 d01 d11)[j]? = some c' →
        c'.disparity = .nan → c'.w < c.w) ∧
      (∀ (P : Corner → Vector3d) (x0 : Vector3d),
        (kpdata.neighbourhoodNarrowed d00 d10 d01 d11).foldl (clampStepWith P) (x0, -1) =
          (P c, c.w)) ∧
      clampStep sd = clampStepWith (fun c' => sd.getXyzValues c'.u c'.v c'.disparity) ∧
      sd.getXyzInterpRounded kpdata =
        some (true, kpdata.withPoint
          ((kpdata.neighbourhoodNarrowed d00 d10 d01 d11).foldl (clampStep sd)
            (kpdata.xyz, -1)).1) ∧
      sd.getXyzInterpRounded kpdata =
        some (true, kpdata.withPoint (sd.getXyzValues c.u c.v c.disparity)) ∧
      sd.getXyzValues c.u c.v c.disparity = ⟨.nan, .nan, .nan⟩ := by
  obtain ⟨i, c, hi, hn, -, hmax, hfirst, hfold, hrun⟩ :=
    getXyzInterpRounded_partial_spec sd kpdata d00 d10 d01 d11 hm h00 h10 h01 h11 hsome hnotall
  have hc : c.disparity = .nan := (isnan_iff_eq_nan _).mp hn
  refine ⟨i, c, hi, hc, fun j c' hj hn' => hmax j c' hj ((isnan_iff_eq_nan _).mpr hn'),
    fun j c' hji hj hn' => hfirst j c' hji hj ((isnan_iff_eq_nan _).mpr hn'),
    hfold, rfl, ?_, hrun, ?_⟩
  · rw [hrun, clampStep_eq_with, hfold]
  · rw [hc]
    exact getXyzValues_nan sd c.u c.v

/-- C13 (witness): the edge keypoint on the grid with rows (1, 2, 0),
(4, 5, 0), (0, 0, 0): the corners around the narrowed position are 2, 0, 5,
0 with weights 1/2, 0, 1/2, 0; the two missing corners tie at weight 0 and
the loop selects the lower-indexed one, corner (2, 0). -/
theorem getXyzInterpRounded_selects_missing_witness :
    sdFull.InMarginNarrowed kpEdge ∧
    sdFull.pixel kpEdge.narrowU0 kpEdge.narrowV0 = some 2 ∧
    sdFull.pixel (kpEdge.narrowU0 + 1) kpEdge.narrowV0 = some 0 ∧
    sdFull.pixel kpEdge.narrowU0 (kpEdge.narrowV0 + 1) = some 5 ∧
    sdFull.pixel (kpEdge.narrowU0 + 1) (kpEdge.narrowV0 + 1) = some 0 ∧
    kpEdge.neighbourhoodNarrowed 2 0 5 0 =
      [⟨1 / 2, 1, 0, .num 2⟩, ⟨0, 2, 0, .nan⟩, ⟨1 / 2, 1, 1, .num 5⟩, ⟨0, 2, 1, .nan⟩] ∧
    (∀ (P : Corner → Vector3d) (x0 : Vector3d),
      (kpEdge.neighbourhoodNarrowed 2 0 5 0).foldl (clampStepWith P) (x0, -1) =
        (P ⟨0, 2, 0, .nan⟩, 0)) ∧
    sdFull.getXyzInterpRounded kpEdge = some (true, kpEdge.withPoint Vector3d.allNan) := by
  obtain ⟨p00, p10, p01, p11⟩ := kpEdge_pixelsNarrowed sdFull rfl
  have hm := (kpEdge_inMargin sdFull rfl rfl).2
  have hnb : kpEdge.neighbourhoodNarrowed 2 0 5 0 =
      [⟨1 / 2, 1, 0, .num 2⟩, ⟨0, 2, 0, .nan⟩, ⟨1 / 2, 1, 1, .num 5⟩, ⟨0, 2, 1, .nan⟩] := by
    rw [kpEdge_neighbourhoodNarrowed]
    norm_num [markMissing]
  obtain ⟨i, c, hi, hc, -, hfirst, hfold, -, -, hrun, hnan⟩ :=
    getXyzInterpRounded_selects_missing sdFull kpEdge 2 0 5 0 hm p00 p10 p01 p11
      (Or.inr (Or.inl rfl)) (Or.inl (by norm_num))
  have hsel : c = ⟨0, 2, 0, .nan⟩ := by
    rw [hnb] at hi hfirst
    match i, hi, hfirst with
    | 0, hi, _ =>
      simp only [List.getElem?_cons_zero, Option.some.injEq] at hi
      rw [← hi] at hc
      exact absurd hc (by simp)
    | 1, hi, _ =>
      simp only [List.getElem?_cons_succ, List.getElem?_cons_zero, Option.some.injEq] at hi
      exact hi.symm
    | 2, hi, _ =>
      simp only [List.getElem?_cons_succ, List.getElem?_cons_zero, Option.some.injEq] at hi
      rw [← hi] at hc
      exact absurd hc (by simp)
    | 3, hi, hfirst =>
      simp only [List.getElem?_cons_succ, List.getElem?_cons_zero, Option.some.injEq] at hi
      have h := hfirst 1 ⟨0, 2, 0, .nan⟩ (by norm_num) (by simp) rfl
      rw [← hi] at h
      exact absurd h (by norm_num)
    | n + 4, hi, _ =>
      simp at hi
  refine ⟨hm, p00, p10, p01, p11, hnb, fun P x0 => ?_, ?_⟩
  · rw [hfold P x0, hsel]
  · rw [hrun, hnan]
    rfl

/-! ## The match sweep over the interpolation with its conversions -/

/-- The loop of `refineXyz` over the interpolation with its conversions
returns when the matches it visits are in the buffer and the body returns on
each; it replaces each visited match by the result of the body and leaves the
others in place. -/
theorem refineLoopRounded_spec (sd : StereoDisparity) :
    ∀ (k i : ℕ) (ms : List FeatureMatch), i + k ≤ ms.length →
      (∀ (j : ℕ) (m : FeatureMatch), i ≤ j → j < i + k → ms[j]? = some m →
        (sd.refineMatchRounded m).isSome = true) →
      ∃ ms', sd.refineLoopRounded k i ms = some ms' ∧ ms'.length = ms.length ∧
        ∀ j : ℕ, ms'[j]? =
          if i ≤ j ∧ j < i + k then (ms[j]?).bind sd.refineMatchRounded else ms[j]? := by
  intro k
  induction k with
  | zero =>
    intro i ms _ _
    refine ⟨ms, rfl, rfl, fun j => ?_⟩
    have : ¬ (i ≤ j ∧ j < i + 0) := by omega
    rw [if_neg this]
  | succ k ih =>
    intro i ms hlen hbody
    have hi : i < ms.length := by omega
    have hget : ms[i]? = some ms[i] := List.getElem?_eq_getElem hi
    obtain ⟨m', hm'⟩ := Option.isSome_iff_exists.mp (hbody i ms[i] le_rfl (by omega) hget)
    have hlen' : (i + 1) + k ≤ (ms.set i m').length := by
      rw [List.length_set]; omega
    have hbody' : ∀ (j : ℕ) (m : FeatureMatch), i + 1 ≤ j → j < (i + 1) + k →
        (ms.set i m')[j]? = some m → (sd.refineMatchRounded m).isSome = true := by
      intro j m h1 h2 h3
      rw [List.getElem?_set_ne (by omega)] at h3
      exact hbody j m (by omega) (by omega) h3
    obtain ⟨ms', hrun, hl, hall⟩ := ih (i + 1) (ms.set i m') hlen' hbody'
    refine ⟨ms', ?_, ?_, fun j => ?_⟩
    · simp only [StereoDisparity.refineLoopRounded, hget, hm']
      exact hrun
    · rw [hl, List.length_set]
    · rw [hall j]
      by_cases hj : j = i
      · subst hj
        have c1 : ¬ (j + 1 ≤ j ∧ j < j + 1 + k) := by omega
        have c2 : j ≤ j ∧ j < j + (k + 1) := by omega
        rw [if_neg c1, if_pos c2, List.getElem?_set_self hi, hget]
        exact hm'.symm
      · rw [List.getElem?_set_ne (fun h => hj h.symm)]
        by_cases hc : i + 1 ≤ j ∧ j < i + 1 + k
        · have c2 : i ≤ j ∧ j < i + (k + 1) := by omega
          rw [if_pos hc, if_pos c2]
        · have c2 : ¬ (i ≤ j ∧ j < i + (k + 1)) := by omega
          rw [if_neg hc, if_neg c2]

/-- The body of the sweep returns on a match that needs no refinement, and on
one that does when the interpolation with its conversions returns. -/
theorem refineMatchRounded_isSome (sd : StereoDisparity) (m : FeatureMatch)
    (h : m.status = .MATCH_NEEDS_DEPTH_REFINEMENT →
      (sd.getXyzInterpRounded m.refined_target_keypoint).isSome = true) :
    (sd.refineMatchRounded m).isSome = true := by
  unfold StereoDisparity.refineMatchRounded
  by_cases hs : m.status = .MATCH_NEEDS_DEPTH_REFINEMENT
  · obtain ⟨r, hr⟩ := Option.isSome_iff_exists.mp (h hs)
    obtain ⟨b, kp⟩ := r
    cases b <;> simp [hs, hr]
  · simp [hs]

/-- A defined call of `refineXyz` over the interpolation with its conversions
returns a buffer of the same length in which each of the first `num_matches`
matches is replaced by the result of the loop body. -/
theorem refineXyzRounded_spec (sd : StereoDisparity) (ms : List FeatureMatch)
    (num_matches : ℤ) (hdef : sd.RefineDefinedRounded ms num_matches) :
    ∃ ms', sd.refineXyzRounded ms num_matches = some ms' ∧ ms'.length = ms.length ∧
      ∀ j : ℕ, ms'[j]? =
        if (j : ℤ) < num_matches then (ms[j]?).bind sd.refineMatchRounded else ms[j]? := by
  obtain ⟨hlen, hinterp⟩ := hdef
  have h1 : 0 + num_matches.toNat ≤ ms.length := by omega
  obtain ⟨ms', hrun, hl, hall⟩ := refineLoopRounded_spec sd num_matches.toNat 0 ms h1
    (fun j m _ hj hm => refineMatchRounded_isSome sd m (hinterp j m (by omega) hm))
  refine ⟨ms', hrun, hl, fun j => ?_⟩
  rw [hall j]
  by_cases hc : (j : ℤ) < num_matches
  · rw [if_pos hc, if_pos (by omega)]
  · rw [if_neg hc, if_neg (by omega)]

theorem refineMatchRounded_of_success (sd : StereoDisparity) (m : FeatureMatch)
    (kp : KeypointData) (h : m.status = .MATCH_NEEDS_DEPTH_REFINEMENT)
    (hk : sd.getXyzInterpRounded m.refined_target_keypoint = some (true, kp)) :
    sd.refineMatchRounded m =
      some { m with refined_target_keypoint := kp, status := .MATCH_OK } := by
  simp [StereoDisparity.refineMatchRounded, h, hk]

theorem refineMatchRounded_of_failure (sd : StereoDisparity) (m : FeatureMatch)
    (kp : KeypointData) (h : m.status = .MATCH_NEEDS_DEPTH_REFINEMENT)
    (hk : sd.getXyzInterpRounded m.refined_target_keypoint = some (false, kp)) :
    sd.refineMatchRounded m = some { m with
      refined_target_keypoint := kp, status := .MATCH_REFINEMENT_FAILED, inlier := false } := by
  simp [StereoDisparity.refineMatchRounded, h, hk]

/-- The buffer with the edge keypoint is a defined input of the sweep on every
3x3 grid of nine values. -/
theorem bufferEdge_refineDefinedRounded (sd : StereoDisparity) (hw : sd.width = 3)
    (hh : sd.height = 3) (d00 d10 d01 d11 : ℚ)
    (h00 : sd.disparity_data[1]? = some d00) (h10 : sd.disparity_data[2]? = some d10)
    (h01 : sd.disparity_data[4]? = some d01) (h11 : sd.disparity_data[5]? = some d11) :
    sd.RefineDefinedRounded bufferEdge 1 := by
  refine ⟨by simp [bufferEdge], fun i m hi hm _ => ?_⟩
  have hi' : i = 0 := by omega
  subst hi'
  simp only [bufferEdge, List.getElem?_cons_zero, Option.some.injEq] at hm
  subst hm
  show (sd.getXyzInterpRounded kpEdge).isSome = true
  rw [getXyzInterpRounded_kpEdge sd hw hh d00 d10 d01 d11 h00 h10 h01 h11]
  rfl

/-! ## Result flag of the interpolation with its conversions -/

/-- C18 (counterexample): at the position (1 - 2 ^ (-29), 0.5), in the margin
of the 3x3 grid with measurements in the last column only, the four corners
around the position all hold the sentinel; but the code narrows the column
to the `float` 1, reads columns 1 and 2, `getXyzInterp` returns `true`, and
`refineXyz` sets the match that needs refinement to `OK`. -/
theorem refineXyzRounded_edge_ok :
    sdColumns.InMargin kpEdge ∧
    sdColumns.pixel kpEdge.u0 kpEdge.v0 = some 0 ∧
    sdColumns.pixel (kpEdge.u0 + 1) kpEdge.v0 = some 0 ∧
    sdColumns.pixel kpEdge.u0 (kpEdge.v0 + 1) = some 0 ∧
    sdColumns.pixel (kpEdge.u0 + 1) (kpEdge.v0 + 1) = some 0 ∧
    (∃ kp', sdColumns.getXyzInterpRounded kpEdge = some (true, kp')) ∧
    ∃ ms' m', sdColumns.refineXyzRounded bufferEdge 1 = some ms' ∧ ms'[0]? = some m' ∧
      m'.status = .MATCH_OK := by
  obtain ⟨p00, p10, p01, p11⟩ := kpEdge_pixels sdColumns rfl
  have hrun : sdColumns.getXyzInterpRounded kpEdge =
      some (true, kpEdge.withPoint Vector3d.allNan) := by
    rw [getXyzInterpRounded_kpEdge sdColumns rfl rfl 0 4 0 8 rfl rfl rfl rfl]
    norm_num [StereoDisparity.interpolateCorners, markMissing, clampStep, getXyzValues_nan,
      KeypointData.withPoint]
  refine ⟨(kpEdge_inMargin sdColumns rfl rfl).1, p00, p10, p01, p11, ⟨_, hrun⟩, ?_⟩
  obtain ⟨ms', hms', -, hall⟩ := refineXyzRounded_spec sdColumns bufferEdge 1
    (bufferEdge_refineDefinedRounded sdColumns rfl rfl 0 4 0 8 rfl rfl rfl rfl)
  have h0 := hall 0
  rw [if_pos (by norm_num)] at h0
  have hb : bufferEdge[0]? = some ⟨kpEdge, true, .MATCH_NEEDS_DEPTH_REFINEMENT⟩ := rfl
  have hbody := refineMatchRounded_of_success sdColumns
    ⟨kpEdge, true, .MATCH_NEEDS_DEPTH_REFINEMENT⟩ (kpEdge.withPoint Vector3d.allNan) rfl hrun
  rw [hb, Option.some_bind, hbody] at h0
  exact ⟨ms', _, hms', h0, rfl⟩

/-- C18 (amended): when the position narrowed to single precision satisfies
the margin precondition and the four corners around the narrowed position
hold `d00`, `d10`, `d01`, `d11`, `getXyzInterp` returns, and returns `true`
exactly when one of them is not the sentinel; hence in a defined call of
`refineXyz` a match below `num_matches` that needs refinement and has this
refined target keypoint ends `REFINEMENT_FAILED` exactly when the four
corners around the narrowed position are all sentinel, and `OK` exactly when
they are not. -/
theorem getXyzInterpRounded_true_iff (sd : StereoDisparity) (kpdata : KeypointData)
    (d00 d10 d01 d11 : ℚ) (hm : sd.InMarginNarrowed kpdata)
    (h00 : sd.pixel kpdata.narrowU0 kpdata.narrowV0 = some d00)
    (h10 : sd.pixel (kpdata.narrowU0 + 1) kpdata.narrowV0 = some d10)
    (h01 : sd.pixel kpdata.narrowU0 (kpdata.narrowV0 + 1) = some d01)
    (h11 : sd.pixel (kpdata.narrowU0 + 1) (kpdata.narrowV0 + 1) = some d11) :
    (∃ b kp', sd.getXyzInterpRounded kpdata = some (b, kp') ∧
      (b = true ↔ (d00 ≠ 0 ∨ d10 ≠ 0 ∨ d01 ≠ 0 ∨ d11 ≠ 0))) ∧
    ∀ (ms : List FeatureMatch) (num_matches : ℤ) (i : ℕ) (m : FeatureMatch),
      sd.RefineDefinedRounded ms num_matches → (i : ℤ) < num_matches → ms[i]? = some m →
      m.status = .MATCH_NEEDS_DEPTH_REFINEMENT → m.refined_target_keypoint = kpdata →
      ∃ ms' m', sd.refineXyzRounded ms num_matches = some ms' ∧ ms'[i]? = some m' ∧
        (m'.status = .MATCH_REFINEMENT_FAILED ↔ (d00 = 0 ∧ d10 = 0 ∧ d01 = 0 ∧ d11 = 0)) ∧
        (m'.status = .MATCH_OK ↔ ¬ (d00 = 0 ∧ d10 = 0 ∧ d01 = 0 ∧ d11 = 0)) := by
  have hrun := getXyzInterpRounded_of_pixels sd kpdata d00 d10 d01 d11 hm.1 hm.2.2.1
    (assert_of_inMarginNarrowed hm) h00 h10 h01 h11
  have hflag := interpolateCorners_flag sd kpdata kpdata.narrowU0 kpdata.narrowV0
    (singleWeights kpdata.narrowFu kpdata.narrowFv) d00 d10 d01 d11
  generalize sd.interpolateCorners kpdata kpdata.narrowU0 kpdata.narrowV0
    (singleWeights kpdata.narrowFu kpdata.narrowFv) d00 d10 d01 d11 = r at hrun hflag
  obtain ⟨b, kp'⟩ := r
  simp only at hflag
  refine ⟨⟨b, kp', hrun, hflag⟩, fun ms num_matches i m hdef hi hget hst hkp => ?_⟩
  obtain ⟨ms', hms', -, hall⟩ := refineXyzRounded_spec sd ms num_matches hdef
  have hi' := hall i
  rw [if_pos hi, hget, Option.some_bind] at hi'
  rw [← hkp] at hrun
  cases b with
  | true =>
    have hne : ¬ (d00 = 0 ∧ d10 = 0 ∧ d01 = 0 ∧ d11 = 0) := by
      have := hflag.mp rfl
      tauto
    rw [refineMatchRounded_of_success sd m kp' hst hrun] at hi'
    exact ⟨ms', _, hms', hi', by simp [hne], by simp [hne]⟩
  | false =>
    have hall0 : d00 = 0 ∧ d10 = 0 ∧ d01 = 0 ∧ d11 = 0 := by
      by_contra hcon
      have : d00 ≠ 0 ∨ d10 ≠ 0 ∨ d01 ≠ 0 ∨ d11 ≠ 0 := by tauto
      exact absurd (hflag.mpr this) (by simp)
    rw [refineMatchRounded_of_failure sd m kp' hst hrun] at hi'
    exact ⟨ms', _, hms', hi', by simp [hall0], by simp [hall0]⟩

/-- C18 (witness): the match on the edge keypoint, which needs refinement:
on the grid with measurements in the first column only the corners around
the narrowed position are all sentinel and the match ends
`REFINEMENT_FAILED`; on the grid with rows (0, 1, 2), (0, 4, 8), (0, 0, 0)
they are 1, 2, 4, 8 and the match ends `OK`. -/
theorem getXyzInterpRounded_true_iff_witness :
    (sdLeft.InMarginNarrowed kpEdge ∧
      sdLeft.pixel kpEdge.narrowU0 kpEdge.narrowV0 = some 0 ∧
      sdLeft.pixel (kpEdge.narrowU0 + 1) kpEdge.narrowV0 = some 0 ∧
      sdLeft.pixel kpEdge.narrowU0 (kpEdge.narrowV0 + 1) = some 0 ∧
      sdLeft.pixel (kpEdge.narrowU0 + 1) (kpEdge.narrowV0 + 1) = some 0 ∧
      (∃ kp', sdLeft.getXyzInterpRounded kpEdge = some (false, kp')) ∧
      ∃ ms' m', sdLeft.refineXyzRounded bufferEdge 1 = some ms' ∧ ms'[0]? = some m' ∧
        m'.status = .MATCH_REFINEMENT_FAILED) ∧
    (sdRamp.InMarginNarrowed kpEdge ∧
      sdRamp.pixel kpEdge.narrowU0 kpEdge.narrowV0 = some 1 ∧
      sdRamp.pixel (kpEdge.narrowU0 + 1) kpEdge.narrowV0 = some 2 ∧
      sdRamp.pixel kpEdge.narrowU0 (kpEdge.narrowV0 + 1) = some 4 ∧
      sdRamp.pixel (kpEdge.narrowU0 + 1) (kpEdge.narrowV0 + 1) = some 8 ∧
      (∃ kp', sdRamp.getXyzInterpRounded kpEdge = some (true, kp')) ∧
      ∃ ms' m', sdRamp.refineXyzRounded bufferEdge 1 = some ms' ∧ ms'[0]? = some m' ∧
        m'.status = .MATCH_OK) := by
  constructor
  · obtain ⟨p00, p10, p01, p11⟩ := kpEdge_pixelsNarrowed sdLeft rfl
    have hm := (kpEdge_inMargin sdLeft rfl rfl).2
    obtain ⟨⟨b, kp', hrun, hflag⟩, hsweep⟩ :=
      getXyzInterpRounded_true_iff sdLeft kpEdge 0 0 0 0 hm p00 p10 p01 p11
    obtain ⟨ms', m', hms', hget, hfail, -⟩ := hsweep bufferEdge 1 0
      ⟨kpEdge, true, .MATCH_NEEDS_DEPTH_REFINEMENT⟩
      (bufferEdge_refineDefinedRounded sdLeft rfl rfl 0 0 0 0 rfl rfl rfl rfl)
      (by norm_num) rfl rfl rfl
    have hb : b = false := by
      cases b with
      | false => rfl
      | true => exact absurd (hflag.mp rfl) (by simp)
    subst hb
    exact ⟨hm, p00, p10, p01, p11, ⟨kp', hrun⟩, ms', m', hms', hget,
      hfail.mpr ⟨rfl, rfl, rfl, rfl⟩⟩
  · obtain ⟨p00, p10, p01, p11⟩ := kpEdge_pixelsNarrowed sdRamp rfl
    have hm := (kpEdge_inMargin sdRamp rfl rfl).2
    obtain ⟨⟨b, kp', hrun, hflag⟩, hsweep⟩ :=
      getXyzInterpRounded_true_iff sdRamp kpEdge 1 2 4 8 hm p00 p10 p01 p11
    obtain ⟨ms', m', hms', hget, -, hok⟩ := hsweep bufferEdge 1 0
      ⟨kpEdge, true, .MATCH_NEEDS_DEPTH_REFINEMENT⟩
      (bufferEdge_refineDefinedRounded sdRamp rfl rfl 1 2 4 8 rfl rfl rfl rfl)
      (by norm_num) rfl rfl rfl
    have hb : b = true := hflag.mpr (Or.inl (by norm_num))
    subst hb
    exact ⟨hm, p00, p10, p01, p11, ⟨kp', hrun⟩, ms', m', hms', hget,
      hok.mpr (by norm_num)⟩

end fovis
